import Mathlib

/-!
# RuleEngineAST: a shallow embedding

Go strings are modelled by `String` (a sequence of Unicode code points), `[]rune` by
`List Char`, `[]string` by `List String`, and `map[string]string` by a partial function
`String → Option String`.  A Go `(value, error)` result is an `Except`.
-/

deriving instance DecidableEq for Except

namespace parse

/-- The four sentinel errors declared in `ast.go`. -/
inductive Sentinel where
  | ErrConfig
  | ErrParse
  | ErrEval
  | ErrUnknownAST
  deriving DecidableEq, Repr

/-- The text of a sentinel error (the argument of `errors.New`). -/
def Sentinel.text : Sentinel → String
  | .ErrConfig => "config error"
  | .ErrParse => "error parsing"
  | .ErrEval => "eval error"
  | .ErrUnknownAST => "unknown AST node"

/-- A Go error value: the text returned by `Error()` and the sentinel it wraps through
the `%w` verb, when it wraps one (what `errors.Is` can find). -/
structure GoError where
  msg : String
  wraps : Option Sentinel
  deriving DecidableEq, Repr

/-- The error built by `fmt.Errorf("%w" ++ rest, s)`. -/
def wrapf (s : Sentinel) (rest : String) : GoError :=
  { msg := s.text ++ rest, wraps := some s }

/-- The values of the interface `AST` that the repository constructs.  The operator fields
hold the `uint8` code of a `bools.Op` (for `BinExpr`, `UnaryExpr`) or of a `comp.Op`
(for `EqualExpr`, `OrdinalExpr`). -/
inductive AST where
  | Unparsed (Contents : List String)
  | BinExpr (LHS RHS : AST) (Op : Nat)
  | UnaryExpr (Op : Nat) (Expr : AST)
  | EqualExpr (LHS RHS : AST) (Op : Nat)
  | OrdinalExpr (LHS RHS : AST) (Op : Nat)
  deriving DecidableEq, Repr

/-- A node of the keyword trie.  The Go fields `runes` and `children` are parallel slices of
equal length (only `add` appends to them, to both at once); they are kept here as one list
of edges, in slice order.  The zero value is `KeywordTrie.mk [] ""`. -/
inductive KeywordTrie where
  | mk (edges : List (Char × KeywordTrie)) (leaf : String)
  deriving Repr

/-- The edges of a node. -/
def KeywordTrie.edges : KeywordTrie → List (Char × KeywordTrie)
  | .mk es _ => es

/-- The terminal marker of a node. -/
def KeywordTrie.leaf : KeywordTrie → String
  | .mk _ l => l

/-- The child behind the first edge labelled `c` (the `for idx, r := range t.runes` scan). -/
def firstEdge (c : Char) : List (Char × KeywordTrie) → Option KeywordTrie
  | [] => none
  | (r, child) :: rest => if r = c then some child else firstEdge c rest

/-- `KeywordTrie.Match`. -/
def KeywordTrie.Match : List Char → KeywordTrie → String
  | [], t => t.leaf
  | c :: stream, t =>
    match firstEdge c t.edges with
    | some child =>
      let result := KeywordTrie.Match stream child
      if result = "" then t.leaf else result
    | none => t.leaf

/-- `KeywordTrie.MatchStr`. -/
def KeywordTrie.MatchStr (t : KeywordTrie) (str : String) : String :=
  KeywordTrie.Match str.data t

/-- `KeywordTrie.Contains`. -/
def KeywordTrie.Contains (t : KeywordTrie) (str : String) : Bool :=
  KeywordTrie.Match str.data t == str

/-- Replace the child behind the first edge labelled `c` by its image under `f`;
`none` when no edge is labelled `c`. -/
def updateFirstEdge (c : Char) (f : KeywordTrie → KeywordTrie) :
    List (Char × KeywordTrie) → Option (List (Char × KeywordTrie))
  | [] => none
  | (r, child) :: rest =>
    if r = c then some ((r, f child) :: rest)
    else (updateFirstEdge c f rest).map (fun es => (r, child) :: es)

/-- `KeywordTrie.add`: the trie after the in-place insertion of the runes `keyword`
with terminal marker `orig`. -/
def KeywordTrie.add (orig : String) : List Char → KeywordTrie → KeywordTrie
  | [], t => .mk t.edges orig
  | next :: keyword, t =>
    match updateFirstEdge next (KeywordTrie.add orig keyword) t.edges with
    | some es => .mk es t.leaf
    | none => .mk (t.edges ++ [(next, KeywordTrie.add orig keyword (.mk [] ""))]) t.leaf

/-- `KeywordTrie.Add`. -/
def KeywordTrie.Add (t : KeywordTrie) (keyword : String) : KeywordTrie :=
  KeywordTrie.add keyword keyword.data t

mutual
/-- `KeywordTrie.Count` (on a non-nil node). -/
def KeywordTrie.Count : KeywordTrie → Nat
  | .mk es leaf => (if leaf = "" then 0 else 1) + countChildren es
/-- The loop `for _, child := range t.children { sum += child.Count() }`. -/
def countChildren : List (Char × KeywordTrie) → Nat
  | [] => 0
  | (_, child) :: rest => child.Count + countChildren rest
end

/-- `unicode.IsSpace`: the Latin-1 white space characters and the other code points with
the Unicode White_Space property. -/
def IsSpace (r : Char) : Bool :=
  let n := r.toNat
  (9 ≤ n && n ≤ 13) || n = 32 || n = 133 || n = 160 || n = 5760 ||
    (8192 ≤ n && n ≤ 8202) || n = 8232 || n = 8233 || n = 8239 || n = 8287 || n = 12288

/-- The `push` closure of `Tokenize` guarded by `len(substr) > 0`. -/
def flush (substr : List Char) (result : List String) : List String :=
  if substr = [] then result else result ++ [String.mk substr]

/-- The scan loop of `Tokenize` over the runes from the current index on.  `skip` is the
number of runes the index still has to jump over after a keyword match
(`i += len(matched) - 1`, where `len` counts the bytes of the keyword). -/
def tokenizeLoop (openP closeP : Char) (keywordMatcher : KeywordTrie) :
    List Char → Nat → List Char → List String → List String
  | [], _, substr, result => flush substr result
  | _ :: rest, skip + 1, substr, result =>
    tokenizeLoop openP closeP keywordMatcher rest skip substr result
  | c :: rest, 0, substr, result =>
    if c = openP ∨ c = closeP then
      tokenizeLoop openP closeP keywordMatcher rest 0 [] (flush substr result ++ [String.mk [c]])
    else if IsSpace c then
      tokenizeLoop openP closeP keywordMatcher rest 0 [] (flush substr result)
    else
      let matched := KeywordTrie.Match (c :: rest) keywordMatcher
      if matched.utf8ByteSize > 0 then
        tokenizeLoop openP closeP keywordMatcher rest (matched.utf8ByteSize - 1) []
          (flush substr result ++ [matched])
      else
        tokenizeLoop openP closeP keywordMatcher rest 0 (substr ++ [c]) result

/-- `Tokenize`. -/
def Tokenize (str : String) (openP closeP : Char) (keywordMatcher : KeywordTrie) : List String :=
  tokenizeLoop openP closeP keywordMatcher str.data 0 [] []

end parse

/-- The functions of the Go standard library that the repository calls and does not define.
`ParseFloat s` stands for `strconv.ParseFloat(s, 32)`, with `none` for a non-nil error;
`lt` and `le` are the comparisons `<` and `<=` of `float64` (`x > y` is `lt y x` and
`x >= y` is `le y x`); `ToLower` is `strings.ToLower`. -/
structure GoLib where
  Float : Type
  ParseFloat : String → Option Float
  lt : Float → Float → Bool
  le : Float → Float → Bool
  ToLower : String → String

/-- What a call does in the model: it returns, it panics (nil dereference), or the recursion
budget of the model is used up. -/
inductive Outcome (α : Type) where
  | outOfFuel
  | panic
  | ret (a : α)
  deriving DecidableEq, Repr

/-- The result of a recursive-descent production: `none` when the recursion budget is used
up, otherwise the error, or the tree with the tokens from the new cursor position on. -/
abbrev ParseResult := Option (Except parse.GoError (parse.AST × List String))

/-- Sequencing of productions: `if err != nil { return nil, err }`. -/
def ParseResult.andThen (r : ParseResult)
    (k : parse.AST → List String → ParseResult) : ParseResult :=
  match r with
  | none => none
  | some (.error e) => some (.error e)
  | some (.ok (ast, rest)) => k ast rest

namespace bools

open parse

/-- The type `Op` (a `uint8`). -/
abbrev Op := Nat

/-- Constant `OpAnd`. -/
def OpAnd : Op := 1

/-- Constant `OpOr`. -/
def OpOr : Op := 2

/-- Constant `OpNot`. -/
def OpNot : Op := 3

/-- `Op.String`. -/
def Op.String (o : Op) : String :=
  if o = OpAnd then "AND" else if o = OpOr then "OR" else if o = OpNot then "NOT"
  else "unknown op"

/-- The token roles of the boolean grammar. -/
inductive Token where
  | And
  | Or
  | Not
  | OpenParen
  | CloseParen
  deriving DecidableEq, Repr

/-- The configuration fields of `Parser`.  The map `config` is the list of its entries, in
the order in which `range` visits them; Go leaves that order open, and the keywords the
matcher recognises do not depend on it (`parse.Match_foldl_Add_perm`).  The cursor fields
`tokens` and `curr` are passed explicitly: every production takes the tokens from `curr` on
and returns those that are left. -/
structure Parser where
  config : List (Token × String)
  caseInsensitive : Bool
  matcher : KeywordTrie
  deriving Repr

/-- The map read `p.config[token]` (the empty string for a missing key). -/
def Parser.cfg (p : Parser) (token : Token) : String :=
  (p.config.lookup token).getD ""

/-- Option `WithTokens`. -/
def WithTokens (config : List (Token × String)) (parser : Parser) : Parser :=
  { parser with config := config }

/-- Option `WithCaseSensitive`. -/
def WithCaseSensitive (caseSensitive : Bool) (parser : Parser) : Parser :=
  { parser with caseInsensitive := !caseSensitive }

/-- `Parser.init`: the configured parser, or the configuration error. -/
def Parser.init (L : GoLib) (p : Parser) : Except GoError Parser :=
  if (p.cfg .OpenParen).utf8ByteSize ≠ 1 ∨ (p.cfg .CloseParen).utf8ByteSize ≠ 1 then
    .error (wrapf .ErrConfig ": OpenParen and CloseParen must each have length 1")
  else if p.cfg .OpenParen = p.cfg .CloseParen then
    .error (wrapf .ErrConfig ": OpenParen and CloseParen must each be distinct")
  else
    let config := if p.caseInsensitive then p.config.map (fun e => (e.1, L.ToLower e.2))
      else p.config
    let matcher := config.foldl (fun m e => m.Add e.2) p.matcher
    if matcher.Count ≠ 5 then
      .error (wrapf .ErrConfig
        ": token collision detected; at least two of the configured tokens are identical")
    else .ok { p with config := config, matcher := matcher }

/-- `NewParser`. -/
def NewParser (L : GoLib) (opts : List (Parser → Parser)) : Except GoError Parser :=
  Parser.init L (opts.foldl (fun p opt => opt p)
    { config := [(.And, "AND"), (.Or, "OR"), (.Not, "NOT"), (.OpenParen, "("),
        (.CloseParen, ")")],
      caseInsensitive := false,
      matcher := .mk [] "" })

/-- `Parser.tokenize`.  The index `[0]` is in range for a parser that `init` accepted. -/
def Parser.tokenize (p : Parser) (str : String) : List String :=
  Tokenize str ((p.cfg .OpenParen).data.headD (Char.ofNat 0))
    ((p.cfg .CloseParen).data.headD (Char.ofNat 0)) p.matcher

/-- `Parser.match`: the tokens after the matched one, or `none` when the cursor is at the end
or the current token is not the surface of `token`. -/
def Parser.match_ (L : GoLib) (p : Parser) (token : Token) : List String → Option (List String)
  | [] => none
  | curr :: rest =>
    if (if p.caseInsensitive then L.ToLower curr else curr) = p.cfg token then some rest
    else none

/-- `Parser.isKeyword`. -/
def Parser.isKeyword (L : GoLib) (p : Parser) (str : String) : Bool :=
  p.matcher.Contains (if p.caseInsensitive then L.ToLower str else str)

/-- The loop of `parseRest`: the run of tokens collected, and the tokens left. -/
def Parser.restRun (L : GoLib) (p : Parser) : List String → List String × List String
  | [] => ([], [])
  | tok :: rest =>
    if p.isKeyword L tok then ([], tok :: rest)
    else ((tok :: (Parser.restRun L p rest).1), (Parser.restRun L p rest).2)

/-- `Parser.parseRest`. -/
def Parser.parseRest (L : GoLib) (p : Parser) (tokens : List String) : ParseResult :=
  if (p.restRun L tokens).1 = [] then
    some (.error (wrapf .ErrParse ": unexpected end of expression"))
  else some (.ok (.Unparsed (p.restRun L tokens).1, (p.restRun L tokens).2))

mutual
/-- `Parser.parseExpr`, with a recursion budget. -/
def Parser.parseExpr (L : GoLib) (p : Parser) : Nat → List String → ParseResult
  | 0, _ => none
  | n + 1, tokens => Parser.parseAnd L p n tokens
/-- `Parser.parseAnd`, with a recursion budget. -/
def Parser.parseAnd (L : GoLib) (p : Parser) : Nat → List String → ParseResult
  | 0, _ => none
  | n + 1, tokens =>
    (Parser.parseOr L p n tokens).andThen fun lhs rest =>
      match p.match_ L .And rest with
      | some rest1 =>
        (Parser.parseAnd L p n rest1).andThen fun rhs rest2 =>
          some (.ok (.BinExpr lhs rhs OpAnd, rest2))
      | none => some (.ok (lhs, rest))
/-- `Parser.parseOr`, with a recursion budget. -/
def Parser.parseOr (L : GoLib) (p : Parser) : Nat → List String → ParseResult
  | 0, _ => none
  | n + 1, tokens =>
    (Parser.parseNot L p n tokens).andThen fun lhs rest =>
      match p.match_ L .Or rest with
      | some rest1 =>
        (Parser.parseOr L p n rest1).andThen fun rhs rest2 =>
          some (.ok (.BinExpr lhs rhs OpOr, rest2))
      | none => some (.ok (lhs, rest))
/-- `Parser.parseNot`, with a recursion budget. -/
def Parser.parseNot (L : GoLib) (p : Parser) : Nat → List String → ParseResult
  | 0, _ => none
  | n + 1, tokens =>
    match p.match_ L .Not tokens with
    | some rest =>
      (Parser.parseParens L p n rest).andThen fun e rest1 =>
        some (.ok (.UnaryExpr OpNot e, rest1))
    | none => Parser.parseParens L p n tokens
/-- `Parser.parseParens`, with a recursion budget. -/
def Parser.parseParens (L : GoLib) (p : Parser) : Nat → List String → ParseResult
  | 0, _ => none
  | n + 1, tokens =>
    match p.match_ L .OpenParen tokens with
    | some rest =>
      (Parser.parseExpr L p n rest).andThen fun ast rest1 =>
        match p.match_ L .CloseParen rest1 with
        | some rest2 => some (.ok (ast, rest2))
        | none => some (.error (wrapf .ErrParse (": expected '" ++ p.cfg .CloseParen ++ "'")))
    | none => p.parseRest L tokens
end

/-- `Parser.Parse`.  The budget `5 * len(tokens) + 5` covers every chain of calls the five
productions can make on `tokens`. -/
def Parser.Parse (L : GoLib) (p : Parser) (tokens : List String) :
    Option (Except GoError AST) :=
  match Parser.parseExpr L p (5 * tokens.length + 5) tokens with
  | none => none
  | some (.error e) => some (.error e)
  | some (.ok (ast, [])) => some (.ok ast)
  | some (.ok (_, tok :: _)) =>
    some (.error (wrapf .ErrParse (": expected end of expression, found '" ++ tok ++ "'")))

/-- `Parser.ParseStr`. -/
def Parser.ParseStr (L : GoLib) (p : Parser) (str : String) : Option (Except GoError AST) :=
  p.Parse L (p.tokenize str)

end bools

namespace comp

open parse

/-- The type `Op` (a `uint8`). -/
abbrev Op := Nat

/-- Constant `OpEqual`. -/
def OpEqual : Op := 1

/-- Constant `OpNotEqual`. -/
def OpNotEqual : Op := 2

/-- Constant `OpGreaterOrEqual`. -/
def OpGreaterOrEqual : Op := 3

/-- Constant `OpGreater`. -/
def OpGreater : Op := 4

/-- Constant `OpLessOrEqual`. -/
def OpLessOrEqual : Op := 5

/-- Constant `OpLess`. -/
def OpLess : Op := 6

/-- `Op.String`. -/
def Op.String (o : Op) : String :=
  if o = OpEqual then "==" else if o = OpNotEqual then "!=" else if o = OpGreater then ">"
  else if o = OpGreaterOrEqual then ">=" else if o = OpLess then "<"
  else if o = OpLessOrEqual then "<=" else "unknown op"

/-- The token roles of the comparison grammar. -/
inductive Token where
  | Equal
  | NotEqual
  | GreaterOrEqual
  | Greater
  | LessOrEqual
  | Less
  | OpenParen
  | CloseParen
  deriving DecidableEq, Repr

/-- The configuration fields of `Parser`; the cursor fields are passed explicitly, as for
the boolean grammar. -/
structure Parser where
  config : List (Token × String)
  caseInsensitive : Bool
  matcher : KeywordTrie
  deriving Repr

/-- The map read `p.config[token]` (the empty string for a missing key). -/
def Parser.cfg (p : Parser) (token : Token) : String :=
  (p.config.lookup token).getD ""

/-- Option `WithTokens`. -/
def WithTokens (config : List (Token × String)) (parser : Parser) : Parser :=
  { parser with config := config }

/-- Option `WithCaseSensitive`. -/
def WithCaseSensitive (caseSensitive : Bool) (parser : Parser) : Parser :=
  { parser with caseInsensitive := !caseSensitive }

/-- `Parser.init`: the configured parser, or the configuration error. -/
def Parser.init (L : GoLib) (p : Parser) : Except GoError Parser :=
  if (p.cfg .OpenParen).utf8ByteSize ≠ 1 ∨ (p.cfg .CloseParen).utf8ByteSize ≠ 1 then
    .error (wrapf .ErrConfig ": OpenParen and CloseParen must each have length 1")
  else if p.cfg .OpenParen = p.cfg .CloseParen then
    .error (wrapf .ErrConfig ": OpenParen and CloseParen must each be distinct")
  else
    let config := if p.caseInsensitive then p.config.map (fun e => (e.1, L.ToLower e.2))
      else p.config
    let matcher := config.foldl (fun m e => m.Add e.2) p.matcher
    if matcher.Count ≠ 8 then
      .error (wrapf .ErrConfig
        ": token collision detected; at least two of the provided tokens are identical")
    else .ok { p with config := config, matcher := matcher }

/-- `NewParser`. -/
def NewParser (L : GoLib) (opts : List (Parser → Parser)) : Except GoError Parser :=
  Parser.init L (opts.foldl (fun p opt => opt p)
    { config := [(.Equal, "=="), (.NotEqual, "!="), (.Greater, ">"), (.GreaterOrEqual, ">="),
        (.Less, "<"), (.LessOrEqual, "<="), (.OpenParen, "("), (.CloseParen, ")")],
      caseInsensitive := false,
      matcher := .mk [] "" })

/-- `Parser.tokenize`.  The index `[0]` is in range for a parser that `init` accepted. -/
def Parser.tokenize (p : Parser) (str : String) : List String :=
  Tokenize str ((p.cfg .OpenParen).data.headD (Char.ofNat 0))
    ((p.cfg .CloseParen).data.headD (Char.ofNat 0)) p.matcher

/-- `Parser.isKeyword`. -/
def Parser.isKeyword (L : GoLib) (p : Parser) (str : String) : Bool :=
  p.matcher.Contains (if p.caseInsensitive then L.ToLower str else str)

/-- `Parser.match`: the tokens after the matched one, or `none` when the cursor is at the end
or the current token is not the surface of `token`. -/
def Parser.match_ (L : GoLib) (p : Parser) (token : Token) : List String → Option (List String)
  | [] => none
  | curr :: rest =>
    if (if p.caseInsensitive then L.ToLower curr else curr) = p.cfg token then some rest
    else none

/-- `Parser.matchOps`: the first of `ops` that matches, with the tokens after it; `none`
stands for the result `0`. -/
def Parser.matchOps (L : GoLib) (p : Parser) :
    List Token → List String → Option (Token × List String)
  | [], _ => none
  | op :: ops, tokens =>
    match p.match_ L op tokens with
    | some rest => some (op, rest)
    | none => Parser.matchOps L p ops tokens

/-- `tokenToOp`. -/
def tokenToOp : Token → Op
  | .Equal => OpEqual
  | .NotEqual => OpNotEqual
  | .Greater => OpGreater
  | .GreaterOrEqual => OpGreaterOrEqual
  | .Less => OpLess
  | .LessOrEqual => OpLessOrEqual
  | _ => 0

/-- The loop of `parseRest`: the run of tokens collected, and the tokens left. -/
def Parser.restRun (L : GoLib) (p : Parser) : List String → List String × List String
  | [] => ([], [])
  | tok :: rest =>
    if p.isKeyword L tok then ([], tok :: rest)
    else ((tok :: (Parser.restRun L p rest).1), (Parser.restRun L p rest).2)

/-- `Parser.parseRest`. -/
def Parser.parseRest (L : GoLib) (p : Parser) (tokens : List String) : ParseResult :=
  if (p.restRun L tokens).1 = [] then
    some (.error (wrapf .ErrParse ": unexpected end of expression"))
  else some (.ok (.Unparsed (p.restRun L tokens).1, (p.restRun L tokens).2))

mutual
/-- `Parser.parseExpr`, with a recursion budget. -/
def Parser.parseExpr (L : GoLib) (p : Parser) : Nat → List String → ParseResult
  | 0, _ => none
  | n + 1, tokens => Parser.parseEqual L p n tokens
/-- `Parser.parseEqual`, with a recursion budget. -/
def Parser.parseEqual (L : GoLib) (p : Parser) : Nat → List String → ParseResult
  | 0, _ => none
  | n + 1, tokens =>
    (Parser.parseOrdinal L p n tokens).andThen fun lhs rest =>
      match p.matchOps L [.Equal, .NotEqual] rest with
      | some (op, rest1) =>
        (Parser.parseOrdinal L p n rest1).andThen fun rhs rest2 =>
          some (.ok (.EqualExpr lhs rhs (tokenToOp op), rest2))
      | none => some (.ok (lhs, rest))
/-- `Parser.parseOrdinal`, with a recursion budget. -/
def Parser.parseOrdinal (L : GoLib) (p : Parser) : Nat → List String → ParseResult
  | 0, _ => none
  | n + 1, tokens =>
    (Parser.parseTerm L p n tokens).andThen fun lhs rest =>
      match p.matchOps L [.GreaterOrEqual, .LessOrEqual, .Greater, .Less] rest with
      | some (op, rest1) =>
        (Parser.parseTerm L p n rest1).andThen fun rhs rest2 =>
          some (.ok (.OrdinalExpr lhs rhs (tokenToOp op), rest2))
      | none => some (.ok (lhs, rest))
/-- `Parser.parseTerm`, with a recursion budget. -/
def Parser.parseTerm (L : GoLib) (p : Parser) : Nat → List String → ParseResult
  | 0, _ => none
  | n + 1, tokens =>
    match p.match_ L .OpenParen tokens with
    | some rest =>
      (Parser.parseExpr L p n rest).andThen fun ast rest1 =>
        match p.match_ L .CloseParen rest1 with
        | some rest2 => some (.ok (ast, rest2))
        | none => some (.error (wrapf .ErrParse (": expected '" ++ p.cfg .CloseParen ++ "'")))
    | none => p.parseRest L tokens
end

/-- `Parser.Parse`.  The budget `4 * len(tokens) + 4` covers every chain of calls the four
productions can make on `tokens`. -/
def Parser.Parse (L : GoLib) (p : Parser) (tokens : List String) :
    Option (Except GoError AST) :=
  match Parser.parseExpr L p (4 * tokens.length + 4) tokens with
  | none => none
  | some (.error e) => some (.error e)
  | some (.ok (ast, [])) => some (.ok ast)
  | some (.ok (_, tok :: _)) =>
    some (.error (wrapf .ErrParse (": expected end of expression; found '" ++ tok ++ "'")))

/-- `Parser.ParseStr`. -/
def Parser.ParseStr (L : GoLib) (p : Parser) (str : String) : Option (Except GoError AST) :=
  p.Parse L (p.tokenize str)

end comp

namespace parse

/-- The method `Parse(p parse.Parser) error` of the node types: the tree after the in-place
replacement of the unparsed nodes, or the error.  `p` is the method `Parse` of the parser
passed in; `none` when that parser's recursion budget is used up. -/
def AST.Parse (p : List String → Option (Except GoError AST)) :
    AST → Option (Except GoError AST)
  | .Unparsed _ => some (.error (wrapf .ErrParse ": attempted to parse Unparsed node"))
  | .BinExpr LHS RHS Op =>
    match (match LHS with
      | .Unparsed Contents => p Contents
      | _ => AST.Parse p LHS) with
    | none => none
    | some (.error err) => some (.error err)
    | some (.ok newLHS) =>
      match (match RHS with
        | .Unparsed Contents => p Contents
        | _ => AST.Parse p RHS) with
      | none => none
      | some (.error err) => some (.error err)
      | some (.ok newRHS) => some (.ok (.BinExpr newLHS newRHS Op))
  | .UnaryExpr Op Expr =>
    match (match Expr with
      | .Unparsed Contents => p Contents
      | _ => AST.Parse p Expr) with
    | none => none
    | some (.error err) => some (.error err)
    | some (.ok newExpr) => some (.ok (.UnaryExpr Op newExpr))
  | .EqualExpr LHS RHS Op =>
    match (match LHS with
      | .Unparsed Contents => p Contents
      | _ => AST.Parse p LHS) with
    | none => none
    | some (.error err) => some (.error err)
    | some (.ok newLHS) =>
      match (match RHS with
        | .Unparsed Contents => p Contents
        | _ => AST.Parse p RHS) with
      | none => none
      | some (.error err) => some (.error err)
      | some (.ok newRHS) => some (.ok (.EqualExpr newLHS newRHS Op))
  | .OrdinalExpr LHS RHS Op =>
    match (match LHS with
      | .Unparsed Contents => p Contents
      | _ => AST.Parse p LHS) with
    | none => none
    | some (.error err) => some (.error err)
    | some (.ok newLHS) =>
      match (match RHS with
        | .Unparsed Contents => p Contents
        | _ => AST.Parse p RHS) with
      | none => none
      | some (.error err) => some (.error err)
      | some (.ok newRHS) => some (.ok (.OrdinalExpr newLHS newRHS Op))

end parse

namespace controller

open parse

/-- The struct `EvaluateNode`. -/
structure EvaluateNode where
  Key : String
  MatchValue : Bool
  deriving DecidableEq, Repr

/-- `strings.Join`. -/
def Join : List String → String → String
  | [], _ => ""
  | [a], _ => a
  | a :: b :: rest, sep => a ++ sep ++ Join (b :: rest) sep

/-- The call `strings.ReplaceAll(key, "'", "")`: every apostrophe removed. -/
def stripQuotes (key : String) : String :=
  String.mk (key.data.filter (fun c => c ≠ Char.ofNat 39))

/-- `RuleEngine.parseTree`.  The errors of the two `NewParser` calls are discarded by the
source; a nil parser would be dereferenced by the calls that follow. -/
def parseTree (L : GoLib) (ruleString : String) : Outcome (Except GoError AST) :=
  match bools.NewParser L [], comp.NewParser L [] with
  | .ok bParser, .ok cParser =>
    match bParser.ParseStr L ruleString with
    | none => .outOfFuel
    | some (.error err) => .ret (.error err)
    | some (.ok ast) =>
      match ast.Parse (cParser.Parse L) with
      | none => .outOfFuel
      | some (.error err) =>
        .ret (.error { msg := "error parsing comparison: " ++ err.msg ++ "\n", wraps := none })
      | some (.ok ast1) => .ret (.ok ast1)
  | _, _ => .panic

/-- `RuleEngine.combineRule`. -/
def combineRule (r1 r2 strategy : String) : String :=
  "(" ++ r1 ++ ") " ++ strategy ++ " (" ++ r2 ++ ")"

/-- A field read through a pointer: a panic when the pointer is nil. -/
def deref (ptr : Option EvaluateNode) (k : EvaluateNode → Outcome (Option EvaluateNode)) :
    Outcome (Option EvaluateNode) :=
  match ptr with
  | none => .panic
  | some node => k node

/-- Sequencing of two calls of `evaluateRule`. -/
def thenEval (r : Outcome (Option EvaluateNode))
    (k : Option EvaluateNode → Outcome (Option EvaluateNode)) : Outcome (Option EvaluateNode) :=
  match r with
  | .ret ptr => k ptr
  | .panic => .panic
  | .outOfFuel => .outOfFuel

/-- `RuleEngine.evaluateRule`: the pointer returned (`none` for nil), or a panic. -/
def evaluateRule (L : GoLib) : AST → (String → Option String) → Outcome (Option EvaluateNode)
  | .BinExpr LHS RHS Op, dataMap =>
    thenEval (evaluateRule L LHS dataMap) fun leftEval =>
    thenEval (evaluateRule L RHS dataMap) fun rightEval =>
      if bools.Op.String Op = "AND" then
        deref leftEval fun l =>
          if l.MatchValue then deref rightEval fun r =>
            .ret (some { Key := "", MatchValue := r.MatchValue })
          else .ret (some { Key := "", MatchValue := false })
      else if bools.Op.String Op = "OR" then
        deref leftEval fun l =>
          if l.MatchValue then .ret (some { Key := "", MatchValue := true })
          else deref rightEval fun r =>
            .ret (some { Key := "", MatchValue := r.MatchValue })
      else .ret (some { Key := "", MatchValue := false })
  | .EqualExpr LHS RHS Op, dataMap =>
    thenEval (evaluateRule L LHS dataMap) fun leftEval =>
    thenEval (evaluateRule L RHS dataMap) fun rightEval =>
      deref leftEval fun l =>
        match dataMap l.Key with
        | none => .ret (some { Key := "", MatchValue := false })
        | some val =>
          if Op = comp.OpEqual then
            deref rightEval fun r => .ret (some { Key := "", MatchValue := r.Key == val })
          else if Op = comp.OpNotEqual then
            deref rightEval fun r => .ret (some { Key := "", MatchValue := r.Key != val })
          else .ret none
  | .OrdinalExpr LHS RHS Op, dataMap =>
    thenEval (evaluateRule L LHS dataMap) fun leftEval =>
    thenEval (evaluateRule L RHS dataMap) fun rightEval =>
      deref leftEval fun l =>
        match dataMap l.Key with
        | none => .ret (some { Key := "", MatchValue := false })
        | some val =>
          deref rightEval fun r =>
            match L.ParseFloat r.Key with
            | none => .ret (some { Key := "", MatchValue := false })
            | some ruleData =>
              match L.ParseFloat val with
              | none => .ret (some { Key := "", MatchValue := false })
              | some dataVal =>
                if Op = comp.OpGreater then
                  .ret (some { Key := "", MatchValue := L.lt ruleData dataVal })
                else if Op = comp.OpGreaterOrEqual then
                  .ret (some { Key := "", MatchValue := L.le ruleData dataVal })
                else if Op = comp.OpLess then
                  .ret (some { Key := "", MatchValue := L.lt dataVal ruleData })
                else if Op = comp.OpLessOrEqual then
                  .ret (some { Key := "", MatchValue := L.le dataVal ruleData })
                else .ret none
  | .Unparsed Contents, _ =>
    .ret (some { Key := stripQuotes (Join Contents " "), MatchValue := true })
  | .UnaryExpr _ _, _ => .ret none

/-- What the handler `EvaluateRule` sends. -/
inductive Response where
  | internalServerError (body : String)
  | ok (rule_match : Bool)
  deriving DecidableEq, Repr

/-- The handler `EvaluateRule` after the request body has been bound to `Rule` and `Data`. -/
def EvaluateRule (L : GoLib) (Rule : String) (Data : String → Option String) :
    Outcome Response :=
  match parseTree L Rule with
  | .outOfFuel => .outOfFuel
  | .panic => .panic
  | .ret (.error err) => .ret (.internalServerError err.msg)
  | .ret (.ok ast) =>
    match evaluateRule L ast Data with
    | .outOfFuel => .outOfFuel
    | .panic => .panic
    | .ret none => .panic
    | .ret (some evalNode) => .ret (.ok evalNode.MatchValue)

end controller

/-! ## Values used in the statements -/

/-- The parser that `bools.NewParser()` returns when called without options. -/
def bools.defaultParser : bools.Parser :=
  { config := [(.And, "AND"), (.Or, "OR"), (.Not, "NOT"), (.OpenParen, "("),
      (.CloseParen, ")")],
    caseInsensitive := false,
    matcher := ["AND", "OR", "NOT", "(", ")"].foldl parse.KeywordTrie.Add (.mk [] "") }

/-- The parser that `comp.NewParser()` returns when called without options. -/
def comp.defaultParser : comp.Parser :=
  { config := [(.Equal, "=="), (.NotEqual, "!="), (.Greater, ">"), (.GreaterOrEqual, ">="),
      (.Less, "<"), (.LessOrEqual, "<="), (.OpenParen, "("), (.CloseParen, ")")],
    caseInsensitive := false,
    matcher := ["==", "!=", ">", ">=", "<", "<=", "(", ")"].foldl parse.KeywordTrie.Add
      (.mk [] "") }

/-- The map `map[string]string` with the given entries. -/
def controller.bindings (entries : List (String × String)) : String → Option String :=
  fun key => entries.lookup key

/-- The value of a decimal numeral, `none` when a character is not a decimal digit. -/
def decimalValue : List Char → Option Nat
  | [] => none
  | cs => if cs.all Char.isDigit then some (cs.foldl (fun acc c => 10 * acc + (c.toNat - 48)) 0)
    else none

/-- A library on which the statements below are instantiated: the numbers are the integers,
`ParseFloat` reads a decimal integer numeral with an optional sign (on these, up to `2^24`
in magnitude, `strconv.ParseFloat(s, 32)` returns the same number with a nil error), and
`ToLower` folds the ASCII letters. -/
def integerLib : GoLib :=
  { Float := Int,
    ParseFloat := fun s =>
      match s.data with
      | '-' :: cs => (decimalValue cs).map fun n => - (n : Int)
      | '+' :: cs => (decimalValue cs).map fun n => (n : Int)
      | cs => (decimalValue cs).map fun n => (n : Int),
    lt := fun a b => decide (a < b),
    le := fun a b => decide (a ≤ b),
    ToLower := fun s => String.mk (s.data.map Char.toLower) }

/-- The operand runs of a tree, from left to right. -/
def parse.AST.runs : parse.AST → List (List String)
  | .Unparsed Contents => [Contents]
  | .BinExpr LHS RHS _ => LHS.runs ++ RHS.runs
  | .UnaryExpr _ Expr => Expr.runs
  | .EqualExpr LHS RHS _ => LHS.runs ++ RHS.runs
  | .OrdinalExpr LHS RHS _ => LHS.runs ++ RHS.runs

/-- The step the `Parse` methods take on one child: an `Unparsed` child is handed to the
parser, any other child is parsed in place. -/
def parse.AST.parseChild (p : List String → Option (Except parse.GoError parse.AST)) :
    parse.AST → Option (Except parse.GoError parse.AST)
  | .Unparsed Contents => p Contents
  | .BinExpr LHS RHS Op => parse.AST.Parse p (.BinExpr LHS RHS Op)
  | .UnaryExpr Op Expr => parse.AST.Parse p (.UnaryExpr Op Expr)
  | .EqualExpr LHS RHS Op => parse.AST.Parse p (.EqualExpr LHS RHS Op)
  | .OrdinalExpr LHS RHS Op => parse.AST.Parse p (.OrdinalExpr LHS RHS Op)

/-- Sequencing of the steps of a `Parse` method. -/
def parse.thenParse (r : Option (Except parse.GoError parse.AST))
    (k : parse.AST → Option (Except parse.GoError parse.AST)) :
    Option (Except parse.GoError parse.AST) :=
  match r with
  | none => none
  | some (.error err) => some (.error err)
  | some (.ok ast) => k ast

/-- The node reached from `t` along the runes `q`, following at each node the first edge with
the rune's label. -/
def parse.KeywordTrie.walk : List Char → parse.KeywordTrie → Option parse.KeywordTrie
  | [], t => some t
  | c :: q, t =>
    match parse.firstEdge c t.edges with
    | some child => parse.KeywordTrie.walk q child
    | none => none

/-- The terminal marker of the node reached along `q`; the empty string when there is no
such node. -/
def parse.KeywordTrie.leafAt (t : parse.KeywordTrie) (q : List Char) : String :=
  match parse.KeywordTrie.walk q t with
  | some node => node.leaf
  | none => ""

/-- The last non-empty marker along the prefixes of a stream, for markers given as a function
of the path; the marker of the empty path when all the others are empty. -/
def parse.deepestMarker (marker : List Char → String) : List Char → String
  | [] => marker []
  | c :: stream =>
    if parse.deepestMarker (fun q => marker (c :: q)) stream = "" then marker []
    else parse.deepestMarker (fun q => marker (c :: q)) stream

/-- A production result that is within the recursion budget and, when it is a tree, leaves
fewer than `m` tokens. -/
def ParseResult.Consumes (r : ParseResult) (m : Nat) : Prop :=
  ∃ res, r = some res ∧ ∀ ast rest, res = .ok (ast, rest) → rest.length < m

namespace parse

/-- `errors.Is(err, target)` for an error value, or nil (`none`). -/
def errorsIs (err : Option GoError) (target : Sentinel) : Bool :=
  match err with
  | none => false
  | some e => e.wraps = some target

/-- The type `Interpreter[T]`: a function from a node to a value and an error (`none` for a
nil error). -/
abbrev Interpreter (T : Type) := AST → T × Option GoError

/-- `Interpreter.WithFallback`. -/
def Interpreter.WithFallback {T : Type} (i b : Interpreter T) : Interpreter T :=
  fun ast => if errorsIs (i ast).2 .ErrUnknownAST then b ast else i ast

end parse

/-- The parser on which `bools.NewParser` calls `init` when it is given the options
`WithTokens(config)` and `WithCaseSensitive(caseSensitive)`. -/
def bools.configured (config : List (bools.Token × String)) (caseSensitive : Bool) :
    bools.Parser :=
  { config := config, caseInsensitive := !caseSensitive, matcher := .mk [] "" }

/-- The surfaces that `init` adds to the matcher: those of `config`, lower-cased when the
parser is case-insensitive. -/
def bools.surfaces (L : GoLib) (config : List (bools.Token × String)) (caseSensitive : Bool) :
    List String :=
  config.map fun e => if caseSensitive then e.2 else L.ToLower e.2

/-- The parser on which `comp.NewParser` calls `init` when it is given the options
`WithTokens(config)` and `WithCaseSensitive(caseSensitive)`. -/
def comp.configured (config : List (comp.Token × String)) (caseSensitive : Bool) :
    comp.Parser :=
  { config := config, caseInsensitive := !caseSensitive, matcher := .mk [] "" }

/-- The surfaces that `init` adds to the matcher: those of `config`, lower-cased when the
parser is case-insensitive. -/
def comp.surfaces (L : GoLib) (config : List (comp.Token × String)) (caseSensitive : Bool) :
    List String :=
  config.map fun e => if caseSensitive then e.2 else L.ToLower e.2

/-- The operand runs of a tree are non-empty and hold no keyword of the boolean parser `p`. -/
def bools.Operands (L : GoLib) (p : bools.Parser) (ast : parse.AST) : Prop :=
  ∀ r ∈ ast.runs, r ≠ [] ∧ ∀ tok ∈ r, p.isKeyword L tok = false

/-- The operand runs of a tree are non-empty and hold tokens of `tokens` only, none of them a
keyword of the comparison parser `p`. -/
def comp.Operands (L : GoLib) (p : comp.Parser) (tokens : List String) (ast : parse.AST) :
    Prop :=
  ∀ r ∈ ast.runs, r ≠ [] ∧ ∀ tok ∈ r, p.isKeyword L tok = false ∧ tok ∈ tokens

/-- The characters of a token sequence, in order. -/
def parse.tokenChars (tokens : List String) : List Char :=
  (tokens.map String.data).flatten

namespace bools

open parse

/-- `Eval`.  A nil `interpreter` is `none`.  The interface value `expr` holds one of the node
types of the repository, so the check `expr == nil` does not fire; the nodes that are neither
`*BinExpr` nor `*UnaryExpr` go to the interpreter. -/
def Eval : AST → Option (Interpreter Bool) → Bool × Option GoError
  | _, none => (false, some (wrapf .ErrEval ": nil Interpreter"))
  | .BinExpr LHS RHS op, some interpreter =>
    if op ≠ OpAnd ∧ op ≠ OpOr then
      (false, some { msg := "unexpected binary boolean operator: " ++ bools.Op.String op,
                     wraps := none })
    else
      match Eval RHS (some interpreter) with
      | (_, some err) => (false, some err)
      | (rhs, none) =>
        match Eval LHS (some interpreter) with
        | (_, some err) => (false, some err)
        | (lhs, none) =>
          if op = OpAnd then (rhs && lhs, none)
          else if op = OpOr then (rhs || lhs, none)
          else (false, some { msg := "unexpected expression", wraps := none })
  | .UnaryExpr op Expr, some interpreter =>
    if op ≠ OpNot then
      (false, some { msg := "unexpected boolean unary operator: " ++ bools.Op.String op,
                     wraps := none })
    else
      match Eval Expr (some interpreter) with
      | (_, some err) => (false, some err)
      | (val, none) => (!val, none)
  | .Unparsed Contents, some interpreter => interpreter (.Unparsed Contents)
  | .EqualExpr LHS RHS Op, some interpreter => interpreter (.EqualExpr LHS RHS Op)
  | .OrdinalExpr LHS RHS Op, some interpreter => interpreter (.OrdinalExpr LHS RHS Op)

/-- An interpreter of one-word leaves over a table of variables: the value of a variable of
the table, and an evaluation error for any other leaf. -/
def tableInterpreter (table : List (String × Bool)) : Interpreter Bool :=
  fun ast =>
    match ast with
    | .Unparsed [name] =>
      match table.lookup name with
      | some val => (val, none)
      | none => (false, some (wrapf .ErrEval (": unknown variable '" ++ name ++ "'")))
    | _ => (false, some (wrapf .ErrUnknownAST ": unknown AST node"))

end bools

/-! ## Theorems -/

theorem ParseResult.Consumes.mono (r : ParseResult) (m m' : Nat) (h : r.Consumes m)
    (hle : m ≤ m') : r.Consumes m' := by
  obtain ⟨res, h1, h2⟩ := h
  exact ⟨res, h1, fun ast rest he => Nat.lt_of_lt_of_le (h2 ast rest he) hle⟩

theorem ParseResult.consumes_error (e : parse.GoError) (m : Nat) :
    ParseResult.Consumes (some (.error e)) m :=
  ⟨_, rfl, fun _ _ he => by cases he⟩

theorem ParseResult.consumes_ok (ast : parse.AST) (rest : List String) (m : Nat)
    (h : rest.length < m) : ParseResult.Consumes (some (.ok (ast, rest))) m :=
  ⟨_, rfl, fun _ _ he => by cases he; exact h⟩

theorem ParseResult.Consumes.andThen (r : ParseResult)
    (k : parse.AST → List String → ParseResult) (m m' : Nat) (h : r.Consumes m)
    (hk : ∀ ast rest, rest.length < m → (k ast rest).Consumes m') :
    (r.andThen k).Consumes m' := by
  obtain ⟨res, h1, h2⟩ := h
  subst h1
  rcases res with e | ⟨ast, rest⟩
  · exact ParseResult.consumes_error e m'
  · exact hk ast rest (h2 ast rest rfl)


namespace parse

theorem firstEdge_update_none (c : Char) (f : KeywordTrie → KeywordTrie)
    (es : List (Char × KeywordTrie)) (h : firstEdge c es = none) :
    updateFirstEdge c f es = none := by
  induction es with
  | nil => rfl
  | cons e es ih =>
    obtain ⟨r, child⟩ := e
    by_cases hr : r = c
    · simp [firstEdge, hr] at h
    · simp only [firstEdge, hr, if_false] at h
      simp [updateFirstEdge, hr, ih h]

theorem firstEdge_update_some (c : Char) (f : KeywordTrie → KeywordTrie)
    (es : List (Char × KeywordTrie)) (child : KeywordTrie) (h : firstEdge c es = some child) :
    ∃ es', updateFirstEdge c f es = some es' ∧ firstEdge c es' = some (f child) ∧
      ∀ d, d ≠ c → firstEdge d es' = firstEdge d es := by
  induction es with
  | nil => simp [firstEdge] at h
  | cons e es ih =>
    obtain ⟨r, x⟩ := e
    by_cases hr : r = c
    · simp only [firstEdge, hr, if_true, Option.some.injEq] at h
      refine ⟨(r, f x) :: es, by simp [updateFirstEdge, hr], by simp [firstEdge, hr, h], ?_⟩
      intro d hd
      have hrd : ¬ r = d := fun hrd => hd (hrd ▸ hr)
      simp [firstEdge, hrd]
    · simp only [firstEdge, hr, if_false] at h
      obtain ⟨es', h1, h2, h3⟩ := ih h
      refine ⟨(r, x) :: es', by simp [updateFirstEdge, hr, h1], by simp [firstEdge, hr, h2], ?_⟩
      intro d hd
      by_cases hrd : r = d
      · simp [firstEdge, hrd]
      · simp [firstEdge, hrd, h3 d hd]

theorem firstEdge_append_new (c : Char) (x : KeywordTrie) (es : List (Char × KeywordTrie))
    (h : firstEdge c es = none) :
    firstEdge c (es ++ [(c, x)]) = some x ∧
      ∀ d, d ≠ c → firstEdge d (es ++ [(c, x)]) = firstEdge d es := by
  induction es with
  | nil =>
    refine ⟨by simp [firstEdge], ?_⟩
    intro d hd
    have hcd : ¬ c = d := fun hcd => hd hcd.symm
    simp [firstEdge, hcd]
  | cons e es ih =>
    obtain ⟨r, y⟩ := e
    by_cases hr : r = c
    · simp [firstEdge, hr] at h
    · simp only [firstEdge, hr, if_false] at h
      obtain ⟨h1, h2⟩ := ih h
      refine ⟨by simp [firstEdge, hr, h1], ?_⟩
      intro d hd
      by_cases hrd : r = d
      · simp [firstEdge, hrd]
      · simp [firstEdge, hrd, h2 d hd]

theorem leafAt_nil (t : KeywordTrie) : t.leafAt [] = t.leaf := rfl

theorem leafAt_cons_some (t child : KeywordTrie) (c : Char) (q : List Char)
    (h : firstEdge c t.edges = some child) : t.leafAt (c :: q) = child.leafAt q := by
  simp [KeywordTrie.leafAt, KeywordTrie.walk, h]

theorem leafAt_cons_none (t : KeywordTrie) (c : Char) (q : List Char)
    (h : firstEdge c t.edges = none) : t.leafAt (c :: q) = "" := by
  simp [KeywordTrie.leafAt, KeywordTrie.walk, h]

theorem leafAt_empty (q : List Char) : (KeywordTrie.mk [] "").leafAt q = "" := by
  cases q with
  | nil => rfl
  | cons c q => exact leafAt_cons_none _ c q rfl

/-- After `add`, the node at the end of the keyword carries the marker `orig`; the marker
along every other path is as before. -/
theorem leafAt_add (orig : String) (keyword : List Char) :
    ∀ (t : KeywordTrie) (q : List Char),
      (KeywordTrie.add orig keyword t).leafAt q = if q = keyword then orig else t.leafAt q := by
  induction keyword with
  | nil =>
    intro t q
    cases q with
    | nil => rfl
    | cons c q =>
      simp only [KeywordTrie.add, reduceCtorEq, if_false]
      cases h : firstEdge c t.edges with
      | none => rw [leafAt_cons_none _ c q (by simpa [KeywordTrie.edges] using h),
          leafAt_cons_none _ c q h]
      | some child => rw [leafAt_cons_some _ child c q (by simpa [KeywordTrie.edges] using h),
          leafAt_cons_some _ child c q h]
  | cons next keyword ih =>
    intro t q
    rw [KeywordTrie.add]
    cases h : firstEdge next t.edges with
    | none =>
      rw [firstEdge_update_none next _ t.edges h]
      obtain ⟨h1, h2⟩ := firstEdge_append_new next
        (KeywordTrie.add orig keyword (.mk [] "")) t.edges h
      cases q with
      | nil => simp [KeywordTrie.leafAt, KeywordTrie.walk, KeywordTrie.leaf]
      | cons c q =>
        by_cases hc : c = next
        · subst hc
          rw [leafAt_cons_some _ _ c q (by simpa [KeywordTrie.edges] using h1), ih,
            leafAt_empty, leafAt_cons_none _ c q h]
          simp
        · have hne : ¬ (c :: q = next :: keyword) := fun he => hc (List.cons.inj he).1
          rw [if_neg hne]
          cases h' : firstEdge c t.edges with
          | none => rw [leafAt_cons_none (.mk _ _) c q ((h2 c hc).trans h'),
              leafAt_cons_none _ c q h']
          | some child =>
            rw [leafAt_cons_some (.mk _ _) child c q ((h2 c hc).trans h'),
              leafAt_cons_some _ child c q h']
    | some x =>
      obtain ⟨es', h0, h1, h2⟩ := firstEdge_update_some next (KeywordTrie.add orig keyword)
        t.edges x h
      rw [h0]
      cases q with
      | nil => simp [KeywordTrie.leafAt, KeywordTrie.walk, KeywordTrie.leaf]
      | cons c q =>
        by_cases hc : c = next
        · subst hc
          rw [leafAt_cons_some _ _ c q (by simpa [KeywordTrie.edges] using h1), ih,
            leafAt_cons_some _ x c q h]
          simp
        · have hne : ¬ (c :: q = next :: keyword) := fun he => hc (List.cons.inj he).1
          rw [if_neg hne]
          cases h' : firstEdge c t.edges with
          | none => rw [leafAt_cons_none (.mk _ _) c q ((h2 c hc).trans h'),
              leafAt_cons_none _ c q h']
          | some child =>
            rw [leafAt_cons_some (.mk _ _) child c q ((h2 c hc).trans h'),
              leafAt_cons_some _ child c q h']

theorem deepestMarker_empty (stream : List Char) :
    deepestMarker (fun _ => "") stream = "" := by
  induction stream with
  | nil => rfl
  | cons c stream ih => simp [deepestMarker, ih]

/-- `Match` returns the last non-empty marker along the stream. -/
theorem Match_eq_deepestMarker (stream : List Char) :
    ∀ t : KeywordTrie, KeywordTrie.Match stream t = deepestMarker t.leafAt stream := by
  induction stream with
  | nil => intro t; rfl
  | cons c stream ih =>
    intro t
    rw [KeywordTrie.Match, deepestMarker]
    cases h : firstEdge c t.edges with
    | none =>
      have hf : (fun q => t.leafAt (c :: q)) = fun _ => "" :=
        funext fun q => leafAt_cons_none t c q h
      simp [hf, deepestMarker_empty, leafAt_nil]
    | some child =>
      have hf : (fun q => t.leafAt (c :: q)) = child.leafAt :=
        funext fun q => leafAt_cons_some t child c q h
      simp only [hf, ih child, leafAt_nil]

/-- The markers of the trie built by adding the keywords `ks` to `t`. -/
theorem leafAt_foldl_Add (ks : List String) :
    ∀ (t : KeywordTrie) (q : List Char),
      (ks.foldl KeywordTrie.Add t).leafAt q =
        if String.mk q ∈ ks then String.mk q else t.leafAt q := by
  induction ks with
  | nil => intro t q; simp
  | cons k ks ih =>
    intro t q
    rw [List.foldl_cons, ih, KeywordTrie.Add, leafAt_add]
    by_cases hq : String.mk q ∈ ks
    · simp [hq]
    · by_cases hk : q = k.data
      · subst hk
        simp
      · have hk' : ¬ (String.mk q = k) := fun he => hk (by rw [← he])
        simp [hq, hk, hk']

/-- The order in which keywords are added to a trie does not change what `Match` returns:
the visiting order of the `range` loop of `init` over the map `config` is immaterial. -/
theorem Match_foldl_Add_perm (ks ks' : List String) (hperm : ks.Perm ks') (t : KeywordTrie)
    (stream : List Char) :
    KeywordTrie.Match stream (ks.foldl KeywordTrie.Add t) =
      KeywordTrie.Match stream (ks'.foldl KeywordTrie.Add t) := by
  rw [Match_eq_deepestMarker, Match_eq_deepestMarker]
  have hf : (ks.foldl KeywordTrie.Add t).leafAt = (ks'.foldl KeywordTrie.Add t).leafAt := by
    funext q
    rw [leafAt_foldl_Add, leafAt_foldl_Add]
    simp only [hperm.mem_iff]
  rw [hf]

end parse

namespace bools

open parse

theorem bools_NewParser_default (L : GoLib) : NewParser L [] = .ok defaultParser := rfl

theorem default_caseInsensitive : defaultParser.caseInsensitive = false := rfl

theorem default_cfg_And : defaultParser.cfg .And = "AND" := rfl

theorem default_cfg_Or : defaultParser.cfg .Or = "OR" := rfl

theorem default_cfg_Not : defaultParser.cfg .Not = "NOT" := rfl

theorem default_cfg_OpenParen : defaultParser.cfg .OpenParen = "(" := rfl

theorem default_cfg_CloseParen : defaultParser.cfg .CloseParen = ")" := rfl

/-- `match` of the default parser on a non-empty token list. -/
theorem default_match_cons (L : GoLib) (token : Token) (curr : String) (rest : List String) :
    defaultParser.match_ L token (curr :: rest) =
      if curr = defaultParser.cfg token then some rest else none := by
  simp [Parser.match_, default_caseInsensitive]

theorem default_match_nil (L : GoLib) (token : Token) :
    defaultParser.match_ L token [] = none := rfl

/-- The five surfaces of the default parser are keywords. -/
theorem default_isKeyword_surface (L : GoLib) (token : Token) :
    defaultParser.isKeyword L (defaultParser.cfg token) = true := by
  cases token <;> rfl

/-- A token that is not a keyword of the default parser is none of its five surfaces. -/
theorem default_ne_surface (L : GoLib) (a : String) (token : Token)
    (ha : defaultParser.isKeyword L a = false) : a ≠ defaultParser.cfg token := by
  intro h
  rw [h, default_isKeyword_surface] at ha
  exact Bool.noConfusion ha

/-- `parseRest` of the default parser on one non-keyword token followed by a keyword or by
the end of the tokens. -/
theorem default_restRun_single (L : GoLib) (a : String) (rest : List String)
    (ha : defaultParser.isKeyword L a = false)
    (hrest : rest = [] ∨ ∃ k tl, rest = k :: tl ∧ defaultParser.isKeyword L k = true) :
    defaultParser.parseRest L (a :: rest) = some (.ok (.Unparsed [a], rest)) := by
  rcases hrest with h | ⟨k, tl, h, hk⟩
  · subst h
    simp [Parser.parseRest, Parser.restRun, ha]
  · subst h
    simp [Parser.parseRest, Parser.restRun, ha, hk]

/-- `parseNot` of the default parser on one non-keyword token followed by a keyword or by
the end of the tokens. -/
theorem default_parseNot_leaf (L : GoLib) (n : Nat) (a : String) (rest : List String)
    (ha : defaultParser.isKeyword L a = false)
    (hrest : rest = [] ∨ ∃ k tl, rest = k :: tl ∧ defaultParser.isKeyword L k = true) :
    Parser.parseNot L defaultParser (n + 2) (a :: rest) = some (.ok (.Unparsed [a], rest)) := by
  have h1 := default_ne_surface L a .Not ha
  have h2 := default_ne_surface L a .OpenParen ha
  simp [Parser.parseNot, Parser.parseParens, default_match_cons, h1, h2,
    default_restRun_single L a rest ha hrest]

/-- `parseOr` of the default parser on one non-keyword token that no `OR` follows. -/
theorem default_parseOr_leaf (L : GoLib) (n : Nat) (a : String) (rest : List String)
    (ha : defaultParser.isKeyword L a = false)
    (hrest : rest = [] ∨
      ∃ k tl, rest = k :: tl ∧ defaultParser.isKeyword L k = true ∧ k ≠ "OR") :
    Parser.parseOr L defaultParser (n + 3) (a :: rest) = some (.ok (.Unparsed [a], rest)) := by
  have hnot : Parser.parseNot L defaultParser (n + 2) (a :: rest) =
      some (.ok (.Unparsed [a], rest)) := by
    apply default_parseNot_leaf L n a rest ha
    rcases hrest with h | ⟨k, tl, h, hk, _⟩
    · exact Or.inl h
    · exact Or.inr ⟨k, tl, h, hk⟩
  rw [Parser.parseOr, hnot]
  rcases hrest with h | ⟨k, tl, h, _, hne⟩
  · subst h
    simp [ParseResult.andThen, default_match_nil]
  · subst h
    simp [ParseResult.andThen, default_match_cons, default_cfg_Or, hne]

/-- `parseOr` of the default parser on `a OR b` that no further `OR` follows. -/
theorem default_parseOr_pair (L : GoLib) (n : Nat) (a b : String) (rest : List String)
    (ha : defaultParser.isKeyword L a = false) (hb : defaultParser.isKeyword L b = false)
    (hrest : rest = [] ∨
      ∃ k tl, rest = k :: tl ∧ defaultParser.isKeyword L k = true ∧ k ≠ "OR") :
    Parser.parseOr L defaultParser (n + 4) (a :: "OR" :: b :: rest) =
      some (.ok (.BinExpr (.Unparsed [a]) (.Unparsed [b]) OpOr, rest)) := by
  have hnot : Parser.parseNot L defaultParser (n + 1 + 2) (a :: "OR" :: b :: rest) =
      some (.ok (.Unparsed [a], "OR" :: b :: rest)) :=
    default_parseNot_leaf L (n + 1) a _ ha (Or.inr ⟨"OR", _, rfl, rfl⟩)
  rw [Parser.parseOr, hnot]
  simp [ParseResult.andThen, default_match_cons, default_cfg_Or,
    default_parseOr_leaf L n b rest hb hrest]

/-- `parseAnd` when `parseOr` consumes all the tokens. -/
theorem parseAnd_of_parseOr_end (L : GoLib) (p : Parser) (n : Nat) (tokens : List String)
    (ast : AST) (h : Parser.parseOr L p n tokens = some (.ok (ast, []))) :
    Parser.parseAnd L p (n + 1) tokens = some (.ok (ast, [])) := by
  rw [Parser.parseAnd, h]
  simp [ParseResult.andThen, Parser.match_]

/-- `parseAnd` of the default parser when `parseOr` stops in front of an `AND`. -/
theorem default_parseAnd_of_and (L : GoLib) (n : Nat) (tokens rest rest2 : List String)
    (lhs rhs : AST)
    (h1 : Parser.parseOr L defaultParser n tokens = some (.ok (lhs, "AND" :: rest)))
    (h2 : Parser.parseAnd L defaultParser n rest = some (.ok (rhs, rest2))) :
    Parser.parseAnd L defaultParser (n + 1) tokens =
      some (.ok (.BinExpr lhs rhs OpAnd, rest2)) := by
  rw [Parser.parseAnd, h1]
  simp [ParseResult.andThen, default_match_cons, default_cfg_And, h2]

theorem match_length (L : GoLib) (p : Parser) (token : Token) (tokens rest : List String)
    (h : p.match_ L token tokens = some rest) : rest.length + 1 = tokens.length := by
  cases tokens with
  | nil => simp [Parser.match_] at h
  | cons curr tl =>
    by_cases hc : (if p.caseInsensitive then L.ToLower curr else curr) = p.cfg token
    · simp only [Parser.match_, hc, if_true, Option.some.injEq] at h
      rw [← h, List.length_cons]
    · simp [Parser.match_, hc] at h

theorem restRun_length (L : GoLib) (p : Parser) (tokens : List String) :
    (p.restRun L tokens).1.length + (p.restRun L tokens).2.length = tokens.length := by
  induction tokens with
  | nil => rfl
  | cons tok rest ih =>
    simp only [Parser.restRun]
    split
    · simp
    · simp only [List.length_cons]; omega

theorem parseRest_consumes (L : GoLib) (p : Parser) (tokens : List String) :
    (p.parseRest L tokens).Consumes tokens.length := by
  unfold Parser.parseRest
  split
  · exact ParseResult.consumes_error _ _
  · rename_i hne
    apply ParseResult.consumes_ok
    have h := restRun_length L p tokens
    have hpos : 0 < (p.restRun L tokens).1.length := List.length_pos.mpr hne
    omega

/-- With a budget of five calls per token and one to five more, according to the production,
every production of the boolean grammar returns, and a tree it returns has consumed a token. -/
theorem productions_consume (L : GoLib) (p : Parser) (n : Nat) :
    (∀ tokens : List String, 5 * tokens.length + 1 ≤ n →
      (Parser.parseParens L p n tokens).Consumes tokens.length) ∧
    (∀ tokens : List String, 5 * tokens.length + 2 ≤ n →
      (Parser.parseNot L p n tokens).Consumes tokens.length) ∧
    (∀ tokens : List String, 5 * tokens.length + 3 ≤ n →
      (Parser.parseOr L p n tokens).Consumes tokens.length) ∧
    (∀ tokens : List String, 5 * tokens.length + 4 ≤ n →
      (Parser.parseAnd L p n tokens).Consumes tokens.length) ∧
    (∀ tokens : List String, 5 * tokens.length + 5 ≤ n →
      (Parser.parseExpr L p n tokens).Consumes tokens.length) := by
  induction n with
  | zero =>
    refine ⟨?_, ?_, ?_, ?_, ?_⟩ <;> intro tokens h <;> omega
  | succ n ih =>
    obtain ⟨ihP, ihN, ihO, ihA, ihE⟩ := ih
    refine ⟨?_, ?_, ?_, ?_, ?_⟩
    · intro tokens h
      rw [Parser.parseParens]
      cases hm : p.match_ L .OpenParen tokens with
      | none => exact parseRest_consumes L p tokens
      | some rest =>
        have hl := match_length L p _ _ _ hm
        refine ParseResult.Consumes.andThen _ _ rest.length _ (ihE rest (by omega)) ?_
        intro ast rest1 h1
        cases hc : p.match_ L .CloseParen rest1 with
        | none => exact ParseResult.consumes_error _ _
        | some rest2 =>
          have hl2 := match_length L p _ _ _ hc
          exact ParseResult.consumes_ok _ _ _ (by omega)
    · intro tokens h
      rw [Parser.parseNot]
      cases hm : p.match_ L .Not tokens with
      | none => exact ihP tokens (by omega)
      | some rest =>
        have hl := match_length L p _ _ _ hm
        refine ParseResult.Consumes.andThen _ _ rest.length _ (ihP rest (by omega)) ?_
        intro ast rest1 h1
        exact ParseResult.consumes_ok _ _ _ (by omega)
    · intro tokens h
      rw [Parser.parseOr]
      refine ParseResult.Consumes.andThen _ _ tokens.length _ (ihN tokens (by omega)) ?_
      intro lhs rest h1
      cases hm : p.match_ L .Or rest with
      | none => exact ParseResult.consumes_ok _ _ _ h1
      | some rest1 =>
        have hl := match_length L p _ _ _ hm
        refine ParseResult.Consumes.andThen _ _ rest1.length _ (ihO rest1 (by omega)) ?_
        intro rhs rest2 h2
        exact ParseResult.consumes_ok _ _ _ (by omega)
    · intro tokens h
      rw [Parser.parseAnd]
      refine ParseResult.Consumes.andThen _ _ tokens.length _ (ihO tokens (by omega)) ?_
      intro lhs rest h1
      cases hm : p.match_ L .And rest with
      | none => exact ParseResult.consumes_ok _ _ _ h1
      | some rest1 =>
        have hl := match_length L p _ _ _ hm
        refine ParseResult.Consumes.andThen _ _ rest1.length _ (ihA rest1 (by omega)) ?_
        intro rhs rest2 h2
        exact ParseResult.consumes_ok _ _ _ (by omega)
    · intro tokens h
      rw [Parser.parseExpr]
      exact ihA tokens (by omega)

/-- `Parse` returns on every token list: its recursion budget is never used up. -/
theorem bools_Parse_returns (L : GoLib) (p : Parser) (tokens : List String) :
    ∃ r, p.Parse L tokens = some r := by
  obtain ⟨res, h, _⟩ := (productions_consume L p (5 * tokens.length + 5)).2.2.2.2 tokens
    (Nat.le_refl _)
  unfold Parser.Parse
  rw [h]
  rcases res with e | ⟨ast, rest⟩
  · exact ⟨_, rfl⟩
  · cases rest <;> exact ⟨_, rfl⟩

/-- `Parse` when `parseExpr` consumes all the tokens. -/
theorem Parse_of_parseAnd (L : GoLib) (p : Parser) (tokens : List String) (ast : AST)
    (h : Parser.parseAnd L p (5 * tokens.length + 4) tokens = some (.ok (ast, []))) :
    p.Parse L tokens = some (.ok ast) := by
  simp [Parser.Parse, Parser.parseExpr, h]

end bools

namespace comp

open parse

theorem comp_NewParser_default (L : GoLib) : NewParser L [] = .ok defaultParser := rfl

theorem comp_default_caseInsensitive : defaultParser.caseInsensitive = false := rfl

/-- `match` of the default comparison parser on a non-empty token list. -/
theorem comp_default_match_cons (L : GoLib) (token : Token) (curr : String)
    (rest : List String) :
    defaultParser.match_ L token (curr :: rest) =
      if curr = defaultParser.cfg token then some rest else none := by
  simp [Parser.match_, comp_default_caseInsensitive]

theorem comp_default_match_nil (L : GoLib) (token : Token) :
    defaultParser.match_ L token [] = none := rfl

/-- The eight surfaces of the default comparison parser are keywords. -/
theorem comp_default_isKeyword_surface (L : GoLib) (token : Token) :
    defaultParser.isKeyword L (defaultParser.cfg token) = true := by
  cases token <;> rfl

/-- A token that is not a keyword of the default comparison parser is none of its surfaces. -/
theorem comp_default_ne_surface (L : GoLib) (a : String) (token : Token)
    (ha : defaultParser.isKeyword L a = false) : a ≠ defaultParser.cfg token := by
  intro h
  rw [h, comp_default_isKeyword_surface] at ha
  exact Bool.noConfusion ha

theorem comp_match_length (L : GoLib) (p : Parser) (token : Token)
    (tokens rest : List String) (h : p.match_ L token tokens = some rest) :
    rest.length + 1 = tokens.length := by
  cases tokens with
  | nil => simp [Parser.match_] at h
  | cons curr tl =>
    by_cases hc : (if p.caseInsensitive then L.ToLower curr else curr) = p.cfg token
    · simp only [Parser.match_, hc, if_true, Option.some.injEq] at h
      rw [← h, List.length_cons]
    · simp [Parser.match_, hc] at h

theorem comp_matchOps_length (L : GoLib) (p : Parser) (ops : List Token) (op : Token)
    (tokens rest : List String) (h : p.matchOps L ops tokens = some (op, rest)) :
    rest.length + 1 = tokens.length := by
  induction ops with
  | nil => simp [Parser.matchOps] at h
  | cons o ops ih =>
    rw [Parser.matchOps] at h
    cases hm : p.match_ L o tokens with
    | none =>
      rw [hm] at h
      exact ih h
    | some r =>
      rw [hm] at h
      simp only [Option.some.injEq, Prod.mk.injEq] at h
      rw [← h.2]
      exact comp_match_length L p o tokens r hm

theorem comp_restRun_length (L : GoLib) (p : Parser) (tokens : List String) :
    (p.restRun L tokens).1.length + (p.restRun L tokens).2.length = tokens.length := by
  induction tokens with
  | nil => rfl
  | cons tok rest ih =>
    simp only [Parser.restRun]
    split
    · simp
    · simp only [List.length_cons]; omega

theorem comp_parseRest_consumes (L : GoLib) (p : Parser) (tokens : List String) :
    (p.parseRest L tokens).Consumes tokens.length := by
  unfold Parser.parseRest
  split
  · exact ParseResult.consumes_error _ _
  · rename_i hne
    apply ParseResult.consumes_ok
    have h := comp_restRun_length L p tokens
    have hpos : 0 < (p.restRun L tokens).1.length := List.length_pos.mpr hne
    omega

/-- With a budget of four calls per token and one to four more, according to the production,
every production of the comparison grammar returns, and a tree it returns has consumed a
token. -/
theorem comp_productions_consume (L : GoLib) (p : Parser) (n : Nat) :
    (∀ tokens : List String, 4 * tokens.length + 1 ≤ n →
      (Parser.parseTerm L p n tokens).Consumes tokens.length) ∧
    (∀ tokens : List String, 4 * tokens.length + 2 ≤ n →
      (Parser.parseOrdinal L p n tokens).Consumes tokens.length) ∧
    (∀ tokens : List String, 4 * tokens.length + 3 ≤ n →
      (Parser.parseEqual L p n tokens).Consumes tokens.length) ∧
    (∀ tokens : List String, 4 * tokens.length + 4 ≤ n →
      (Parser.parseExpr L p n tokens).Consumes tokens.length) := by
  induction n with
  | zero =>
    refine ⟨?_, ?_, ?_, ?_⟩ <;> intro tokens h <;> omega
  | succ n ih =>
    obtain ⟨ihT, ihO, ihQ, ihE⟩ := ih
    refine ⟨?_, ?_, ?_, ?_⟩
    · intro tokens h
      rw [Parser.parseTerm]
      cases hm : p.match_ L .OpenParen tokens with
      | none => exact comp_parseRest_consumes L p tokens
      | some rest =>
        have hl := comp_match_length L p _ _ _ hm
        refine ParseResult.Consumes.andThen _ _ rest.length _ (ihE rest (by omega)) ?_
        intro ast rest1 h1
        cases hc : p.match_ L .CloseParen rest1 with
        | none => exact ParseResult.consumes_error _ _
        | some rest2 =>
          have hl2 := comp_match_length L p _ _ _ hc
          exact ParseResult.consumes_ok _ _ _ (by omega)
    · intro tokens h
      rw [Parser.parseOrdinal]
      refine ParseResult.Consumes.andThen _ _ tokens.length _ (ihT tokens (by omega)) ?_
      intro lhs rest h1
      cases hm : p.matchOps L [.GreaterOrEqual, .LessOrEqual, .Greater, .Less] rest with
      | none => exact ParseResult.consumes_ok _ _ _ h1
      | some r =>
        obtain ⟨op, rest1⟩ := r
        have hl := comp_matchOps_length L p _ _ _ _ hm
        refine ParseResult.Consumes.andThen _ _ rest1.length _ (ihT rest1 (by omega)) ?_
        intro rhs rest2 h2
        exact ParseResult.consumes_ok _ _ _ (by omega)
    · intro tokens h
      rw [Parser.parseEqual]
      refine ParseResult.Consumes.andThen _ _ tokens.length _ (ihO tokens (by omega)) ?_
      intro lhs rest h1
      cases hm : p.matchOps L [.Equal, .NotEqual] rest with
      | none => exact ParseResult.consumes_ok _ _ _ h1
      | some r =>
        obtain ⟨op, rest1⟩ := r
        have hl := comp_matchOps_length L p _ _ _ _ hm
        refine ParseResult.Consumes.andThen _ _ rest1.length _ (ihO rest1 (by omega)) ?_
        intro rhs rest2 h2
        exact ParseResult.consumes_ok _ _ _ (by omega)
    · intro tokens h
      rw [Parser.parseExpr]
      exact ihQ tokens (by omega)

/-- `Parse` returns on every token list: its recursion budget is never used up. -/
theorem comp_Parse_returns (L : GoLib) (p : Parser) (tokens : List String) :
    ∃ r, p.Parse L tokens = some r := by
  obtain ⟨res, h, _⟩ := (comp_productions_consume L p (4 * tokens.length + 4)).2.2.2 tokens
    (Nat.le_refl _)
  unfold Parser.Parse
  rw [h]
  rcases res with e | ⟨ast, rest⟩
  · exact ⟨_, rfl⟩
  · cases rest <;> exact ⟨_, rfl⟩

/-- The loop of `parseRest` collects a run of non-keyword tokens up to the next keyword. -/
theorem comp_restRun_run (L : GoLib) (p : Parser) (A : List String) (k : String)
    (tl : List String) (hA : ∀ x ∈ A, p.isKeyword L x = false) (hk : p.isKeyword L k = true) :
    p.restRun L (A ++ k :: tl) = (A, k :: tl) := by
  induction A with
  | nil => simp [Parser.restRun, hk]
  | cons a A ih =>
    have ha : p.isKeyword L a = false := hA a (List.mem_cons_self a A)
    have ih1 := ih (fun x hx => hA x (List.mem_cons_of_mem a hx))
    simp [Parser.restRun, ha, ih1]

/-- `parseTerm` of the default comparison parser on a non-empty run of non-keyword tokens
followed by a keyword. -/
theorem comp_default_parseTerm_run (L : GoLib) (n : Nat) (A : List String) (k : String)
    (tl : List String) (hne : A ≠ []) (hA : ∀ x ∈ A, defaultParser.isKeyword L x = false)
    (hk : defaultParser.isKeyword L k = true) :
    Parser.parseTerm L defaultParser (n + 1) (A ++ k :: tl) =
      some (.ok (.Unparsed A, k :: tl)) := by
  have hrun := comp_restRun_run L defaultParser A k tl hA hk
  cases A with
  | nil => exact absurd rfl hne
  | cons a A =>
    have ha : a ≠ defaultParser.cfg .OpenParen :=
      comp_default_ne_surface L a .OpenParen (hA a (List.mem_cons_self a A))
    rw [List.cons_append] at hrun ⊢
    simp [Parser.parseTerm, comp_default_match_cons, ha, Parser.parseRest, hrun]

/-- `parseTerm` of the default comparison parser at the end of the tokens. -/
theorem comp_default_parseTerm_nil (L : GoLib) (n : Nat) :
    Parser.parseTerm L defaultParser (n + 1) [] =
      some (.error (wrapf .ErrParse ": unexpected end of expression")) := by
  simp [Parser.parseTerm, comp_default_match_nil, Parser.parseRest, Parser.restRun]

/-- The default comparison parser rejects a comparison without right operand: a non-empty
run of non-keyword tokens followed by one of the six operators and nothing else. -/
theorem comp_default_Parse_missing_rhs (L : GoLib) (A : List String) (s : String)
    (hne : A ≠ []) (hA : ∀ x ∈ A, defaultParser.isKeyword L x = false)
    (hs : s ∈ ["==", "!=", ">", ">=", "<", "<="]) :
    defaultParser.Parse L (A ++ [s]) =
      some (.error (wrapf .ErrParse ": unexpected end of expression")) := by
  have hk : defaultParser.isKeyword L s = true := by
    simp only [List.mem_cons, List.mem_singleton, List.not_mem_nil, or_false] at hs
    rcases hs with h | h | h | h | h | h <;> subst h <;> rfl
  have hterm : ∀ n, Parser.parseTerm L defaultParser (n + 1) (A ++ [s]) =
      some (.ok (.Unparsed A, [s])) := fun n => comp_default_parseTerm_run L n A s [] hne hA hk
  have hfuel : 4 * (A ++ [s]).length + 4 = 4 * A.length + 4 + 1 + 1 + 1 + 1 := by
    simp only [List.length_append, List.length_singleton]; omega
  have c1 : defaultParser.cfg .Equal = "==" := rfl
  have c2 : defaultParser.cfg .NotEqual = "!=" := rfl
  have c3 : defaultParser.cfg .GreaterOrEqual = ">=" := rfl
  have c4 : defaultParser.cfg .Greater = ">" := rfl
  have c5 : defaultParser.cfg .LessOrEqual = "<=" := rfl
  have c6 : defaultParser.cfg .Less = "<" := rfl
  unfold Parser.Parse
  rw [hfuel]
  generalize 4 * A.length + 4 = n
  simp only [List.mem_cons, List.mem_singleton, List.not_mem_nil, or_false] at hs
  rcases hs with h | h | h | h | h | h <;> subst h <;>
    simp [Parser.parseExpr, Parser.parseEqual, Parser.parseOrdinal, hterm,
      comp_default_parseTerm_nil, ParseResult.andThen, Parser.matchOps, comp_default_match_cons,
      comp_default_match_nil, c1, c2, c3, c4, c5, c6]

end comp

namespace parse

theorem Parse_BinExpr (p : List String → Option (Except GoError AST)) (l r : AST) (op : Nat) :
    AST.Parse p (.BinExpr l r op) =
      thenParse (l.parseChild p) fun nl =>
        thenParse (r.parseChild p) fun nr => some (.ok (.BinExpr nl nr op)) := by
  cases l <;> cases r <;> simp only [AST.Parse, AST.parseChild, thenParse]

theorem Parse_UnaryExpr (p : List String → Option (Except GoError AST)) (e : AST) (op : Nat) :
    AST.Parse p (.UnaryExpr op e) =
      thenParse (e.parseChild p) fun ne => some (.ok (.UnaryExpr op ne)) := by
  cases e <;> simp only [AST.Parse, AST.parseChild, thenParse]

theorem Parse_EqualExpr (p : List String → Option (Except GoError AST)) (l r : AST) (op : Nat) :
    AST.Parse p (.EqualExpr l r op) =
      thenParse (l.parseChild p) fun nl =>
        thenParse (r.parseChild p) fun nr => some (.ok (.EqualExpr nl nr op)) := by
  cases l <;> cases r <;> simp only [AST.Parse, AST.parseChild, thenParse]

theorem Parse_OrdinalExpr (p : List String → Option (Except GoError AST)) (l r : AST)
    (op : Nat) :
    AST.Parse p (.OrdinalExpr l r op) =
      thenParse (l.parseChild p) fun nl =>
        thenParse (r.parseChild p) fun nr => some (.ok (.OrdinalExpr nl nr op)) := by
  cases l <;> cases r <;> simp only [AST.Parse, AST.parseChild, thenParse]

/-- The step on a child returns when the parser passed in returns on every token list. -/
theorem parseChild_returns (p : List String → Option (Except GoError AST))
    (hp : ∀ ts, ∃ r, p ts = some r) (t : AST) : ∃ r, t.parseChild p = some r := by
  induction t with
  | Unparsed c => exact hp c
  | BinExpr l r op ihl ihr =>
    obtain ⟨a, ha⟩ := ihl
    obtain ⟨b, hb⟩ := ihr
    rw [AST.parseChild, Parse_BinExpr, ha, hb]
    rcases a with e | a
    · exact ⟨_, rfl⟩
    · rcases b with e | b <;> exact ⟨_, rfl⟩
  | UnaryExpr op e ih =>
    obtain ⟨a, ha⟩ := ih
    rw [AST.parseChild, Parse_UnaryExpr, ha]
    rcases a with e | a <;> exact ⟨_, rfl⟩
  | EqualExpr l r op ihl ihr =>
    obtain ⟨a, ha⟩ := ihl
    obtain ⟨b, hb⟩ := ihr
    rw [AST.parseChild, Parse_EqualExpr, ha, hb]
    rcases a with e | a
    · exact ⟨_, rfl⟩
    · rcases b with e | b <;> exact ⟨_, rfl⟩
  | OrdinalExpr l r op ihl ihr =>
    obtain ⟨a, ha⟩ := ihl
    obtain ⟨b, hb⟩ := ihr
    rw [AST.parseChild, Parse_OrdinalExpr, ha, hb]
    rcases a with e | a
    · exact ⟨_, rfl⟩
    · rcases b with e | b <;> exact ⟨_, rfl⟩

/-- The method `Parse` returns when the parser passed in returns on every token list. -/
theorem AST_Parse_returns (p : List String → Option (Except GoError AST))
    (hp : ∀ ts, ∃ r, p ts = some r) (t : AST) : ∃ r, AST.Parse p t = some r := by
  cases t with
  | Unparsed c => exact ⟨_, rfl⟩
  | BinExpr l r op => exact parseChild_returns p hp (.BinExpr l r op)
  | UnaryExpr op x => exact parseChild_returns p hp (.UnaryExpr op x)
  | EqualExpr l r op => exact parseChild_returns p hp (.EqualExpr l r op)
  | OrdinalExpr l r op => exact parseChild_returns p hp (.OrdinalExpr l r op)

/-- A child all of whose operand runs the parser accepts is parsed without error. -/
theorem parseChild_ok (p : List String → Option (Except GoError AST)) (t : AST)
    (h : ∀ r ∈ t.runs, ∃ a, p r = some (.ok a)) : ∃ a, t.parseChild p = some (.ok a) := by
  induction t with
  | Unparsed c => exact h c (by simp [AST.runs])
  | BinExpr l r op ihl ihr =>
    obtain ⟨a, ha⟩ := ihl (fun x hx => h x (by simp [AST.runs, hx]))
    obtain ⟨b, hb⟩ := ihr (fun x hx => h x (by simp [AST.runs, hx]))
    rw [AST.parseChild, Parse_BinExpr, ha, hb]
    exact ⟨_, rfl⟩
  | UnaryExpr op e ih =>
    obtain ⟨a, ha⟩ := ih (fun x hx => h x (by simp [AST.runs, hx]))
    rw [AST.parseChild, Parse_UnaryExpr, ha]
    exact ⟨_, rfl⟩
  | EqualExpr l r op ihl ihr =>
    obtain ⟨a, ha⟩ := ihl (fun x hx => h x (by simp [AST.runs, hx]))
    obtain ⟨b, hb⟩ := ihr (fun x hx => h x (by simp [AST.runs, hx]))
    rw [AST.parseChild, Parse_EqualExpr, ha, hb]
    exact ⟨_, rfl⟩
  | OrdinalExpr l r op ihl ihr =>
    obtain ⟨a, ha⟩ := ihl (fun x hx => h x (by simp [AST.runs, hx]))
    obtain ⟨b, hb⟩ := ihr (fun x hx => h x (by simp [AST.runs, hx]))
    rw [AST.parseChild, Parse_OrdinalExpr, ha, hb]
    exact ⟨_, rfl⟩

/-- The step on two children in sequence fails with the error of the first operand run, from
left to right, that the parser rejects. -/
theorem thenParse_first_error (p : List String → Option (Except GoError AST)) (l r : AST)
    (k : AST → AST → AST)
    (ihl : ∀ (pre post : List (List String)) (run : List String) (e : GoError),
      l.runs = pre ++ run :: post → (∀ x ∈ pre, ∃ a, p x = some (.ok a)) →
      p run = some (.error e) → l.parseChild p = some (.error e))
    (ihr : ∀ (pre post : List (List String)) (run : List String) (e : GoError),
      r.runs = pre ++ run :: post → (∀ x ∈ pre, ∃ a, p x = some (.ok a)) →
      p run = some (.error e) → r.parseChild p = some (.error e))
    (pre post : List (List String)) (run : List String) (e : GoError)
    (hruns : l.runs ++ r.runs = pre ++ run :: post)
    (hpre : ∀ x ∈ pre, ∃ a, p x = some (.ok a)) (hrun : p run = some (.error e)) :
    (thenParse (l.parseChild p) fun nl =>
      thenParse (r.parseChild p) fun nr => some (.ok (k nl nr))) = some (.error e) := by
  rcases List.append_eq_append_iff.mp hruns with ⟨a', h1, h2⟩ | ⟨c', h1, h2⟩
  · obtain ⟨a, ha⟩ := parseChild_ok p l (fun x hx => hpre x (by simp [h1, hx]))
    have hr := ihr a' post run e h2 (fun x hx => hpre x (by simp [h1, hx])) hrun
    simp [ha, hr, thenParse]
  · cases c' with
    | nil =>
      simp only [List.append_nil, List.nil_append] at h1 h2
      obtain ⟨a, ha⟩ := parseChild_ok p l (fun x hx => hpre x (by rw [← h1]; exact hx))
      have hr := ihr [] post run e h2.symm (by simp) hrun
      simp [ha, hr, thenParse]
    | cons c c'' =>
      simp only [List.cons_append, List.cons.injEq] at h2
      have hl := ihl pre c'' run e (by rw [h1, h2.1]) hpre hrun
      simp [hl, thenParse]

/-- The step on a child fails with the error of the first operand run, from left to right,
that the parser rejects. -/
theorem parseChild_first_error (p : List String → Option (Except GoError AST)) (t : AST) :
    ∀ (pre post : List (List String)) (run : List String) (e : GoError),
      t.runs = pre ++ run :: post → (∀ x ∈ pre, ∃ a, p x = some (.ok a)) →
      p run = some (.error e) → t.parseChild p = some (.error e) := by
  induction t with
  | Unparsed c =>
    intro pre post run e hruns _ hrun
    cases pre with
    | nil =>
      simp only [AST.runs, List.nil_append, List.cons.injEq] at hruns
      simp [AST.parseChild, hruns.1, hrun]
    | cons x pre => simp [AST.runs] at hruns
  | BinExpr l r op ihl ihr =>
    intro pre post run e hruns hpre hrun
    rw [AST.parseChild, Parse_BinExpr]
    exact thenParse_first_error p l r (fun nl nr => .BinExpr nl nr op) ihl ihr pre post run e
      hruns hpre hrun
  | UnaryExpr op x ih =>
    intro pre post run e hruns hpre hrun
    rw [AST.parseChild, Parse_UnaryExpr, ih pre post run e hruns hpre hrun]
    rfl
  | EqualExpr l r op ihl ihr =>
    intro pre post run e hruns hpre hrun
    rw [AST.parseChild, Parse_EqualExpr]
    exact thenParse_first_error p l r (fun nl nr => .EqualExpr nl nr op) ihl ihr pre post run e
      hruns hpre hrun
  | OrdinalExpr l r op ihl ihr =>
    intro pre post run e hruns hpre hrun
    rw [AST.parseChild, Parse_OrdinalExpr]
    exact thenParse_first_error p l r (fun nl nr => .OrdinalExpr nl nr op) ihl ihr pre post
      run e hruns hpre hrun

/-- On a tree that is not a single placeholder leaf, `Parse` fails with the error of the
first operand run, from left to right, that the parser rejects. -/
theorem Parse_first_error (p : List String → Option (Except GoError AST)) (t : AST)
    (hroot : ∀ c, t ≠ .Unparsed c) (pre post : List (List String)) (run : List String)
    (e : GoError) (hruns : t.runs = pre ++ run :: post)
    (hpre : ∀ x ∈ pre, ∃ a, p x = some (.ok a)) (hrun : p run = some (.error e)) :
    AST.Parse p t = some (.error e) := by
  have h := parseChild_first_error p t pre post run e hruns hpre hrun
  cases t with
  | Unparsed c => exact absurd rfl (hroot c)
  | BinExpr l r op => exact h
  | UnaryExpr op x => exact h
  | EqualExpr l r op => exact h
  | OrdinalExpr l r op => exact h

end parse

namespace controller

open parse

theorem parseTree_age_and_department (L : GoLib) :
    parseTree L "age > 30 AND department == 'ENGINEERING'" =
      .ret (.ok (.BinExpr
        (.OrdinalExpr (.Unparsed ["age"]) (.Unparsed ["30"]) comp.OpGreater)
        (.EqualExpr (.Unparsed ["department"]) (.Unparsed ["'ENGINEERING'"]) comp.OpEqual)
        bools.OpAnd)) := rfl

/-- `parseTree` returns on every rule text: a tree or an error, never a panic, and the
recursion budgets of the two parsers are never used up. -/
theorem parseTree_returns (L : GoLib) (ruleString : String) :
    ∃ r, parseTree L ruleString = .ret r := by
  simp only [parseTree, bools.bools_NewParser_default, comp.comp_NewParser_default]
  obtain ⟨r, hr⟩ := bools.bools_Parse_returns L bools.defaultParser
    (bools.defaultParser.tokenize ruleString)
  rw [bools.Parser.ParseStr, hr]
  rcases r with e | ast
  · exact ⟨_, rfl⟩
  · obtain ⟨r2, hr2⟩ := AST_Parse_returns (comp.defaultParser.Parse L)
      (comp.comp_Parse_returns L comp.defaultParser) ast
    simp only [hr2]
    rcases r2 with e | ast1 <;> exact ⟨_, rfl⟩

theorem key_age : stripQuotes (Join ["age"] " ") = "age" := by decide

theorem key_30 : stripQuotes (Join ["30"] " ") = "30" := by decide

theorem key_department : stripQuotes (Join ["department"] " ") = "department" := by decide

theorem key_engineering : stripQuotes (Join ["'ENGINEERING'"] " ") = "ENGINEERING" := by decide

/-- The value of the rule `age > 30 AND department == 'ENGINEERING'` on any bindings. -/
theorem evaluateRule_age_and_department (L : GoLib) (m : String → Option String) :
    ∃ node, evaluateRule L (.BinExpr
        (.OrdinalExpr (.Unparsed ["age"]) (.Unparsed ["30"]) comp.OpGreater)
        (.EqualExpr (.Unparsed ["department"]) (.Unparsed ["'ENGINEERING'"]) comp.OpEqual)
        bools.OpAnd) m = .ret (some node) ∧
      (node.MatchValue = true ↔
        (∃ v x y, m "age" = some v ∧ L.ParseFloat v = some x ∧ L.ParseFloat "30" = some y ∧
          L.lt y x = true) ∧ m "department" = some "ENGINEERING") := by
  have k5 : bools.Op.String bools.OpAnd = "AND" := by decide
  simp only [evaluateRule, thenEval, deref, key_age, key_30, key_department, key_engineering, k5]
  rcases hA : m "age" with _ | v
  · rcases hD : m "department" with _ | d <;> simp
  · rcases h30 : L.ParseFloat "30" with _ | y
    · rcases hD : m "department" with _ | d <;> simp
    · rcases hv : L.ParseFloat v with _ | x
      · rcases hD : m "department" with _ | d <;> simp [hv]
      · rcases hD : m "department" with _ | d
        · simp [hv]
        · by_cases hlt : L.lt y x = true
          · simp [hv, hlt]
            exact eq_comm
          · simp [hv, hlt]

/-- C1: the rule `age > 30 AND department == 'ENGINEERING'` parses, and on every bindings
map its tree evaluates to a node whose `MatchValue` is true exactly when `age` is bound to a
string that parses to a number greater than the number `30` parses to and `department` is
bound to `ENGINEERING`; given that the library orders the values of `29`, `30`, `31` as the
integers, the value is true for age `31` with department `ENGINEERING` and false for age
`30`, for age `29`, and for department `SALES`. -/
theorem C1_age_and_department (L : GoLib) :
    ∃ ast, parseTree L "age > 30 AND department == 'ENGINEERING'" = .ret (.ok ast) ∧
      (∀ m : String → Option String, ∃ node, evaluateRule L ast m = .ret (some node) ∧
        (node.MatchValue = true ↔
          (∃ v x y, m "age" = some v ∧ L.ParseFloat v = some x ∧ L.ParseFloat "30" = some y ∧
            L.lt y x = true) ∧ m "department" = some "ENGINEERING")) ∧
      (∀ c29 c30 c31 : L.Float, L.ParseFloat "29" = some c29 → L.ParseFloat "30" = some c30 →
        L.ParseFloat "31" = some c31 → L.lt c30 c31 = true → L.lt c30 c30 = false →
        L.lt c30 c29 = false →
        evaluateRule L ast (bindings [("age", "31"), ("department", "ENGINEERING")]) =
            .ret (some { Key := "", MatchValue := true }) ∧
          evaluateRule L ast (bindings [("age", "30"), ("department", "ENGINEERING")]) =
            .ret (some { Key := "", MatchValue := false }) ∧
          evaluateRule L ast (bindings [("age", "29"), ("department", "ENGINEERING")]) =
            .ret (some { Key := "", MatchValue := false }) ∧
          evaluateRule L ast (bindings [("age", "31"), ("department", "SALES")]) =
            .ret (some { Key := "", MatchValue := false })) := by
  refine ⟨_, parseTree_age_and_department L, evaluateRule_age_and_department L, ?_⟩
  intro c29 c30 c31 h29 h30 h31 hgt heq hlt
  have k5 : bools.Op.String bools.OpAnd = "AND" := by decide
  have b1 : bindings [("age", "31"), ("department", "ENGINEERING")] "age" = some "31" := by
    decide
  have b2 : bindings [("age", "31"), ("department", "ENGINEERING")] "department" =
    some "ENGINEERING" := by decide
  have b3 : bindings [("age", "30"), ("department", "ENGINEERING")] "age" = some "30" := by
    decide
  have b4 : bindings [("age", "30"), ("department", "ENGINEERING")] "department" =
    some "ENGINEERING" := by decide
  have b5 : bindings [("age", "29"), ("department", "ENGINEERING")] "age" = some "29" := by
    decide
  have b6 : bindings [("age", "29"), ("department", "ENGINEERING")] "department" =
    some "ENGINEERING" := by decide
  have b7 : bindings [("age", "31"), ("department", "SALES")] "age" = some "31" := by decide
  have b8 : bindings [("age", "31"), ("department", "SALES")] "department" = some "SALES" := by
    decide
  have e1 : ("ENGINEERING" == "ENGINEERING") = true := by decide
  have e2 : ("ENGINEERING" == "SALES") = false := by decide
  simp [evaluateRule, thenEval, deref, key_age, key_30, key_department, key_engineering, k5,
    b1, b2, b3, b4, b5, b6, b7, b8, h29, h30, h31, hgt, heq, hlt, e1, e2, comp.OpGreater,
    comp.OpEqual]

/-- C1 instantiated on the integer library. -/
theorem C1_age_and_department_witness :
    ∃ ast, parseTree integerLib "age > 30 AND department == 'ENGINEERING'" = .ret (.ok ast) ∧
      evaluateRule integerLib ast (bindings [("age", "31"), ("department", "ENGINEERING")]) =
        .ret (some { Key := "", MatchValue := true }) ∧
      evaluateRule integerLib ast (bindings [("age", "30"), ("department", "ENGINEERING")]) =
        .ret (some { Key := "", MatchValue := false }) ∧
      evaluateRule integerLib ast (bindings [("age", "29"), ("department", "ENGINEERING")]) =
        .ret (some { Key := "", MatchValue := false }) ∧
      evaluateRule integerLib ast (bindings [("age", "31"), ("department", "SALES")]) =
        .ret (some { Key := "", MatchValue := false }) := by
  obtain ⟨ast, hp, _, h⟩ := C1_age_and_department integerLib
  exact ⟨ast, hp, h (29 : Int) (30 : Int) (31 : Int) rfl rfl rfl (by decide) (by decide)
    (by decide)⟩

/-- C2 (failing input): the rule `NOT age > 30` is accepted by `parseTree`, `evaluateRule`
returns nil on its tree for every bindings map, and the handler panics reading `MatchValue`
through that nil pointer. -/
theorem C2_not_rule_returns_nil (L : GoLib) (m : String → Option String) :
    parseTree L "NOT age > 30" = .ret (.ok (.UnaryExpr bools.OpNot
        (.OrdinalExpr (.Unparsed ["age"]) (.Unparsed ["30"]) comp.OpGreater))) ∧
      evaluateRule L (.UnaryExpr bools.OpNot
        (.OrdinalExpr (.Unparsed ["age"]) (.Unparsed ["30"]) comp.OpGreater)) m = .ret none ∧
      EvaluateRule L "NOT age > 30" m = .panic := by
  have hp : parseTree L "NOT age > 30" = .ret (.ok (.UnaryExpr bools.OpNot
      (.OrdinalExpr (.Unparsed ["age"]) (.Unparsed ["30"]) comp.OpGreater))) := rfl
  refine ⟨hp, ?_, ?_⟩
  · simp [evaluateRule]
  · simp [EvaluateRule, hp, evaluateRule]

/-- A comparison node over two placeholder leaves whose left key is unbound evaluates to a
node with `MatchValue = false`. -/
theorem evaluateRule_unbound (L : GoLib) (lk rk : List String) (op : Nat)
    (m : String → Option String) (h : m (stripQuotes (Join lk " ")) = none) :
    evaluateRule L (.EqualExpr (.Unparsed lk) (.Unparsed rk) op) m =
        .ret (some { Key := "", MatchValue := false }) ∧
      evaluateRule L (.OrdinalExpr (.Unparsed lk) (.Unparsed rk) op) m =
        .ret (some { Key := "", MatchValue := false }) := by
  simp [evaluateRule, thenEval, deref, h]

/-- C3: for an Equality or Ordinal node over placeholder leaves, with any operator code, an
unbound left key gives a node with `MatchValue = false`; for an Ordinal node with a bound
left key, a bound value or a right key that `ParseFloat` rejects gives a node with
`MatchValue = false`.  In each case a node is returned: no panic and no nil. -/
theorem C3_unbound_or_non_numeric (L : GoLib) (lk rk : List String) (op : Nat)
    (m : String → Option String) :
    (m (stripQuotes (Join lk " ")) = none →
      evaluateRule L (.EqualExpr (.Unparsed lk) (.Unparsed rk) op) m =
          .ret (some { Key := "", MatchValue := false }) ∧
        evaluateRule L (.OrdinalExpr (.Unparsed lk) (.Unparsed rk) op) m =
          .ret (some { Key := "", MatchValue := false })) ∧
    (∀ v, m (stripQuotes (Join lk " ")) = some v →
      (L.ParseFloat v = none ∨ L.ParseFloat (stripQuotes (Join rk " ")) = none) →
      evaluateRule L (.OrdinalExpr (.Unparsed lk) (.Unparsed rk) op) m =
        .ret (some { Key := "", MatchValue := false })) := by
  refine ⟨evaluateRule_unbound L lk rk op m, ?_⟩
  intro v hv hnum
  rcases hnum with h | h
  · rcases hr : L.ParseFloat (stripQuotes (Join rk " ")) with _ | y <;>
      simp [evaluateRule, thenEval, deref, hv, h, hr]
  · simp [evaluateRule, thenEval, deref, hv, h]

/-- C3 instantiated: `age != 30` and `age >= 30` on the empty map, `age > 30` with `age`
bound to `abc`, and `age > x` with `age` bound to `31`. -/
theorem C3_unbound_or_non_numeric_witness :
    (evaluateRule integerLib (.EqualExpr (.Unparsed ["age"]) (.Unparsed ["30"])
          comp.OpNotEqual) (bindings []) = .ret (some { Key := "", MatchValue := false }) ∧
      evaluateRule integerLib (.OrdinalExpr (.Unparsed ["age"]) (.Unparsed ["30"])
          comp.OpNotEqual) (bindings []) = .ret (some { Key := "", MatchValue := false })) ∧
    evaluateRule integerLib (.OrdinalExpr (.Unparsed ["age"]) (.Unparsed ["30"])
        comp.OpGreater) (bindings [("age", "abc")]) =
      .ret (some { Key := "", MatchValue := false }) ∧
    evaluateRule integerLib (.OrdinalExpr (.Unparsed ["age"]) (.Unparsed ["x"])
        comp.OpGreater) (bindings [("age", "31")]) =
      .ret (some { Key := "", MatchValue := false }) :=
  ⟨(C3_unbound_or_non_numeric integerLib ["age"] ["30"] comp.OpNotEqual (bindings [])).1
      (by decide),
    (C3_unbound_or_non_numeric integerLib ["age"] ["30"] comp.OpGreater
      (bindings [("age", "abc")])).2 "abc" (by decide) (Or.inl rfl),
    (C3_unbound_or_non_numeric integerLib ["age"] ["x"] comp.OpGreater
      (bindings [("age", "31")])).2 "31" (by decide) (Or.inr rfl)⟩

/-- C4 (counterexample): with `department` bound to `'ENGINEERING'`, quotes included, the
node `department == 'ENGINEERING'` evaluates to `MatchValue = false`, although the bound
value and the right key are equal once the quotes are stripped from both. -/
theorem C4_bound_value_not_stripped :
    evaluateRule integerLib
        (.EqualExpr (.Unparsed ["department"]) (.Unparsed ["'ENGINEERING'"]) comp.OpEqual)
        (bindings [("department", "'ENGINEERING'")]) =
      .ret (some { Key := "", MatchValue := false }) ∧
    (stripQuotes "'ENGINEERING'" == stripQuotes (Join ["'ENGINEERING'"] " ")) = true := by
  decide

/-- C4 (amended): for an Equality node over placeholder leaves whose left key is bound to
`v`, `MatchValue` is whether the right key, with its quotes stripped, equals `v` as it is
bound when the operator is `==`, and the negation of that when the operator is `!=`. -/
theorem C4_equality_on_bound_value (L : GoLib) (lk rk : List String)
    (m : String → Option String) (v : String) (h : m (stripQuotes (Join lk " ")) = some v) :
    evaluateRule L (.EqualExpr (.Unparsed lk) (.Unparsed rk) comp.OpEqual) m =
        .ret (some { Key := "", MatchValue := (stripQuotes (Join rk " ") == v) }) ∧
      evaluateRule L (.EqualExpr (.Unparsed lk) (.Unparsed rk) comp.OpNotEqual) m =
        .ret (some { Key := "", MatchValue := !(stripQuotes (Join rk " ") == v) }) := by
  simp [evaluateRule, thenEval, deref, h, comp.OpEqual, comp.OpNotEqual, bne]

/-- C4 (amended) instantiated on `department == 'ENGINEERING'` with `department` bound to
`ENGINEERING`. -/
theorem C4_equality_on_bound_value_witness :
    evaluateRule integerLib
        (.EqualExpr (.Unparsed ["department"]) (.Unparsed ["'ENGINEERING'"]) comp.OpEqual)
        (bindings [("department", "ENGINEERING")]) =
      .ret (some
        { Key := "", MatchValue := (stripQuotes (Join ["'ENGINEERING'"] " ") == "ENGINEERING") }) ∧
    evaluateRule integerLib
        (.EqualExpr (.Unparsed ["department"]) (.Unparsed ["'ENGINEERING'"]) comp.OpNotEqual)
        (bindings [("department", "ENGINEERING")]) =
      .ret (some
        { Key := "", MatchValue := !(stripQuotes (Join ["'ENGINEERING'"] " ") == "ENGINEERING") }) :=
  C4_equality_on_bound_value integerLib ["department"] ["'ENGINEERING'"]
    (bindings [("department", "ENGINEERING")]) "ENGINEERING" (by decide)

/-- C5: for an Ordinal node over placeholder leaves whose left key is bound to `v`, with `v`
parsing to the number `x` and the right key to the number `y`, `MatchValue` is `x > y`,
`x >= y`, `x < y`, `x <= y` for the operators GT, GTE, LT, LTE; given that the library
orders the values of `30` and `31` as the integers, bound `30` against `> 30` and bound `31`
against `< 30` and `<= 30` give false. -/
theorem C5_ordinal_comparison (L : GoLib) :
    (∀ (lk rk : List String) (m : String → Option String) (v : String) (x y : L.Float),
      m (stripQuotes (Join lk " ")) = some v → L.ParseFloat v = some x →
      L.ParseFloat (stripQuotes (Join rk " ")) = some y →
      evaluateRule L (.OrdinalExpr (.Unparsed lk) (.Unparsed rk) comp.OpGreater) m =
          .ret (some { Key := "", MatchValue := L.lt y x }) ∧
        evaluateRule L (.OrdinalExpr (.Unparsed lk) (.Unparsed rk) comp.OpGreaterOrEqual) m =
          .ret (some { Key := "", MatchValue := L.le y x }) ∧
        evaluateRule L (.OrdinalExpr (.Unparsed lk) (.Unparsed rk) comp.OpLess) m =
          .ret (some { Key := "", MatchValue := L.lt x y }) ∧
        evaluateRule L (.OrdinalExpr (.Unparsed lk) (.Unparsed rk) comp.OpLessOrEqual) m =
          .ret (some { Key := "", MatchValue := L.le x y })) ∧
    (∀ c30 c31 : L.Float, L.ParseFloat "30" = some c30 → L.ParseFloat "31" = some c31 →
      L.lt c30 c30 = false → L.lt c31 c30 = false → L.le c31 c30 = false →
      evaluateRule L (.OrdinalExpr (.Unparsed ["age"]) (.Unparsed ["30"]) comp.OpGreater)
          (bindings [("age", "30")]) = .ret (some { Key := "", MatchValue := false }) ∧
        evaluateRule L (.OrdinalExpr (.Unparsed ["age"]) (.Unparsed ["30"]) comp.OpLess)
          (bindings [("age", "31")]) = .ret (some { Key := "", MatchValue := false }) ∧
        evaluateRule L (.OrdinalExpr (.Unparsed ["age"]) (.Unparsed ["30"]) comp.OpLessOrEqual)
          (bindings [("age", "31")]) = .ret (some { Key := "", MatchValue := false })) := by
  have gen : ∀ (lk rk : List String) (m : String → Option String) (v : String)
      (x y : L.Float), m (stripQuotes (Join lk " ")) = some v → L.ParseFloat v = some x →
      L.ParseFloat (stripQuotes (Join rk " ")) = some y →
      evaluateRule L (.OrdinalExpr (.Unparsed lk) (.Unparsed rk) comp.OpGreater) m =
          .ret (some { Key := "", MatchValue := L.lt y x }) ∧
        evaluateRule L (.OrdinalExpr (.Unparsed lk) (.Unparsed rk) comp.OpGreaterOrEqual) m =
          .ret (some { Key := "", MatchValue := L.le y x }) ∧
        evaluateRule L (.OrdinalExpr (.Unparsed lk) (.Unparsed rk) comp.OpLess) m =
          .ret (some { Key := "", MatchValue := L.lt x y }) ∧
        evaluateRule L (.OrdinalExpr (.Unparsed lk) (.Unparsed rk) comp.OpLessOrEqual) m =
          .ret (some { Key := "", MatchValue := L.le x y }) := by
    intro lk rk m v x y hv hx hy
    simp [evaluateRule, thenEval, deref, hv, hx, hy, comp.OpGreater, comp.OpGreaterOrEqual,
      comp.OpLess, comp.OpLessOrEqual]
  refine ⟨gen, ?_⟩
  intro c30 c31 h30 h31 hirr hlt hle
  have g1 := (gen ["age"] ["30"] (bindings [("age", "30")]) "30" c30 c30 (by decide) h30
    (by rw [key_30]; exact h30)).1
  have g2 := (gen ["age"] ["30"] (bindings [("age", "31")]) "31" c31 c30 (by decide) h31
    (by rw [key_30]; exact h30)).2.2
  rw [hirr] at g1
  rw [hlt, hle] at g2
  exact ⟨g1, g2⟩

/-- C5 instantiated on the integer library. -/
theorem C5_ordinal_comparison_witness :
    evaluateRule integerLib (.OrdinalExpr (.Unparsed ["age"]) (.Unparsed ["30"]) comp.OpGreater)
        (bindings [("age", "30")]) = .ret (some { Key := "", MatchValue := false }) ∧
      evaluateRule integerLib (.OrdinalExpr (.Unparsed ["age"]) (.Unparsed ["30"]) comp.OpLess)
        (bindings [("age", "31")]) = .ret (some { Key := "", MatchValue := false }) ∧
      evaluateRule integerLib
        (.OrdinalExpr (.Unparsed ["age"]) (.Unparsed ["30"]) comp.OpLessOrEqual)
        (bindings [("age", "31")]) = .ret (some { Key := "", MatchValue := false }) :=
  (C5_ordinal_comparison integerLib).2 (30 : Int) (31 : Int) rfl rfl (by decide) (by decide)
    (by decide)

/-- A `BinExpr` whose children evaluate to nodes is folded with its operator. -/
theorem evaluateRule_BinExpr_fold (L : GoLib) (lhs rhs : AST) (m : String → Option String)
    (l r : EvaluateNode) (hl : evaluateRule L lhs m = .ret (some l))
    (hr : evaluateRule L rhs m = .ret (some r)) :
    evaluateRule L (.BinExpr lhs rhs bools.OpAnd) m =
        .ret (some { Key := "", MatchValue := l.MatchValue && r.MatchValue }) ∧
      evaluateRule L (.BinExpr lhs rhs bools.OpOr) m =
        .ret (some { Key := "", MatchValue := l.MatchValue || r.MatchValue }) := by
  have k1 : bools.Op.String bools.OpAnd = "AND" := by decide
  have k2 : bools.Op.String bools.OpOr = "OR" := by decide
  have k3 : ¬ ("OR" = "AND") := by decide
  cases hlm : l.MatchValue <;>
    simp [evaluateRule, thenEval, deref, hl, hr, k1, k2, k3, hlm]

/-- C6 (failing input): `evaluateRule` has no case for `UnaryExpr`; on a NOT node it returns
nil for every operand and every bindings map, and a `BinExpr` over such a node panics when
it reads the `MatchValue` of that nil result. -/
theorem C6_unary_not_folded (L : GoLib) (e : AST) (m : String → Option String) :
    evaluateRule L (.UnaryExpr bools.OpNot e) m = .ret none ∧
      evaluateRule L (.BinExpr (.UnaryExpr bools.OpNot e) (.Unparsed ["x"]) bools.OpAnd) m =
        .panic := by
  have k1 : bools.Op.String bools.OpAnd = "AND" := by decide
  simp [evaluateRule, thenEval, deref, k1]

/-- C7 (failing input): the rule `age > 30` is rejected by `parseTree`: the boolean parser
returns a single placeholder leaf, whose `Parse` method fails. -/
theorem C7_single_comparison_rejected (L : GoLib) :
    bools.defaultParser.ParseStr L "age > 30" = some (.ok (.Unparsed ["age", ">", "30"])) ∧
      parseTree L "age > 30" = .ret (.error
        { msg := "error parsing comparison: error parsing: attempted to parse Unparsed node\n",
          wraps := none }) :=
  ⟨rfl, rfl⟩

end controller

namespace controller

open parse

/-- C8 (counterexample): in `a < b < c AND age >` the operand run `age >` is a comparison
without right operand, and the error of `parseTree` is the one of the run `a < b < c` on
its left. -/
theorem C8_earlier_run_fails_first :
    bools.defaultParser.ParseStr integerLib "a < b < c AND age >" =
        some (.ok (.BinExpr (.Unparsed ["a", "<", "b", "<", "c"]) (.Unparsed ["age", ">"])
          bools.OpAnd)) ∧
      parseTree integerLib "a < b < c AND age >" = .ret (.error
        { msg := "error parsing comparison: error parsing: expected end of expression; found '<'\n",
          wraps := none }) := by
  decide

/-- C8 (amended): when the boolean tree of a rule text is not a single placeholder leaf and
the first of its operand runs, from left to right, that the comparison parser rejects is a
comparison without right operand (non-keyword tokens followed by one of the six operators),
`parseTree` returns no tree and the error with the message
`error parsing comparison: error parsing: unexpected end of expression` and a newline. -/
theorem C8_missing_right_operand (L : GoLib) (rule : String) (t : AST)
    (pre post : List (List String)) (A : List String) (s : String)
    (hparse : bools.defaultParser.ParseStr L rule = some (.ok t))
    (hroot : ∀ c, t ≠ .Unparsed c)
    (hruns : t.runs = pre ++ (A ++ [s]) :: post)
    (hpre : ∀ r ∈ pre, ∃ a, comp.defaultParser.Parse L r = some (.ok a))
    (hne : A ≠ []) (hA : ∀ x ∈ A, comp.defaultParser.isKeyword L x = false)
    (hs : s ∈ ["==", "!=", ">", ">=", "<", "<="]) :
    parseTree L rule = .ret (.error
      { msg := "error parsing comparison: error parsing: unexpected end of expression\n",
        wraps := none }) := by
  have herr := Parse_first_error (comp.defaultParser.Parse L) t hroot pre post (A ++ [s])
    _ hruns hpre (comp.comp_default_Parse_missing_rhs L A s hne hA hs)
  have hmsg : "error parsing comparison: " ++
      (wrapf .ErrParse ": unexpected end of expression").msg ++ "\n" =
      "error parsing comparison: error parsing: unexpected end of expression\n" := by decide
  simp only [parseTree, bools.bools_NewParser_default, comp.comp_NewParser_default, hparse, herr,
    hmsg]

/-- C8 (amended) instantiated on `age > AND department == 'ENGINEERING'`. -/
theorem C8_missing_right_operand_witness :
    parseTree integerLib "age > AND department == 'ENGINEERING'" = .ret (.error
      { msg := "error parsing comparison: error parsing: unexpected end of expression\n",
        wraps := none }) :=
  C8_missing_right_operand integerLib "age > AND department == 'ENGINEERING'"
    (.BinExpr (.Unparsed ["age", ">"]) (.Unparsed ["department", "==", "'ENGINEERING'"])
      bools.OpAnd)
    [] [["department", "==", "'ENGINEERING'"]] ["age"] ">" rfl (fun c h => by cases h) rfl
    (fun r hr => by cases hr) (by decide) (by decide) (by decide)

end controller

namespace bools

open parse

/-- C9: when `Parse` of the default boolean parser succeeds on `ts`, `Parse` on `ts` with an
open parenthesis put in front fails with the `ErrParse` error `expected ')'`; so does
`ParseStr` on `(age > 30`. -/
theorem C9_unmatched_open_paren (L : GoLib) (ts : List String) (ast : AST)
    (h : defaultParser.Parse L ts = some (.ok ast)) :
    defaultParser.Parse L ("(" :: ts) =
        some (.error { msg := "error parsing: expected ')'", wraps := some .ErrParse }) ∧
      defaultParser.ParseStr L "(age > 30" =
        some (.error { msg := "error parsing: expected ')'", wraps := some .ErrParse }) := by
  refine ⟨?_, rfl⟩
  have hw : wrapf .ErrParse (": expected '" ++ defaultParser.cfg .CloseParen ++ "'") =
      { msg := "error parsing: expected ')'", wraps := some .ErrParse } := by decide
  have hexpr : Parser.parseExpr L defaultParser (5 * ts.length + 5) ts = some (.ok (ast, [])) := by
    unfold Parser.Parse at h
    split at h <;> simp_all
  have hfuel : 5 * ("(" :: ts).length + 5 = (5 * ts.length + 5) + 1 + 1 + 1 + 1 + 1 := by
    simp only [List.length_cons]; omega
  unfold Parser.Parse
  rw [hfuel]
  generalize 5 * ts.length + 5 = n at hexpr
  simp [Parser.parseExpr, Parser.parseAnd, Parser.parseOr, Parser.parseNot, Parser.parseParens,
    default_match_cons, default_match_nil, default_cfg_Not, default_cfg_OpenParen, hexpr,
    ParseResult.andThen, hw]

/-- C9 instantiated on the tokens of `age > 30`. -/
theorem C9_unmatched_open_paren_witness :
    defaultParser.Parse integerLib ["(", "age", ">", "30"] =
        some (.error { msg := "error parsing: expected ')'", wraps := some .ErrParse }) ∧
      defaultParser.ParseStr integerLib "(age > 30" =
        some (.error { msg := "error parsing: expected ')'", wraps := some .ErrParse }) :=
  C9_unmatched_open_paren integerLib ["age", ">", "30"] (.Unparsed ["age", ">", "30"]) rfl

/-- C10: for tokens `a`, `b`, `c` that are not keywords, the default boolean parser turns
`a AND b OR c` into the AND of `a` with the OR of `b` and `c`, and `a OR b AND c` into the
AND of the OR of `a` and `b` with `c`. -/
theorem C10_and_splits_top_level (L : GoLib) (a b c : String)
    (ha : defaultParser.isKeyword L a = false) (hb : defaultParser.isKeyword L b = false)
    (hc : defaultParser.isKeyword L c = false) :
    defaultParser.Parse L [a, "AND", b, "OR", c] =
        some (.ok (.BinExpr (.Unparsed [a])
          (.BinExpr (.Unparsed [b]) (.Unparsed [c]) OpOr) OpAnd)) ∧
      defaultParser.Parse L [a, "OR", b, "AND", c] =
        some (.ok (.BinExpr (.BinExpr (.Unparsed [a]) (.Unparsed [b]) OpOr)
          (.Unparsed [c]) OpAnd)) := by
  have hor : ¬ ("AND" = "OR") := by decide
  constructor
  · apply Parse_of_parseAnd
    exact default_parseAnd_of_and L 28 _ _ _ _ _
      (default_parseOr_leaf L 25 a _ ha (Or.inr ⟨"AND", _, rfl, rfl, hor⟩))
      (parseAnd_of_parseOr_end L _ 27 _ _ (default_parseOr_pair L 23 b c [] hb hc (Or.inl rfl)))
  · apply Parse_of_parseAnd
    exact default_parseAnd_of_and L 28 _ _ _ _ _
      (default_parseOr_pair L 24 a b _ ha hb (Or.inr ⟨"AND", _, rfl, rfl, hor⟩))
      (parseAnd_of_parseOr_end L _ 27 _ _ (default_parseOr_leaf L 24 c [] hc (Or.inl rfl)))

/-- C10 instantiated on the tokens `x`, `y`, `z`. -/
theorem C10_and_splits_top_level_witness :
    defaultParser.Parse integerLib ["x", "AND", "y", "OR", "z"] =
        some (.ok (.BinExpr (.Unparsed ["x"])
          (.BinExpr (.Unparsed ["y"]) (.Unparsed ["z"]) OpOr) OpAnd)) ∧
      defaultParser.Parse integerLib ["x", "OR", "y", "AND", "z"] =
        some (.ok (.BinExpr (.BinExpr (.Unparsed ["x"]) (.Unparsed ["y"]) OpOr)
          (.Unparsed ["z"]) OpAnd)) :=
  C10_and_splits_top_level integerLib "x" "y" "z" rfl rfl rfl

end bools

namespace parse

/-- C20: `A.WithFallback(B)` returns `B`'s result on a node where `A` fails with an error
that wraps `ErrUnknownAST`, and `A`'s own result (value and error) on every other node. -/
theorem C20_fallback_chaining (T : Type) (A B : Interpreter T) (n : AST) :
    (errorsIs (A n).2 .ErrUnknownAST = true → A.WithFallback B n = B n) ∧
      (errorsIs (A n).2 .ErrUnknownAST = false → A.WithFallback B n = A n) := by
  constructor <;> intro h <;> simp [Interpreter.WithFallback, h]

/-- C20 instantiated: a first interpreter that knows placeholder leaves only, chained with
one that answers `true` on every node. -/
theorem C20_fallback_chaining_witness :
    Interpreter.WithFallback
        (fun ast => match ast with
          | .Unparsed _ => (false, some (wrapf .ErrEval ": unknown variable"))
          | _ => (false, some (wrapf .ErrUnknownAST ": unknown AST node")))
        (fun _ => (true, none)) (.UnaryExpr 3 (.Unparsed ["x"])) = (true, none) ∧
      Interpreter.WithFallback
        (fun ast => match ast with
          | .Unparsed _ => (false, some (wrapf .ErrEval ": unknown variable"))
          | _ => (false, some (wrapf .ErrUnknownAST ": unknown AST node")))
        (fun _ => (true, none)) (.Unparsed ["x"]) =
          (false, some (wrapf .ErrEval ": unknown variable")) :=
  ⟨(C20_fallback_chaining Bool _ _ (.UnaryExpr 3 (.Unparsed ["x"]))).1 rfl,
    (C20_fallback_chaining Bool _ _ (.Unparsed ["x"])).2 rfl⟩

end parse

theorem ParseResult.andThen_eq_ok (r : ParseResult) (k : parse.AST → List String → ParseResult)
    (ast : parse.AST) (rest : List String) (h : r.andThen k = some (.ok (ast, rest))) :
    ∃ a1 r1, r = some (.ok (a1, r1)) ∧ k a1 r1 = some (.ok (ast, rest)) := by
  rcases r with _ | e | ⟨a1, r1⟩
  · simp [ParseResult.andThen] at h
  · simp [ParseResult.andThen] at h
  · exact ⟨a1, r1, rfl, h⟩

theorem ParseResult.andThen_mono (r r' : ParseResult)
    (k k' : parse.AST → List String → ParseResult) (y : Except parse.GoError (parse.AST × List String))
    (hr : ∀ x, r = some x → r' = some x)
    (hk : ∀ a rest x, k a rest = some x → k' a rest = some x)
    (h : r.andThen k = some y) : r'.andThen k' = some y := by
  rcases r with _ | e | ⟨a1, r1⟩
  · simp [ParseResult.andThen] at h
  · rw [hr _ rfl]
    exact h
  · rw [hr _ rfl]
    exact hk a1 r1 y h

namespace bools

open parse

/-- One more unit of recursion budget does not change a result. -/
theorem productions_mono (L : GoLib) (p : Parser) (n : Nat) :
    (∀ tokens r, Parser.parseParens L p n tokens = some r →
      Parser.parseParens L p (n + 1) tokens = some r) ∧
    (∀ tokens r, Parser.parseNot L p n tokens = some r →
      Parser.parseNot L p (n + 1) tokens = some r) ∧
    (∀ tokens r, Parser.parseOr L p n tokens = some r →
      Parser.parseOr L p (n + 1) tokens = some r) ∧
    (∀ tokens r, Parser.parseAnd L p n tokens = some r →
      Parser.parseAnd L p (n + 1) tokens = some r) ∧
    (∀ tokens r, Parser.parseExpr L p n tokens = some r →
      Parser.parseExpr L p (n + 1) tokens = some r) := by
  induction n with
  | zero =>
    refine ⟨?_, ?_, ?_, ?_, ?_⟩ <;> intro tokens r h
    · simp [Parser.parseParens] at h
    · simp [Parser.parseNot] at h
    · simp [Parser.parseOr] at h
    · simp [Parser.parseAnd] at h
    · simp [Parser.parseExpr] at h
  | succ n ih =>
    obtain ⟨ihP, ihN, ihO, ihA, ihE⟩ := ih
    refine ⟨?_, ?_, ?_, ?_, ?_⟩ <;> intro tokens r h
    · rw [Parser.parseParens] at h ⊢
      cases hm : p.match_ L .OpenParen tokens with
      | none => rw [hm] at h; exact h
      | some rest =>
        rw [hm] at h
        exact ParseResult.andThen_mono _ _ _ _ r (ihE rest) (fun _ _ _ hx => hx) h
    · rw [Parser.parseNot] at h ⊢
      cases hm : p.match_ L .Not tokens with
      | none => rw [hm] at h; exact ihP tokens r h
      | some rest =>
        rw [hm] at h
        exact ParseResult.andThen_mono _ _ _ _ r (ihP rest) (fun _ _ _ hx => hx) h
    · rw [Parser.parseOr] at h ⊢
      refine ParseResult.andThen_mono _ _ _ _ r (ihN tokens) ?_ h
      intro lhs rest x hx
      cases hm : p.match_ L .Or rest with
      | none => rw [hm] at hx; exact hx
      | some rest1 =>
        rw [hm] at hx
        exact ParseResult.andThen_mono _ _ _ _ x (ihO rest1) (fun _ _ _ hy => hy) hx
    · rw [Parser.parseAnd] at h ⊢
      refine ParseResult.andThen_mono _ _ _ _ r (ihO tokens) ?_ h
      intro lhs rest x hx
      cases hm : p.match_ L .And rest with
      | none => rw [hm] at hx; exact hx
      | some rest1 =>
        rw [hm] at hx
        exact ParseResult.andThen_mono _ _ _ _ x (ihA rest1) (fun _ _ _ hy => hy) hx
    · rw [Parser.parseExpr] at h ⊢
      exact ihA tokens r h

/-- A larger recursion budget does not change a result of `parseExpr`. -/
theorem parseExpr_mono (L : GoLib) (p : Parser) (n k : Nat) (tokens : List String)
    (r : Except GoError (AST × List String)) (h : Parser.parseExpr L p n tokens = some r) :
    Parser.parseExpr L p (n + k) tokens = some r := by
  induction k with
  | zero => exact h
  | succ k ih => exact (productions_mono L p (n + k)).2.2.2.2 tokens r ih

theorem default_match_append (L : GoLib) (token : Token) (tokens rest sfx : List String)
    (h : defaultParser.match_ L token tokens = some rest) :
    defaultParser.match_ L token (tokens ++ sfx) = some (rest ++ sfx) := by
  cases tokens with
  | nil => simp [Parser.match_] at h
  | cons curr tl =>
    rw [default_match_cons] at h
    rw [List.cons_append, default_match_cons]
    by_cases hc : curr = defaultParser.cfg token
    · simp only [hc, if_true, Option.some.injEq] at h ⊢
      rw [h]
    · simp [hc] at h

theorem default_match_none_append (L : GoLib) (token : Token) (tokens : List String)
    (hne : token ≠ .CloseParen) (h : defaultParser.match_ L token tokens = none) :
    defaultParser.match_ L token (tokens ++ [")"]) = none := by
  cases tokens with
  | nil =>
    rw [List.nil_append, default_match_cons]
    cases token <;> first | exact absurd rfl hne | rfl
  | cons curr tl =>
    rw [default_match_cons] at h
    rw [List.cons_append, default_match_cons]
    by_cases hc : curr = defaultParser.cfg token
    · simp [hc] at h
    · simp [hc]

theorem default_restRun_append (L : GoLib) (tokens : List String) :
    defaultParser.restRun L (tokens ++ [")"]) =
      ((defaultParser.restRun L tokens).1, (defaultParser.restRun L tokens).2 ++ [")"]) := by
  have hk : defaultParser.isKeyword L ")" = true := rfl
  induction tokens with
  | nil => simp [Parser.restRun, hk]
  | cons tok rest ih =>
    rw [List.cons_append]
    by_cases ht : defaultParser.isKeyword L tok = true
    · simp [Parser.restRun, ht]
    · simp [Parser.restRun, ht, ih]

theorem default_parseRest_append (L : GoLib) (tokens rest : List String) (ast : AST)
    (h : defaultParser.parseRest L tokens = some (.ok (ast, rest))) :
    defaultParser.parseRest L (tokens ++ [")"]) = some (.ok (ast, rest ++ [")"])) := by
  unfold Parser.parseRest at h ⊢
  rw [default_restRun_append]
  by_cases hr : (defaultParser.restRun L tokens).1 = []
  · simp [hr] at h
  · simp only [hr, if_false, Option.some.injEq, Except.ok.injEq, Prod.mk.injEq] at h ⊢
    exact ⟨h.1, by rw [h.2]⟩

/-- A production of the default parser that returns a tree returns the same tree when a
close parenthesis is put after the tokens, and leaves that parenthesis unread. -/
theorem default_productions_append (L : GoLib) (n : Nat) :
    (∀ tokens ast rest, Parser.parseParens L defaultParser n tokens = some (.ok (ast, rest)) →
      Parser.parseParens L defaultParser n (tokens ++ [")"]) =
        some (.ok (ast, rest ++ [")"]))) ∧
    (∀ tokens ast rest, Parser.parseNot L defaultParser n tokens = some (.ok (ast, rest)) →
      Parser.parseNot L defaultParser n (tokens ++ [")"]) = some (.ok (ast, rest ++ [")"]))) ∧
    (∀ tokens ast rest, Parser.parseOr L defaultParser n tokens = some (.ok (ast, rest)) →
      Parser.parseOr L defaultParser n (tokens ++ [")"]) = some (.ok (ast, rest ++ [")"]))) ∧
    (∀ tokens ast rest, Parser.parseAnd L defaultParser n tokens = some (.ok (ast, rest)) →
      Parser.parseAnd L defaultParser n (tokens ++ [")"]) = some (.ok (ast, rest ++ [")"]))) ∧
    (∀ tokens ast rest, Parser.parseExpr L defaultParser n tokens = some (.ok (ast, rest)) →
      Parser.parseExpr L defaultParser n (tokens ++ [")"]) =
        some (.ok (ast, rest ++ [")"]))) := by
  induction n with
  | zero =>
    refine ⟨?_, ?_, ?_, ?_, ?_⟩ <;> intro tokens ast rest h
    · simp [Parser.parseParens] at h
    · simp [Parser.parseNot] at h
    · simp [Parser.parseOr] at h
    · simp [Parser.parseAnd] at h
    · simp [Parser.parseExpr] at h
  | succ n ih =>
    obtain ⟨ihP, ihN, ihO, ihA, ihE⟩ := ih
    refine ⟨?_, ?_, ?_, ?_, ?_⟩ <;> intro tokens ast rest h
    · rw [Parser.parseParens] at h ⊢
      cases hm : defaultParser.match_ L .OpenParen tokens with
      | none =>
        simp only [hm] at h
        simp only [default_match_none_append L _ tokens (by decide) hm]
        exact default_parseRest_append L tokens rest ast h
      | some rest0 =>
        simp only [hm] at h
        simp only [default_match_append L _ tokens rest0 [")"] hm]
        obtain ⟨a1, r1, h1, h2⟩ := ParseResult.andThen_eq_ok _ _ _ _ h
        rw [ihE rest0 a1 r1 h1]
        simp only [ParseResult.andThen]
        cases hc : defaultParser.match_ L .CloseParen r1 with
        | none => simp [hc] at h2
        | some r2 =>
          simp only [hc, Option.some.injEq, Except.ok.injEq, Prod.mk.injEq] at h2
          rw [default_match_append L _ r1 r2 [")"] hc, h2.1, h2.2]
    · rw [Parser.parseNot] at h ⊢
      cases hm : defaultParser.match_ L .Not tokens with
      | none =>
        simp only [hm] at h
        simp only [default_match_none_append L _ tokens (by decide) hm]
        exact ihP tokens ast rest h
      | some rest0 =>
        simp only [hm] at h
        simp only [default_match_append L _ tokens rest0 [")"] hm]
        obtain ⟨a1, r1, h1, h2⟩ := ParseResult.andThen_eq_ok _ _ _ _ h
        rw [ihP rest0 a1 r1 h1]
        simp only [ParseResult.andThen, Option.some.injEq, Except.ok.injEq,
          Prod.mk.injEq] at h2 ⊢
        exact ⟨h2.1, by rw [h2.2]⟩
    · rw [Parser.parseOr] at h ⊢
      obtain ⟨lhs, r1, h1, h2⟩ := ParseResult.andThen_eq_ok _ _ _ _ h
      rw [ihN tokens lhs r1 h1]
      simp only [ParseResult.andThen]
      cases hm : defaultParser.match_ L .Or r1 with
      | none =>
        simp only [hm, Option.some.injEq, Except.ok.injEq, Prod.mk.injEq] at h2
        rw [default_match_none_append L _ r1 (by decide) hm, h2.1, h2.2]
      | some r2 =>
        simp only [hm] at h2
        simp only [default_match_append L _ r1 r2 [")"] hm]
        obtain ⟨rhs, r3, h3, h4⟩ := ParseResult.andThen_eq_ok _ _ _ _ h2
        have h5 := ihO r2 rhs r3 h3
        simp only [Option.some.injEq, Except.ok.injEq, Prod.mk.injEq] at h4
        simp only [h5, ParseResult.andThen, h4.1, h4.2]
    · rw [Parser.parseAnd] at h ⊢
      obtain ⟨lhs, r1, h1, h2⟩ := ParseResult.andThen_eq_ok _ _ _ _ h
      rw [ihO tokens lhs r1 h1]
      simp only [ParseResult.andThen]
      cases hm : defaultParser.match_ L .And r1 with
      | none =>
        simp only [hm, Option.some.injEq, Except.ok.injEq, Prod.mk.injEq] at h2
        rw [default_match_none_append L _ r1 (by decide) hm, h2.1, h2.2]
      | some r2 =>
        simp only [hm] at h2
        simp only [default_match_append L _ r1 r2 [")"] hm]
        obtain ⟨rhs, r3, h3, h4⟩ := ParseResult.andThen_eq_ok _ _ _ _ h2
        have h5 := ihA r2 rhs r3 h3
        simp only [Option.some.injEq, Except.ok.injEq, Prod.mk.injEq] at h4
        simp only [h5, ParseResult.andThen, h4.1, h4.2]
    · rw [Parser.parseExpr] at h ⊢
      exact ihA tokens ast rest h

/-- C11: when `Parse` of the default boolean parser succeeds on `ts`, `Parse` on `ts` with a
close parenthesis put after it fails with the `ErrParse` error
`expected end of expression, found ')'`. -/
theorem C11_trailing_close_paren (L : GoLib) (ts : List String) (ast : AST)
    (h : defaultParser.Parse L ts = some (.ok ast)) :
    defaultParser.Parse L (ts ++ [")"]) =
      some (.error { msg := "error parsing: expected end of expression, found ')'",
                     wraps := some .ErrParse }) := by
  have hexpr : Parser.parseExpr L defaultParser (5 * ts.length + 5) ts = some (.ok (ast, [])) := by
    unfold Parser.Parse at h
    split at h <;> simp_all
  have hfuel : 5 * (ts ++ [")"]).length + 5 = (5 * ts.length + 5) + 5 := by
    simp only [List.length_append, List.length_singleton]; omega
  have h1 := parseExpr_mono L defaultParser _ 5 ts _ hexpr
  have h2 := (default_productions_append L _).2.2.2.2 ts ast [] h1
  have hw : wrapf .ErrParse (": expected end of expression, found '" ++ ")" ++ "'") =
      { msg := "error parsing: expected end of expression, found ')'",
        wraps := some .ErrParse } := by decide
  unfold Parser.Parse
  rw [hfuel, h2]
  simp only [List.nil_append, hw]

/-- C11 instantiated on the tokens of `age > 30`. -/
theorem C11_trailing_close_paren_witness :
    defaultParser.Parse integerLib ["age", ">", "30", ")"] =
      some (.error { msg := "error parsing: expected end of expression, found ')'",
                     wraps := some .ErrParse }) :=
  C11_trailing_close_paren integerLib ["age", ">", "30"] (.Unparsed ["age", ">", "30"]) rfl

end bools

namespace comp

open parse

/-- The loop of `parseRest` collects a run of non-keyword tokens up to the end. -/
theorem comp_restRun_end (L : GoLib) (p : Parser) (B : List String)
    (hB : ∀ x ∈ B, p.isKeyword L x = false) : p.restRun L B = (B, []) := by
  induction B with
  | nil => rfl
  | cons b B ih =>
    have hb : p.isKeyword L b = false := hB b (List.mem_cons_self b B)
    have ih1 := ih (fun x hx => hB x (List.mem_cons_of_mem b hx))
    simp [Parser.restRun, hb, ih1]

/-- `parseTerm` of the default comparison parser on a non-empty run of non-keyword tokens
that ends the token list. -/
theorem comp_default_parseTerm_end (L : GoLib) (n : Nat) (B : List String) (hne : B ≠ [])
    (hB : ∀ x ∈ B, defaultParser.isKeyword L x = false) :
    Parser.parseTerm L defaultParser (n + 1) B = some (.ok (.Unparsed B, [])) := by
  have hrun := comp_restRun_end L defaultParser B hB
  cases B with
  | nil => exact absurd rfl hne
  | cons b B =>
    have hb : b ≠ defaultParser.cfg .OpenParen :=
      comp_default_ne_surface L b .OpenParen (hB b (List.mem_cons_self b B))
    simp [Parser.parseTerm, comp_default_match_cons, hb, Parser.parseRest, hrun]

/-- `Parse` of the default comparison parser on two non-empty runs of non-keyword tokens with
the surface `s` of the operator token `op` between them: an `EqualExpr` for the two equality
operators and an `OrdinalExpr` for the four ordinal ones. -/
theorem comp_default_Parse_binary (L : GoLib) (A B : List String) (op : Token)
    (hA : A ≠ []) (hAk : ∀ x ∈ A, defaultParser.isKeyword L x = false)
    (hB : B ≠ []) (hBk : ∀ x ∈ B, defaultParser.isKeyword L x = false)
    (hop : op ≠ .OpenParen ∧ op ≠ .CloseParen) :
    defaultParser.Parse L (A ++ [defaultParser.cfg op] ++ B) =
      some (.ok (if op = .Equal ∨ op = .NotEqual
        then .EqualExpr (.Unparsed A) (.Unparsed B) (tokenToOp op)
        else .OrdinalExpr (.Unparsed A) (.Unparsed B) (tokenToOp op))) := by
  have hterm1 : ∀ n, Parser.parseTerm L defaultParser (n + 1)
      (A ++ defaultParser.cfg op :: B) = some (.ok (.Unparsed A, defaultParser.cfg op :: B)) :=
    fun n => comp_default_parseTerm_run L n A _ B hA hAk
      (comp_default_isKeyword_surface L op)
  have hterm2 : ∀ n, Parser.parseTerm L defaultParser (n + 1) B =
      some (.ok (.Unparsed B, [])) := fun n => comp_default_parseTerm_end L n B hB hBk
  have hfuel : 4 * (A ++ [defaultParser.cfg op] ++ B).length + 4 =
      4 * (A.length + B.length) + 4 + 1 + 1 + 1 + 1 := by
    simp only [List.length_append, List.length_singleton]; omega
  have hlist : A ++ [defaultParser.cfg op] ++ B = A ++ defaultParser.cfg op :: B := by simp
  have c1 : defaultParser.cfg .Equal = "==" := rfl
  have c2 : defaultParser.cfg .NotEqual = "!=" := rfl
  have c3 : defaultParser.cfg .GreaterOrEqual = ">=" := rfl
  have c4 : defaultParser.cfg .Greater = ">" := rfl
  have c5 : defaultParser.cfg .LessOrEqual = "<=" := rfl
  have c6 : defaultParser.cfg .Less = "<" := rfl
  unfold Parser.Parse
  rw [hfuel, hlist]
  generalize 4 * (A.length + B.length) + 4 = n
  cases op
  case OpenParen => exact absurd rfl hop.1
  case CloseParen => exact absurd rfl hop.2
  all_goals
    simp only [c1, c2, c3, c4, c5, c6] at hterm1 ⊢
    simp [Parser.parseExpr, Parser.parseEqual, Parser.parseOrdinal, hterm1, hterm2,
      ParseResult.andThen, Parser.matchOps, comp_default_match_cons, comp_default_match_nil,
      c1, c2, c3, c4, c5, c6, tokenToOp]

/-- C15: for tokens `a`, `b`, `c` that are not keywords and operators `o1`, `o2` that are
both ordinal or both equality operators, `Parse` of the default comparison parser on
`a o1 b o2 c` fails with the `ErrParse` error that reports the second operator as a trailing
token; so does `ParseStr` on `a < b < c`. -/
theorem C15_chained_comparison_rejected (L : GoLib) (a b c o1 o2 : String)
    (ha : defaultParser.isKeyword L a = false) (hb : defaultParser.isKeyword L b = false)
    (hc : defaultParser.isKeyword L c = false)
    (ho : (o1 ∈ [">", ">=", "<", "<="] ∧ o2 ∈ [">", ">=", "<", "<="]) ∨
      (o1 ∈ ["==", "!="] ∧ o2 ∈ ["==", "!="])) :
    defaultParser.Parse L [a, o1, b, o2, c] =
        some (.error (wrapf .ErrParse (": expected end of expression; found '" ++ o2 ++ "'"))) ∧
      defaultParser.ParseStr L "a < b < c" =
        some (.error (wrapf .ErrParse ": expected end of expression; found '<'")) := by
  refine ⟨?_, rfl⟩
  have hk1 : defaultParser.isKeyword L o1 = true := by
    rcases ho with ⟨h, _⟩ | ⟨h, _⟩ <;>
      simp only [List.mem_cons, List.mem_singleton, List.not_mem_nil, or_false] at h
    · rcases h with h | h | h | h <;> subst h <;> rfl
    · rcases h with h | h <;> subst h <;> rfl
  have hk2 : defaultParser.isKeyword L o2 = true := by
    rcases ho with ⟨_, h⟩ | ⟨_, h⟩ <;>
      simp only [List.mem_cons, List.mem_singleton, List.not_mem_nil, or_false] at h
    · rcases h with h | h | h | h <;> subst h <;> rfl
    · rcases h with h | h <;> subst h <;> rfl
  have h1 : ∀ n, Parser.parseTerm L defaultParser (n + 1) [a, o1, b, o2, c] =
      some (.ok (.Unparsed [a], [o1, b, o2, c])) := fun n =>
    comp_default_parseTerm_run L n [a] o1 [b, o2, c] (by simp) (by simpa using ha) hk1
  have h2 : ∀ n, Parser.parseTerm L defaultParser (n + 1) [b, o2, c] =
      some (.ok (.Unparsed [b], [o2, c])) := fun n =>
    comp_default_parseTerm_run L n [b] o2 [c] (by simp) (by simpa using hb) hk2
  have c1 : defaultParser.cfg .Equal = "==" := rfl
  have c2 : defaultParser.cfg .NotEqual = "!=" := rfl
  have c3 : defaultParser.cfg .GreaterOrEqual = ">=" := rfl
  have c4 : defaultParser.cfg .Greater = ">" := rfl
  have c5 : defaultParser.cfg .LessOrEqual = "<=" := rfl
  have c6 : defaultParser.cfg .Less = "<" := rfl
  have hfuel : 4 * [a, o1, b, o2, c].length + 4 = 20 + 1 + 1 + 1 + 1 := rfl
  unfold Parser.Parse
  rw [hfuel]
  generalize 20 = n
  rcases ho with ⟨ho1, ho2⟩ | ⟨ho1, ho2⟩ <;>
    simp only [List.mem_cons, List.mem_singleton, List.not_mem_nil, or_false] at ho1 ho2
  · rcases ho1 with h | h | h | h <;> rcases ho2 with h' | h' | h' | h' <;> subst h <;>
      subst h' <;>
      simp [Parser.parseExpr, Parser.parseEqual, Parser.parseOrdinal, h1, h2,
        ParseResult.andThen, Parser.matchOps, comp_default_match_cons, c1, c2, c3, c4, c5, c6]
  · rcases ho1 with h | h <;> rcases ho2 with h' | h' <;> subst h <;> subst h' <;>
      simp [Parser.parseExpr, Parser.parseEqual, Parser.parseOrdinal, h1, h2,
        ParseResult.andThen, Parser.matchOps, comp_default_match_cons, c1, c2, c3, c4, c5, c6]

/-- C15 instantiated on `a < b >= c` and `a == b != c`. -/
theorem C15_chained_comparison_rejected_witness :
    defaultParser.Parse integerLib ["a", "<", "b", ">=", "c"] =
        some (.error (wrapf .ErrParse (": expected end of expression; found '" ++ ">=" ++ "'"))) ∧
      defaultParser.Parse integerLib ["a", "==", "b", "!=", "c"] =
        some (.error (wrapf .ErrParse (": expected end of expression; found '" ++ "!=" ++ "'"))) :=
  ⟨(C15_chained_comparison_rejected integerLib "a" "b" "c" "<" ">=" rfl rfl rfl
      (Or.inl ⟨by decide, by decide⟩)).1,
    (C15_chained_comparison_rejected integerLib "a" "b" "c" "==" "!=" rfl rfl rfl
      (Or.inr ⟨by decide, by decide⟩)).1⟩

/-- C16: for non-empty runs `A`, `B` of tokens that are not keywords of the comparison
grammar, `Parse` of the default comparison parser on `A`, an operator, `B` returns the node
of that operator over the placeholder leaves `A` and `B`: an `EqualExpr` for `==` and `!=`,
an `OrdinalExpr` for `>`, `>=`, `<` and `<=`. -/
theorem C16_single_comparison (L : GoLib) (A B : List String)
    (hA : A ≠ []) (hAk : ∀ x ∈ A, defaultParser.isKeyword L x = false)
    (hB : B ≠ []) (hBk : ∀ x ∈ B, defaultParser.isKeyword L x = false) :
    defaultParser.Parse L (A ++ ["=="] ++ B) =
        some (.ok (.EqualExpr (.Unparsed A) (.Unparsed B) OpEqual)) ∧
      defaultParser.Parse L (A ++ ["!="] ++ B) =
        some (.ok (.EqualExpr (.Unparsed A) (.Unparsed B) OpNotEqual)) ∧
      defaultParser.Parse L (A ++ [">"] ++ B) =
        some (.ok (.OrdinalExpr (.Unparsed A) (.Unparsed B) OpGreater)) ∧
      defaultParser.Parse L (A ++ [">="] ++ B) =
        some (.ok (.OrdinalExpr (.Unparsed A) (.Unparsed B) OpGreaterOrEqual)) ∧
      defaultParser.Parse L (A ++ ["<"] ++ B) =
        some (.ok (.OrdinalExpr (.Unparsed A) (.Unparsed B) OpLess)) ∧
      defaultParser.Parse L (A ++ ["<="] ++ B) =
        some (.ok (.OrdinalExpr (.Unparsed A) (.Unparsed B) OpLessOrEqual)) :=
  ⟨comp_default_Parse_binary L A B .Equal hA hAk hB hBk (by decide),
    comp_default_Parse_binary L A B .NotEqual hA hAk hB hBk (by decide),
    comp_default_Parse_binary L A B .Greater hA hAk hB hBk (by decide),
    comp_default_Parse_binary L A B .GreaterOrEqual hA hAk hB hBk (by decide),
    comp_default_Parse_binary L A B .Less hA hAk hB hBk (by decide),
    comp_default_Parse_binary L A B .LessOrEqual hA hAk hB hBk (by decide)⟩

/-- C16 instantiated on the runs `age` and `30`. -/
theorem C16_single_comparison_witness :
    defaultParser.Parse integerLib (["age"] ++ ["=="] ++ ["30"]) =
        some (.ok (.EqualExpr (.Unparsed ["age"]) (.Unparsed ["30"]) OpEqual)) ∧
      defaultParser.Parse integerLib (["age"] ++ ["!="] ++ ["30"]) =
        some (.ok (.EqualExpr (.Unparsed ["age"]) (.Unparsed ["30"]) OpNotEqual)) ∧
      defaultParser.Parse integerLib (["age"] ++ [">"] ++ ["30"]) =
        some (.ok (.OrdinalExpr (.Unparsed ["age"]) (.Unparsed ["30"]) OpGreater)) ∧
      defaultParser.Parse integerLib (["age"] ++ [">="] ++ ["30"]) =
        some (.ok (.OrdinalExpr (.Unparsed ["age"]) (.Unparsed ["30"]) OpGreaterOrEqual)) ∧
      defaultParser.Parse integerLib (["age"] ++ ["<"] ++ ["30"]) =
        some (.ok (.OrdinalExpr (.Unparsed ["age"]) (.Unparsed ["30"]) OpLess)) ∧
      defaultParser.Parse integerLib (["age"] ++ ["<="] ++ ["30"]) =
        some (.ok (.OrdinalExpr (.Unparsed ["age"]) (.Unparsed ["30"]) OpLessOrEqual)) :=
  C16_single_comparison integerLib ["age"] ["30"] (by decide) (by decide) (by decide)
    (by decide)

end comp

namespace controller

open parse

/-- C13 (counterexample): the rule text without spaces around its comparison operators is
accepted by `parseTree`, and its tree is not the tree of the text with spaces: the two
operands of the AND node stay placeholder leaves of one token each. -/
theorem C13_leaves_not_retokenized :
    parseTree integerLib "age>30 AND department=='ENGINEERING'" =
        .ret (.ok (.BinExpr (.Unparsed ["age>30"]) (.Unparsed ["department=='ENGINEERING'"])
          bools.OpAnd)) ∧
      parseTree integerLib "age>30 AND department=='ENGINEERING'" ≠
        parseTree integerLib "age > 30 AND department == 'ENGINEERING'" := by
  decide

/-- C13 (amended): the composition pass hands the tokens of a placeholder leaf to the
comparison parser as the boolean tokenizer cut them.  The boolean tokenizer cuts
`age>30 AND department=='ENGINEERING'` into three tokens, the comparison parser takes the
tokens `age>30` and `department=='ENGINEERING'` for operand runs, and the tree is the AND
node over these two placeholder leaves; the text with spaces gives the AND node over
`Ordinal{age, 30, GT}` and `Equality{department, 'ENGINEERING', EQ}`. -/
theorem C13_tokens_of_boolean_tokenizer (L : GoLib) :
    bools.defaultParser.tokenize "age>30 AND department=='ENGINEERING'" =
        ["age>30", "AND", "department=='ENGINEERING'"] ∧
      comp.defaultParser.Parse L ["age>30"] = some (.ok (.Unparsed ["age>30"])) ∧
      comp.defaultParser.Parse L ["department=='ENGINEERING'"] =
        some (.ok (.Unparsed ["department=='ENGINEERING'"])) ∧
      parseTree L "age>30 AND department=='ENGINEERING'" =
        .ret (.ok (.BinExpr (.Unparsed ["age>30"]) (.Unparsed ["department=='ENGINEERING'"])
          bools.OpAnd)) ∧
      parseTree L "age > 30 AND department == 'ENGINEERING'" =
        .ret (.ok (.BinExpr
          (.OrdinalExpr (.Unparsed ["age"]) (.Unparsed ["30"]) comp.OpGreater)
          (.EqualExpr (.Unparsed ["department"]) (.Unparsed ["'ENGINEERING'"]) comp.OpEqual)
          bools.OpAnd)) :=
  ⟨rfl, rfl, rfl, rfl, rfl⟩

end controller

namespace parse

theorem Count_mk (es : List (Char × KeywordTrie)) (leaf : String) :
    (KeywordTrie.mk es leaf).Count = (if leaf = "" then 0 else 1) + countChildren es := by
  rw [KeywordTrie.Count]

theorem countChildren_append (es : List (Char × KeywordTrie)) (x : Char × KeywordTrie) :
    countChildren (es ++ [x]) = countChildren es + x.2.Count := by
  induction es with
  | nil =>
    obtain ⟨c, child⟩ := x
    simp [countChildren]
  | cons e es ih =>
    obtain ⟨r, child⟩ := e
    show countChildren ((r, child) :: (es ++ [x])) = _
    rw [countChildren, ih, countChildren]
    omega

theorem countChildren_update (c : Char) (f : KeywordTrie → KeywordTrie)
    (es es' : List (Char × KeywordTrie)) (child : KeywordTrie)
    (h : firstEdge c es = some child) (h' : updateFirstEdge c f es = some es') :
    countChildren es' + child.Count = countChildren es + (f child).Count := by
  induction es generalizing es' with
  | nil => simp [firstEdge] at h
  | cons e es ih =>
    obtain ⟨r, x⟩ := e
    by_cases hr : r = c
    · simp only [firstEdge, hr, if_true, Option.some.injEq] at h
      simp only [updateFirstEdge, hr, if_true, Option.some.injEq] at h'
      subst h
      subst h'
      simp only [countChildren]
      omega
    · simp only [firstEdge, hr, if_false] at h
      simp only [updateFirstEdge, hr, if_false, Option.map_eq_some'] at h'
      obtain ⟨es0, h0, h1⟩ := h'
      subst h1
      have := ih es0 h h0
      simp only [countChildren]
      omega

/-- `add` changes `Count` by the marker it writes: one more if it marks a node that was not
marked, one less if it clears the marker of a marked node. -/
theorem Count_add (orig : String) (keyword : List Char) :
    ∀ t : KeywordTrie, (KeywordTrie.add orig keyword t).Count +
        (if t.leafAt keyword = "" then 0 else 1) =
      t.Count + (if orig = "" then 0 else 1) := by
  induction keyword with
  | nil =>
    intro t
    obtain ⟨es, leaf⟩ := t
    simp only [KeywordTrie.add, KeywordTrie.edges, Count_mk, leafAt_nil, KeywordTrie.leaf]
    omega
  | cons next keyword ih =>
    intro t
    obtain ⟨es, leaf⟩ := t
    rw [KeywordTrie.add]
    cases h : firstEdge next (KeywordTrie.mk es leaf).edges with
    | none =>
      rw [firstEdge_update_none next _ _ h, leafAt_cons_none _ next keyword h]
      have ih0 := ih (.mk [] "")
      rw [leafAt_empty] at ih0
      simp only [KeywordTrie.edges, KeywordTrie.leaf, Count_mk, countChildren_append,
        countChildren, if_true] at ih0 ⊢
      omega
    | some child =>
      obtain ⟨es', h0, _, _⟩ := firstEdge_update_some next (KeywordTrie.add orig keyword)
        _ child h
      rw [h0, leafAt_cons_some _ child next keyword h]
      have hc := countChildren_update next (KeywordTrie.add orig keyword) _ es' child h h0
      have ihc := ih child
      simp only [KeywordTrie.edges, KeywordTrie.leaf, Count_mk] at hc ⊢
      omega

/-- The markers of the trie built by adding the keywords `ks` to the empty trie. -/
theorem leafAt_foldl_Add_empty (ks : List String) (q : List Char) :
    (ks.foldl KeywordTrie.Add (.mk [] "")).leafAt q =
      if String.mk q ∈ ks then String.mk q else "" := by
  rw [leafAt_foldl_Add, leafAt_empty]

/-- Adding `k` to the trie of the keywords `ks` raises `Count` by one when `k` is not empty
and not among `ks`, and leaves it unchanged otherwise. -/
theorem Count_Add_foldl (ks : List String) (k : String) :
    ((ks.foldl KeywordTrie.Add (.mk [] "")).Add k).Count =
      (ks.foldl KeywordTrie.Add (.mk [] "")).Count + (if k ≠ "" ∧ k ∉ ks then 1 else 0) := by
  have h := Count_add k k.data (ks.foldl KeywordTrie.Add (.mk [] ""))
  rw [leafAt_foldl_Add_empty] at h
  have hk : String.mk k.data = k := rfl
  rw [hk] at h
  rw [KeywordTrie.Add]
  by_cases h1 : k = ""
  · simp only [h1, if_true, ne_eq, not_true_eq_false, false_and, if_false] at h ⊢
    split at h <;> simp_all
  · by_cases h2 : k ∈ ks
    · simp only [h1, h2, if_true, if_false, ne_eq, not_false_eq_true, not_true_eq_false,
        and_false] at h ⊢
      omega
    · simp only [h1, h2, if_true, if_false, ne_eq, not_false_eq_true, and_self] at h ⊢
      omega

/-- The number of distinct non-empty keywords after one more keyword. -/
theorem card_distinct_append (ks : List String) (k : String) :
    ((ks ++ [k]).toFinset.erase "").card =
      (ks.toFinset.erase "").card + (if k ≠ "" ∧ k ∉ ks then 1 else 0) := by
  have e : (ks ++ [k]).toFinset = insert k ks.toFinset := by
    ext x
    simp [or_comm]
  rw [e]
  by_cases h1 : k = ""
  · subst h1
    simp [Finset.erase_insert_eq_erase]
  · by_cases h2 : k ∈ ks
    · rw [Finset.insert_eq_of_mem (List.mem_toFinset.mpr h2)]
      simp [h2]
    · rw [Finset.erase_insert_of_ne h1, Finset.card_insert_of_not_mem (by simp [h2])]
      simp [h1, h2]

/-- C18: after any sequence of `Add` calls on the empty trie, `Count` is the number of
distinct non-empty keywords added; adding a keyword again leaves `Count` unchanged. -/
theorem C18_count_distinct_keywords (ks : List String) :
    (ks.foldl KeywordTrie.Add (.mk [] "")).Count = (ks.toFinset.erase "").card ∧
      ∀ k ∈ ks, ((ks.foldl KeywordTrie.Add (.mk [] "")).Add k).Count =
        (ks.foldl KeywordTrie.Add (.mk [] "")).Count := by
  constructor
  · induction ks using List.reverseRecOn with
    | nil => rfl
    | append_singleton ks k ih =>
      rw [List.foldl_append, List.foldl_cons, List.foldl_nil, Count_Add_foldl, ih,
        card_distinct_append]
  · intro k hk
    rw [Count_Add_foldl]
    simp [hk]

/-- C18 instantiated on the keywords `>`, `>=`, the empty keyword and `>` again. -/
theorem C18_count_distinct_keywords_witness :
    ([">", ">=", "", ">"].foldl KeywordTrie.Add (.mk [] "")).Count = 2 ∧
      (([">", ">=", "", ">"].foldl KeywordTrie.Add (.mk [] "")).Add ">=").Count =
        ([">", ">=", "", ">"].foldl KeywordTrie.Add (.mk [] "")).Count :=
  ⟨(C18_count_distinct_keywords [">", ">=", "", ">"]).1.trans (by decide),
    (C18_count_distinct_keywords [">", ">=", "", ">"]).2 ">=" (by decide)⟩

/-- The deepest marker is empty or the non-empty marker of a prefix of the stream. -/
theorem deepestMarker_cases (stream : List Char) :
    ∀ marker : List Char → String, deepestMarker marker stream = "" ∨
      ∃ q, q <+: stream ∧ deepestMarker marker stream = marker q ∧ marker q ≠ "" := by
  induction stream with
  | nil =>
    intro marker
    by_cases h : marker [] = ""
    · exact Or.inl h
    · exact Or.inr ⟨[], List.prefix_refl _, rfl, h⟩
  | cons c stream ih =>
    intro marker
    rw [deepestMarker]
    by_cases h : deepestMarker (fun q => marker (c :: q)) stream = ""
    · rw [if_pos h]
      by_cases h0 : marker [] = ""
      · exact Or.inl h0
      · exact Or.inr ⟨[], List.nil_prefix, rfl, h0⟩
    · rw [if_neg h]
      rcases ih (fun q => marker (c :: q)) with h' | ⟨q, hq, h1, h2⟩
      · exact absurd h' h
      · exact Or.inr ⟨c :: q, (List.prefix_cons_inj c).mpr hq, h1, h2⟩

/-- When the whole stream leads to a marked node, the deepest marker is the marker there. -/
theorem deepestMarker_full (stream : List Char) :
    ∀ marker : List Char → String, marker stream ≠ "" →
      deepestMarker marker stream = marker stream := by
  induction stream with
  | nil => intro marker _; rfl
  | cons c stream ih =>
    intro marker h
    have h1 := ih (fun q => marker (c :: q)) h
    rw [deepestMarker, h1, if_neg h]

/-- `Match` on the trie built by adding the keywords `ks` to the empty trie. -/
theorem Match_foldl_Add_empty (ks : List String) (stream : List Char) :
    KeywordTrie.Match stream (ks.foldl KeywordTrie.Add (.mk [] "")) =
      deepestMarker (fun q => if String.mk q ∈ ks then String.mk q else "") stream := by
  rw [Match_eq_deepestMarker]
  congr 1
  funext q
  exact leafAt_foldl_Add_empty ks q

/-- On the trie built by adding the keywords `ks` to the empty trie, `Contains` is true of a
non-empty string exactly when it is one of `ks`. -/
theorem Contains_iff_mem (ks : List String) (s : String) (hs : s ≠ "") :
    (ks.foldl KeywordTrie.Add (.mk [] "")).Contains s = true ↔ s ∈ ks := by
  have hmk : String.mk s.data = s := rfl
  rw [KeywordTrie.Contains, beq_iff_eq, Match_foldl_Add_empty]
  constructor
  · intro h
    rcases deepestMarker_cases s.data
      (fun q => if String.mk q ∈ ks then String.mk q else "") with h' | ⟨q, _, h1, h2⟩
    · exact absurd (h.symm.trans h') hs
    · by_cases hq : String.mk q ∈ ks
      · simp only [hq, if_true] at h1
        rw [← h, h1]
        exact hq
      · simp [hq] at h2
  · intro h
    have hm : (if String.mk s.data ∈ ks then String.mk s.data else "") = s := by
      simp only [hmk, h, if_true]
    rw [deepestMarker_full s.data _ (by show (if _ then _ else _) ≠ _; rw [hm]; exact hs)]
    exact hm

/-- C19 (failing input): `Contains` is true of the empty string on every trie built by
`Add` calls on the empty trie, also when the empty string was not added: `Match` returns the
empty marker of the root for "no keyword", which `Contains` compares with its argument. -/
theorem C19_contains_empty_string (ks : List String) :
    (ks.foldl KeywordTrie.Add (.mk [] "")).Contains "" = true ∧
      (["AND", "OR"].foldl KeywordTrie.Add (.mk [] "")).Contains "" = true ∧
      "" ∉ ["AND", "OR"] := by
  refine ⟨?_, by decide, by decide⟩
  rw [KeywordTrie.Contains, beq_iff_eq, Match_foldl_Add_empty]
  simp [deepestMarker]

end parse

/-- A list has as many distinct non-empty members as its length exactly when it has no
repetition and no empty member. -/
theorem card_distinct_eq_length (ks : List String) :
    (ks.toFinset.erase "").card = ks.length ↔ ks.Nodup ∧ "" ∉ ks := by
  have h1 : (ks.toFinset.erase "").card ≤ ks.toFinset.card := Finset.card_erase_le
  have h2 : ks.toFinset.card ≤ ks.length := List.toFinset_card_le ks
  constructor
  · intro h
    have h3 : ks.toFinset.card = ks.length := by omega
    refine ⟨Multiset.toFinset_card_eq_card_iff_nodup.mp h3, ?_⟩
    intro hmem
    have h4 := Finset.card_erase_of_mem (List.mem_toFinset.mpr hmem)
    have h5 : 0 < ks.toFinset.card := Finset.card_pos.mpr ⟨"", List.mem_toFinset.mpr hmem⟩
    omega
  · rintro ⟨hn, he⟩
    rw [Finset.erase_eq_of_not_mem (by simpa using he), List.toFinset_card_of_nodup hn]

namespace bools

open parse

theorem NewParser_configured (L : GoLib) (config : List (Token × String))
    (caseSensitive : Bool) :
    NewParser L [WithTokens config, WithCaseSensitive caseSensitive] =
      (configured config caseSensitive).init L := rfl

/-- The matcher that `init` builds holds the surfaces. -/
theorem init_matcher (L : GoLib) (config : List (Token × String)) (caseSensitive : Bool) :
    (if (configured config caseSensitive).caseInsensitive
        then (configured config caseSensitive).config.map (fun e => (e.1, L.ToLower e.2))
        else (configured config caseSensitive).config).foldl (fun m e => m.Add e.2)
        (configured config caseSensitive).matcher =
      (surfaces L config caseSensitive).foldl KeywordTrie.Add (.mk [] "") := by
  cases caseSensitive <;>
    simp [configured, surfaces, List.foldl_map]

/-- What `NewParser` of the boolean grammar accepts, for a token map with five entries. -/
theorem bools_NewParser_accepts (L : GoLib) (config : List (Token × String))
    (caseSensitive : Bool) (hlen : config.length = 5) :
    ((∃ p, NewParser L [WithTokens config, WithCaseSensitive caseSensitive] = .ok p) ↔
      ((configured config caseSensitive).cfg .OpenParen).utf8ByteSize = 1 ∧
      ((configured config caseSensitive).cfg .CloseParen).utf8ByteSize = 1 ∧
      (configured config caseSensitive).cfg .OpenParen ≠
        (configured config caseSensitive).cfg .CloseParen ∧
      (surfaces L config caseSensitive).Nodup ∧ "" ∉ surfaces L config caseSensitive) ∧
    ((∀ p, NewParser L [WithTokens config, WithCaseSensitive caseSensitive] ≠ .ok p) →
      ∃ e, NewParser L [WithTokens config, WithCaseSensitive caseSensitive] = .error e ∧
        e.wraps = some .ErrConfig) := by
  have hcount : ((surfaces L config caseSensitive).foldl KeywordTrie.Add (.mk [] "")).Count = 5 ↔
      (surfaces L config caseSensitive).Nodup ∧ "" ∉ surfaces L config caseSensitive := by
    rw [(C18_count_distinct_keywords _).1, ← card_distinct_eq_length]
    simp [surfaces, hlen]
  rw [NewParser_configured]
  unfold Parser.init
  simp only [init_matcher]
  by_cases h1 : ((configured config caseSensitive).cfg .OpenParen).utf8ByteSize ≠ 1 ∨
      ((configured config caseSensitive).cfg .CloseParen).utf8ByteSize ≠ 1
  · rw [if_pos h1]
    refine ⟨⟨fun ⟨p, hp⟩ => (by cases hp), fun h => ?_⟩, fun _ => ⟨_, rfl, rfl⟩⟩
    rcases h1 with h1 | h1
    · exact absurd h.1 h1
    · exact absurd h.2.1 h1
  · rw [if_neg h1]
    simp only [not_or, not_not] at h1
    by_cases h2 : (configured config caseSensitive).cfg .OpenParen =
        (configured config caseSensitive).cfg .CloseParen
    · rw [if_pos h2]
      exact ⟨⟨fun ⟨p, hp⟩ => (by cases hp), fun h => absurd h2 h.2.2.1⟩, fun _ => ⟨_, rfl, rfl⟩⟩
    · rw [if_neg h2]
      by_cases h3 : ((surfaces L config caseSensitive).foldl KeywordTrie.Add (.mk [] "")).Count ≠ 5
      · rw [if_pos h3]
        refine ⟨⟨fun ⟨p, hp⟩ => (by cases hp), fun h => ?_⟩, fun _ => ⟨_, rfl, rfl⟩⟩
        exact absurd (hcount.mpr h.2.2.2) h3
      · rw [if_neg h3]
        simp only [not_not] at h3
        exact ⟨⟨fun _ => ⟨h1.1, h1.2, h2, hcount.mp h3⟩, fun _ => ⟨_, rfl⟩⟩,
          fun h => absurd rfl (h _)⟩

end bools

namespace comp

open parse

theorem comp_NewParser_configured (L : GoLib) (config : List (Token × String))
    (caseSensitive : Bool) :
    NewParser L [WithTokens config, WithCaseSensitive caseSensitive] =
      (configured config caseSensitive).init L := rfl

/-- The matcher that `init` builds holds the surfaces. -/
theorem comp_init_matcher (L : GoLib) (config : List (Token × String)) (caseSensitive : Bool) :
    (if (configured config caseSensitive).caseInsensitive
        then (configured config caseSensitive).config.map (fun e => (e.1, L.ToLower e.2))
        else (configured config caseSensitive).config).foldl (fun m e => m.Add e.2)
        (configured config caseSensitive).matcher =
      (surfaces L config caseSensitive).foldl KeywordTrie.Add (.mk [] "") := by
  cases caseSensitive <;>
    simp [configured, surfaces, List.foldl_map]

/-- What `NewParser` of the comparison grammar accepts, for a token map with eight entries. -/
theorem comp_NewParser_accepts (L : GoLib) (config : List (Token × String))
    (caseSensitive : Bool) (hlen : config.length = 8) :
    ((∃ p, NewParser L [WithTokens config, WithCaseSensitive caseSensitive] = .ok p) ↔
      ((configured config caseSensitive).cfg .OpenParen).utf8ByteSize = 1 ∧
      ((configured config caseSensitive).cfg .CloseParen).utf8ByteSize = 1 ∧
      (configured config caseSensitive).cfg .OpenParen ≠
        (configured config caseSensitive).cfg .CloseParen ∧
      (surfaces L config caseSensitive).Nodup ∧ "" ∉ surfaces L config caseSensitive) ∧
    ((∀ p, NewParser L [WithTokens config, WithCaseSensitive caseSensitive] ≠ .ok p) →
      ∃ e, NewParser L [WithTokens config, WithCaseSensitive caseSensitive] = .error e ∧
        e.wraps = some .ErrConfig) := by
  have hcount : ((surfaces L config caseSensitive).foldl KeywordTrie.Add (.mk [] "")).Count = 8 ↔
      (surfaces L config caseSensitive).Nodup ∧ "" ∉ surfaces L config caseSensitive := by
    rw [(C18_count_distinct_keywords _).1, ← card_distinct_eq_length]
    simp [surfaces, hlen]
  rw [comp_NewParser_configured]
  unfold Parser.init
  simp only [comp_init_matcher]
  by_cases h1 : ((configured config caseSensitive).cfg .OpenParen).utf8ByteSize ≠ 1 ∨
      ((configured config caseSensitive).cfg .CloseParen).utf8ByteSize ≠ 1
  · rw [if_pos h1]
    refine ⟨⟨fun ⟨p, hp⟩ => (by cases hp), fun h => ?_⟩, fun _ => ⟨_, rfl, rfl⟩⟩
    rcases h1 with h1 | h1
    · exact absurd h.1 h1
    · exact absurd h.2.1 h1
  · rw [if_neg h1]
    simp only [not_or, not_not] at h1
    by_cases h2 : (configured config caseSensitive).cfg .OpenParen =
        (configured config caseSensitive).cfg .CloseParen
    · rw [if_pos h2]
      exact ⟨⟨fun ⟨p, hp⟩ => (by cases hp), fun h => absurd h2 h.2.2.1⟩, fun _ => ⟨_, rfl, rfl⟩⟩
    · rw [if_neg h2]
      by_cases h3 : ((surfaces L config caseSensitive).foldl KeywordTrie.Add (.mk [] "")).Count ≠ 8
      · rw [if_pos h3]
        refine ⟨⟨fun ⟨p, hp⟩ => (by cases hp), fun h => ?_⟩, fun _ => ⟨_, rfl, rfl⟩⟩
        exact absurd (hcount.mpr h.2.2.2) h3
      · rw [if_neg h3]
        simp only [not_not] at h3
        exact ⟨⟨fun _ => ⟨h1.1, h1.2, h2, hcount.mp h3⟩, fun _ => ⟨_, rfl⟩⟩,
          fun h => absurd rfl (h _)⟩

end comp

/-- C12 (counterexample): with the guillemets as parentheses, each exactly one character,
different from each other, and all five surfaces pairwise distinct, `NewParser` of the
boolean grammar returns the `ErrConfig` error about the length of the parentheses. -/
theorem C12_one_character_parenthesis_rejected :
    bools.NewParser integerLib
        [bools.WithTokens [(.And, "AND"), (.Or, "OR"), (.Not, "NOT"), (.OpenParen, "«"),
          (.CloseParen, "»")], bools.WithCaseSensitive true] =
      .error { msg := "config error: OpenParen and CloseParen must each have length 1",
               wraps := some .ErrConfig } ∧
    "«".length = 1 ∧ "»".length = 1 ∧ "«" ≠ "»" ∧ ["AND", "OR", "NOT", "«", "»"].Nodup :=
  ⟨rfl, by decide, by decide, by decide, by decide⟩

/-- C12 (amended): given a token map that assigns a surface to exactly the roles of the
grammar (five for the boolean grammar, eight for the comparison grammar), `NewParser` returns
a parser if and only if the surfaces of `OpenParen` and `CloseParen` are each one byte long
and differ from each other, and the surfaces of all roles, lower-cased first when the parser
is case-insensitive, are pairwise distinct and not empty; when it returns no parser, it
returns an error that wraps `ErrConfig`. -/
theorem C12_construction_validation (L : GoLib) (bconfig : List (bools.Token × String))
    (cconfig : List (comp.Token × String)) (caseSensitive : Bool)
    (hb : (bconfig.map Prod.fst).Perm [.And, .Or, .Not, .OpenParen, .CloseParen])
    (hc : (cconfig.map Prod.fst).Perm [.Equal, .NotEqual, .GreaterOrEqual, .Greater,
      .LessOrEqual, .Less, .OpenParen, .CloseParen]) :
    (((∃ p, bools.NewParser L
          [bools.WithTokens bconfig, bools.WithCaseSensitive caseSensitive] = .ok p) ↔
        ((bools.configured bconfig caseSensitive).cfg .OpenParen).utf8ByteSize = 1 ∧
        ((bools.configured bconfig caseSensitive).cfg .CloseParen).utf8ByteSize = 1 ∧
        (bools.configured bconfig caseSensitive).cfg .OpenParen ≠
          (bools.configured bconfig caseSensitive).cfg .CloseParen ∧
        (bools.surfaces L bconfig caseSensitive).Nodup ∧
        "" ∉ bools.surfaces L bconfig caseSensitive) ∧
      ((∀ p, bools.NewParser L
          [bools.WithTokens bconfig, bools.WithCaseSensitive caseSensitive] ≠ .ok p) →
        ∃ e, bools.NewParser L
            [bools.WithTokens bconfig, bools.WithCaseSensitive caseSensitive] = .error e ∧
          e.wraps = some .ErrConfig)) ∧
    (((∃ p, comp.NewParser L
          [comp.WithTokens cconfig, comp.WithCaseSensitive caseSensitive] = .ok p) ↔
        ((comp.configured cconfig caseSensitive).cfg .OpenParen).utf8ByteSize = 1 ∧
        ((comp.configured cconfig caseSensitive).cfg .CloseParen).utf8ByteSize = 1 ∧
        (comp.configured cconfig caseSensitive).cfg .OpenParen ≠
          (comp.configured cconfig caseSensitive).cfg .CloseParen ∧
        (comp.surfaces L cconfig caseSensitive).Nodup ∧
        "" ∉ comp.surfaces L cconfig caseSensitive) ∧
      ((∀ p, comp.NewParser L
          [comp.WithTokens cconfig, comp.WithCaseSensitive caseSensitive] ≠ .ok p) →
        ∃ e, comp.NewParser L
            [comp.WithTokens cconfig, comp.WithCaseSensitive caseSensitive] = .error e ∧
          e.wraps = some .ErrConfig)) := by
  have hbl : bconfig.length = 5 := by
    have := hb.length_eq
    simpa using this
  have hcl : cconfig.length = 8 := by
    have := hc.length_eq
    simpa using this
  exact ⟨bools.bools_NewParser_accepts L bconfig caseSensitive hbl,
    comp.comp_NewParser_accepts L cconfig caseSensitive hcl⟩

/-- C12 (amended) instantiated: the default surfaces are accepted by both grammars, also
when the parsers are case-insensitive. -/
theorem C12_construction_validation_witness :
    (∃ p, bools.NewParser integerLib
        [bools.WithTokens [(.And, "AND"), (.Or, "OR"), (.Not, "NOT"), (.OpenParen, "("),
          (.CloseParen, ")")], bools.WithCaseSensitive false] = .ok p) ∧
      (∃ p, comp.NewParser integerLib
        [comp.WithTokens [(.Equal, "=="), (.NotEqual, "!="), (.Greater, ">"),
          (.GreaterOrEqual, ">="), (.Less, "<"), (.LessOrEqual, "<="), (.OpenParen, "("),
          (.CloseParen, ")")], comp.WithCaseSensitive false] = .ok p) :=
  ⟨(C12_construction_validation integerLib
      [(.And, "AND"), (.Or, "OR"), (.Not, "NOT"), (.OpenParen, "("), (.CloseParen, ")")]
      [(.Equal, "=="), (.NotEqual, "!="), (.Greater, ">"), (.GreaterOrEqual, ">="),
        (.Less, "<"), (.LessOrEqual, "<="), (.OpenParen, "("), (.CloseParen, ")")]
      false (List.Perm.refl _) (by decide)).1.1.mpr (by decide),
    (C12_construction_validation integerLib
      [(.And, "AND"), (.Or, "OR"), (.Not, "NOT"), (.OpenParen, "("), (.CloseParen, ")")]
      [(.Equal, "=="), (.NotEqual, "!="), (.Greater, ">"), (.GreaterOrEqual, ">="),
        (.Less, "<"), (.LessOrEqual, "<="), (.OpenParen, "("), (.CloseParen, ")")]
      false (List.Perm.refl _) (by decide)).2.1.mpr (by decide)⟩

namespace bools

open parse

theorem restRun_not_keyword (L : GoLib) (p : Parser) (tokens : List String) :
    ∀ tok ∈ (p.restRun L tokens).1, p.isKeyword L tok = false := by
  induction tokens with
  | nil => intro tok h; simp [Parser.restRun] at h
  | cons t rest ih =>
    intro tok h
    by_cases ht : p.isKeyword L t = true
    · simp [Parser.restRun, ht] at h
    · simp only [Parser.restRun, ht, Bool.false_eq_true, if_false, List.mem_cons] at h
      rcases h with h | h
      · rw [h]; simpa using ht
      · exact ih tok h

theorem operands_andThen_unary (L : GoLib) (p : Parser) (e : AST) (h : Operands L p e) :
    Operands L p (.UnaryExpr OpNot e) := by
  intro r hr
  exact h r (by simpa [AST.runs] using hr)

theorem operands_binary (L : GoLib) (p : Parser) (l r : AST) (op : Nat)
    (hl : Operands L p l) (hr : Operands L p r) : Operands L p (.BinExpr l r op) := by
  intro x hx
  simp only [AST.runs, List.mem_append] at hx
  rcases hx with hx | hx
  · exact hl x hx
  · exact hr x hx

/-- The trees the productions of the boolean grammar return have non-empty operand runs
without keywords of the grammar. -/
theorem productions_operands (L : GoLib) (p : Parser) (n : Nat) :
    (∀ tokens ast rest, Parser.parseParens L p n tokens = some (.ok (ast, rest)) →
      Operands L p ast) ∧
    (∀ tokens ast rest, Parser.parseNot L p n tokens = some (.ok (ast, rest)) →
      Operands L p ast) ∧
    (∀ tokens ast rest, Parser.parseOr L p n tokens = some (.ok (ast, rest)) →
      Operands L p ast) ∧
    (∀ tokens ast rest, Parser.parseAnd L p n tokens = some (.ok (ast, rest)) →
      Operands L p ast) ∧
    (∀ tokens ast rest, Parser.parseExpr L p n tokens = some (.ok (ast, rest)) →
      Operands L p ast) := by
  induction n with
  | zero =>
    refine ⟨?_, ?_, ?_, ?_, ?_⟩ <;> intro tokens ast rest h
    · simp [Parser.parseParens] at h
    · simp [Parser.parseNot] at h
    · simp [Parser.parseOr] at h
    · simp [Parser.parseAnd] at h
    · simp [Parser.parseExpr] at h
  | succ n ih =>
    obtain ⟨ihP, ihN, ihO, ihA, ihE⟩ := ih
    refine ⟨?_, ?_, ?_, ?_, ?_⟩ <;> intro tokens ast rest h
    · rw [Parser.parseParens] at h
      cases hm : p.match_ L .OpenParen tokens with
      | none =>
        simp only [hm, Parser.parseRest] at h
        by_cases hr : (p.restRun L tokens).1 = []
        · simp [hr] at h
        · simp only [hr, if_false, Option.some.injEq, Except.ok.injEq, Prod.mk.injEq] at h
          rw [← h.1]
          intro r hr'
          simp only [AST.runs, List.mem_singleton] at hr'
          rw [hr']
          exact ⟨hr, restRun_not_keyword L p tokens⟩
      | some rest0 =>
        simp only [hm] at h
        obtain ⟨a1, r1, h1, h2⟩ := ParseResult.andThen_eq_ok _ _ _ _ h
        cases hc : p.match_ L .CloseParen r1 with
        | none => simp [hc] at h2
        | some r2 =>
          simp only [hc, Option.some.injEq, Except.ok.injEq, Prod.mk.injEq] at h2
          rw [← h2.1]
          exact ihE rest0 a1 r1 h1
    · rw [Parser.parseNot] at h
      cases hm : p.match_ L .Not tokens with
      | none =>
        simp only [hm] at h
        exact ihP tokens ast rest h
      | some rest0 =>
        simp only [hm] at h
        obtain ⟨a1, r1, h1, h2⟩ := ParseResult.andThen_eq_ok _ _ _ _ h
        simp only [Option.some.injEq, Except.ok.injEq, Prod.mk.injEq] at h2
        rw [← h2.1]
        exact operands_andThen_unary L p a1 (ihP rest0 a1 r1 h1)
    · rw [Parser.parseOr] at h
      obtain ⟨lhs, r1, h1, h2⟩ := ParseResult.andThen_eq_ok _ _ _ _ h
      cases hm : p.match_ L .Or r1 with
      | none =>
        simp only [hm, Option.some.injEq, Except.ok.injEq, Prod.mk.injEq] at h2
        rw [← h2.1]
        exact ihN tokens lhs r1 h1
      | some r2 =>
        simp only [hm] at h2
        obtain ⟨rhs, r3, h3, h4⟩ := ParseResult.andThen_eq_ok _ _ _ _ h2
        simp only [Option.some.injEq, Except.ok.injEq, Prod.mk.injEq] at h4
        rw [← h4.1]
        exact operands_binary L p lhs rhs _ (ihN tokens lhs r1 h1) (ihO r2 rhs r3 h3)
    · rw [Parser.parseAnd] at h
      obtain ⟨lhs, r1, h1, h2⟩ := ParseResult.andThen_eq_ok _ _ _ _ h
      cases hm : p.match_ L .And r1 with
      | none =>
        simp only [hm, Option.some.injEq, Except.ok.injEq, Prod.mk.injEq] at h2
        rw [← h2.1]
        exact ihO tokens lhs r1 h1
      | some r2 =>
        simp only [hm] at h2
        obtain ⟨rhs, r3, h3, h4⟩ := ParseResult.andThen_eq_ok _ _ _ _ h2
        simp only [Option.some.injEq, Except.ok.injEq, Prod.mk.injEq] at h4
        rw [← h4.1]
        exact operands_binary L p lhs rhs _ (ihO tokens lhs r1 h1) (ihA r2 rhs r3 h3)
    · rw [Parser.parseExpr] at h
      exact ihA tokens ast rest h

/-- The tree `Parse` returns has non-empty operand runs without keywords of the grammar. -/
theorem Parse_operands (L : GoLib) (p : Parser) (tokens : List String) (ast : AST)
    (h : p.Parse L tokens = some (.ok ast)) : Operands L p ast := by
  unfold Parser.Parse at h
  split at h
  · cases h
  · cases h
  · rename_i a heq
    simp only [Option.some.injEq, Except.ok.injEq] at h
    rw [← h]
    exact (productions_operands L p _).2.2.2.2 tokens a [] heq
  · cases h

end bools

namespace comp

open parse

theorem comp_restRun_not_keyword (L : GoLib) (p : Parser) (tokens : List String) :
    ∀ tok ∈ (p.restRun L tokens).1, p.isKeyword L tok = false ∧ tok ∈ tokens := by
  induction tokens with
  | nil => intro tok h; simp [Parser.restRun] at h
  | cons t rest ih =>
    intro tok h
    by_cases ht : p.isKeyword L t = true
    · simp [Parser.restRun, ht] at h
    · simp only [Parser.restRun, ht, Bool.false_eq_true, if_false, List.mem_cons] at h
      rcases h with h | h
      · rw [h]; exact ⟨by simpa using ht, List.mem_cons_self t rest⟩
      · exact ⟨(ih tok h).1, List.mem_cons_of_mem t (ih tok h).2⟩

theorem comp_restRun_rest_subset (L : GoLib) (p : Parser) (tokens : List String) :
    (p.restRun L tokens).2 ⊆ tokens := by
  induction tokens with
  | nil => simp [Parser.restRun]
  | cons t rest ih =>
    by_cases ht : p.isKeyword L t = true
    · simp [Parser.restRun, ht]
    · simp only [Parser.restRun, ht, Bool.false_eq_true, if_false]
      exact fun x hx => List.mem_cons_of_mem t (ih hx)

theorem comp_match_subset (L : GoLib) (p : Parser) (token : Token)
    (tokens rest : List String) (h : p.match_ L token tokens = some rest) :
    rest ⊆ tokens := by
  cases tokens with
  | nil => simp [Parser.match_] at h
  | cons curr tl =>
    by_cases hc : (if p.caseInsensitive then L.ToLower curr else curr) = p.cfg token
    · simp only [Parser.match_, hc, if_true, Option.some.injEq] at h
      rw [← h]
      exact fun x hx => List.mem_cons_of_mem curr hx
    · simp [Parser.match_, hc] at h

theorem comp_matchOps_subset (L : GoLib) (p : Parser) (ops : List Token) (op : Token)
    (tokens rest : List String) (h : p.matchOps L ops tokens = some (op, rest)) :
    rest ⊆ tokens := by
  induction ops with
  | nil => simp [Parser.matchOps] at h
  | cons o ops ih =>
    rw [Parser.matchOps] at h
    cases hm : p.match_ L o tokens with
    | none =>
      rw [hm] at h
      exact ih h
    | some r =>
      rw [hm] at h
      simp only [Option.some.injEq, Prod.mk.injEq] at h
      rw [← h.2]
      exact comp_match_subset L p o tokens r hm

theorem comp_operands_mono (L : GoLib) (p : Parser) (tokens tokens' : List String) (ast : AST)
    (h : Operands L p tokens ast) (hsub : tokens ⊆ tokens') : Operands L p tokens' ast :=
  fun r hr => ⟨(h r hr).1, fun tok ht => ⟨((h r hr).2 tok ht).1, hsub ((h r hr).2 tok ht).2⟩⟩

theorem comp_operands_binary (L : GoLib) (p : Parser) (tokens : List String) (l r : AST)
    (hl : Operands L p tokens l) (hr : Operands L p tokens r) :
    (∀ op, Operands L p tokens (.EqualExpr l r op)) ∧
      (∀ op, Operands L p tokens (.OrdinalExpr l r op)) := by
  constructor <;> intro op x hx <;> simp only [AST.runs, List.mem_append] at hx <;>
    rcases hx with hx | hx
  · exact hl x hx
  · exact hr x hx
  · exact hl x hx
  · exact hr x hx

/-- The trees the productions of the comparison grammar return have non-empty operand runs,
made of tokens of the input that are not keywords of the grammar. -/
theorem comp_productions_operands (L : GoLib) (p : Parser) (n : Nat) :
    (∀ tokens ast rest, Parser.parseTerm L p n tokens = some (.ok (ast, rest)) →
      Operands L p tokens ast ∧ rest ⊆ tokens) ∧
    (∀ tokens ast rest, Parser.parseOrdinal L p n tokens = some (.ok (ast, rest)) →
      Operands L p tokens ast ∧ rest ⊆ tokens) ∧
    (∀ tokens ast rest, Parser.parseEqual L p n tokens = some (.ok (ast, rest)) →
      Operands L p tokens ast ∧ rest ⊆ tokens) ∧
    (∀ tokens ast rest, Parser.parseExpr L p n tokens = some (.ok (ast, rest)) →
      Operands L p tokens ast ∧ rest ⊆ tokens) := by
  induction n with
  | zero =>
    refine ⟨?_, ?_, ?_, ?_⟩ <;> intro tokens ast rest h
    · simp [Parser.parseTerm] at h
    · simp [Parser.parseOrdinal] at h
    · simp [Parser.parseEqual] at h
    · simp [Parser.parseExpr] at h
  | succ n ih =>
    obtain ⟨ihT, ihO, ihQ, ihE⟩ := ih
    refine ⟨?_, ?_, ?_, ?_⟩ <;> intro tokens ast rest h
    · rw [Parser.parseTerm] at h
      cases hm : p.match_ L .OpenParen tokens with
      | none =>
        simp only [hm, Parser.parseRest] at h
        by_cases hr : (p.restRun L tokens).1 = []
        · simp [hr] at h
        · simp only [hr, if_false, Option.some.injEq, Except.ok.injEq, Prod.mk.injEq] at h
          rw [← h.1, ← h.2]
          refine ⟨?_, comp_restRun_rest_subset L p tokens⟩
          intro r hr'
          simp only [AST.runs, List.mem_singleton] at hr'
          rw [hr']
          exact ⟨hr, comp_restRun_not_keyword L p tokens⟩
      | some rest0 =>
        simp only [hm] at h
        have hs0 := comp_match_subset L p _ _ _ hm
        obtain ⟨a1, r1, h1, h2⟩ := ParseResult.andThen_eq_ok _ _ _ _ h
        cases hc : p.match_ L .CloseParen r1 with
        | none => simp [hc] at h2
        | some r2 =>
          simp only [hc, Option.some.injEq, Except.ok.injEq, Prod.mk.injEq] at h2
          rw [← h2.1, ← h2.2]
          obtain ⟨i1, i2⟩ := ihE rest0 a1 r1 h1
          exact ⟨comp_operands_mono L p _ _ _ i1 hs0,
            fun x hx => hs0 (i2 (comp_match_subset L p _ _ _ hc hx))⟩
    · rw [Parser.parseOrdinal] at h
      obtain ⟨lhs, r1, h1, h2⟩ := ParseResult.andThen_eq_ok _ _ _ _ h
      obtain ⟨i1, i2⟩ := ihT tokens lhs r1 h1
      cases hm : p.matchOps L [.GreaterOrEqual, .LessOrEqual, .Greater, .Less] r1 with
      | none =>
        simp only [hm, Option.some.injEq, Except.ok.injEq, Prod.mk.injEq] at h2
        rw [← h2.1, ← h2.2]
        exact ⟨i1, i2⟩
      | some x =>
        obtain ⟨op, r2⟩ := x
        simp only [hm] at h2
        have hs := comp_matchOps_subset L p _ _ _ _ hm
        obtain ⟨rhs, r3, h3, h4⟩ := ParseResult.andThen_eq_ok _ _ _ _ h2
        obtain ⟨j1, j2⟩ := ihT r2 rhs r3 h3
        simp only [Option.some.injEq, Except.ok.injEq, Prod.mk.injEq] at h4
        rw [← h4.1, ← h4.2]
        exact ⟨(comp_operands_binary L p tokens lhs rhs i1
            (comp_operands_mono L p _ _ _ j1 (fun x hx => i2 (hs hx)))).2 _,
          fun x hx => i2 (hs (j2 hx))⟩
    · rw [Parser.parseEqual] at h
      obtain ⟨lhs, r1, h1, h2⟩ := ParseResult.andThen_eq_ok _ _ _ _ h
      obtain ⟨i1, i2⟩ := ihO tokens lhs r1 h1
      cases hm : p.matchOps L [.Equal, .NotEqual] r1 with
      | none =>
        simp only [hm, Option.some.injEq, Except.ok.injEq, Prod.mk.injEq] at h2
        rw [← h2.1, ← h2.2]
        exact ⟨i1, i2⟩
      | some x =>
        obtain ⟨op, r2⟩ := x
        simp only [hm] at h2
        have hs := comp_matchOps_subset L p _ _ _ _ hm
        obtain ⟨rhs, r3, h3, h4⟩ := ParseResult.andThen_eq_ok _ _ _ _ h2
        obtain ⟨j1, j2⟩ := ihO r2 rhs r3 h3
        simp only [Option.some.injEq, Except.ok.injEq, Prod.mk.injEq] at h4
        rw [← h4.1, ← h4.2]
        exact ⟨(comp_operands_binary L p tokens lhs rhs i1
            (comp_operands_mono L p _ _ _ j1 (fun x hx => i2 (hs hx)))).1 _,
          fun x hx => i2 (hs (j2 hx))⟩
    · rw [Parser.parseExpr] at h
      exact ihQ tokens ast rest h

/-- The tree `Parse` returns has non-empty operand runs, made of tokens of the input that
are not keywords of the grammar. -/
theorem comp_Parse_operands (L : GoLib) (p : Parser) (tokens : List String) (ast : AST)
    (h : p.Parse L tokens = some (.ok ast)) : Operands L p tokens ast := by
  unfold Parser.Parse at h
  split at h
  · cases h
  · cases h
  · rename_i a heq
    simp only [Option.some.injEq, Except.ok.injEq] at h
    rw [← h]
    exact ((comp_productions_operands L p _).2.2.2 tokens a [] heq).1
  · cases h

end comp

namespace parse

theorem thenParse_eq_ok (r : Option (Except GoError AST))
    (k : AST → Option (Except GoError AST)) (t : AST) (h : thenParse r k = some (.ok t)) :
    ∃ a, r = some (.ok a) ∧ k a = some (.ok t) := by
  rcases r with _ | e | a
  · simp [thenParse] at h
  · simp [thenParse] at h
  · exact ⟨a, rfl, h⟩

/-- Every operand run of the tree that the step on a child returns is an operand run of a tree
that the parser returned for an operand run of the child. -/
theorem parseChild_runs (p : List String → Option (Except GoError AST)) (t : AST) :
    ∀ t', t.parseChild p = some (.ok t') →
      ∀ r' ∈ t'.runs, ∃ r ∈ t.runs, ∃ a, p r = some (.ok a) ∧ r' ∈ a.runs := by
  induction t with
  | Unparsed c =>
    intro t' h r' hr'
    exact ⟨c, by simp [AST.runs], t', h, hr'⟩
  | BinExpr l r op ihl ihr =>
    intro t' h r' hr'
    rw [AST.parseChild, Parse_BinExpr] at h
    obtain ⟨nl, h1, h2⟩ := thenParse_eq_ok _ _ _ h
    obtain ⟨nr, h3, h4⟩ := thenParse_eq_ok _ _ _ h2
    simp only [Option.some.injEq, Except.ok.injEq] at h4
    rw [← h4] at hr'
    simp only [AST.runs, List.mem_append] at hr' ⊢
    rcases hr' with hr' | hr'
    · obtain ⟨x, hx, a, ha, hmem⟩ := ihl nl h1 r' hr'
      exact ⟨x, Or.inl hx, a, ha, hmem⟩
    · obtain ⟨x, hx, a, ha, hmem⟩ := ihr nr h3 r' hr'
      exact ⟨x, Or.inr hx, a, ha, hmem⟩
  | UnaryExpr op e ih =>
    intro t' h r' hr'
    rw [AST.parseChild, Parse_UnaryExpr] at h
    obtain ⟨ne, h1, h2⟩ := thenParse_eq_ok _ _ _ h
    simp only [Option.some.injEq, Except.ok.injEq] at h2
    rw [← h2] at hr'
    simp only [AST.runs] at hr' ⊢
    exact ih ne h1 r' hr'
  | EqualExpr l r op ihl ihr =>
    intro t' h r' hr'
    rw [AST.parseChild, Parse_EqualExpr] at h
    obtain ⟨nl, h1, h2⟩ := thenParse_eq_ok _ _ _ h
    obtain ⟨nr, h3, h4⟩ := thenParse_eq_ok _ _ _ h2
    simp only [Option.some.injEq, Except.ok.injEq] at h4
    rw [← h4] at hr'
    simp only [AST.runs, List.mem_append] at hr' ⊢
    rcases hr' with hr' | hr'
    · obtain ⟨x, hx, a, ha, hmem⟩ := ihl nl h1 r' hr'
      exact ⟨x, Or.inl hx, a, ha, hmem⟩
    · obtain ⟨x, hx, a, ha, hmem⟩ := ihr nr h3 r' hr'
      exact ⟨x, Or.inr hx, a, ha, hmem⟩
  | OrdinalExpr l r op ihl ihr =>
    intro t' h r' hr'
    rw [AST.parseChild, Parse_OrdinalExpr] at h
    obtain ⟨nl, h1, h2⟩ := thenParse_eq_ok _ _ _ h
    obtain ⟨nr, h3, h4⟩ := thenParse_eq_ok _ _ _ h2
    simp only [Option.some.injEq, Except.ok.injEq] at h4
    rw [← h4] at hr'
    simp only [AST.runs, List.mem_append] at hr' ⊢
    rcases hr' with hr' | hr'
    · obtain ⟨x, hx, a, ha, hmem⟩ := ihl nl h1 r' hr'
      exact ⟨x, Or.inl hx, a, ha, hmem⟩
    · obtain ⟨x, hx, a, ha, hmem⟩ := ihr nr h3 r' hr'
      exact ⟨x, Or.inr hx, a, ha, hmem⟩

/-- When `Parse` succeeds the tree is not a placeholder leaf, and each of its operand runs
is an operand run of a tree the parser returned for an operand run of the tree before. -/
theorem AST_Parse_runs (p : List String → Option (Except GoError AST)) (t t' : AST)
    (h : AST.Parse p t = some (.ok t')) :
    (∀ c, t' ≠ .Unparsed c) ∧
      ∀ r' ∈ t'.runs, ∃ r ∈ t.runs, ∃ a, p r = some (.ok a) ∧ r' ∈ a.runs := by
  cases t with
  | Unparsed c => simp [AST.Parse] at h
  | BinExpr l r op =>
    refine ⟨?_, parseChild_runs p (.BinExpr l r op) t' h⟩
    rw [Parse_BinExpr] at h
    obtain ⟨nl, _, h2⟩ := thenParse_eq_ok _ _ _ h
    obtain ⟨nr, _, h4⟩ := thenParse_eq_ok _ _ _ h2
    simp only [Option.some.injEq, Except.ok.injEq] at h4
    rw [← h4]
    intro c hc
    cases hc
  | UnaryExpr op e =>
    refine ⟨?_, parseChild_runs p (.UnaryExpr op e) t' h⟩
    rw [Parse_UnaryExpr] at h
    obtain ⟨ne, _, h2⟩ := thenParse_eq_ok _ _ _ h
    simp only [Option.some.injEq, Except.ok.injEq] at h2
    rw [← h2]
    intro c hc
    cases hc
  | EqualExpr l r op =>
    refine ⟨?_, parseChild_runs p (.EqualExpr l r op) t' h⟩
    rw [Parse_EqualExpr] at h
    obtain ⟨nl, _, h2⟩ := thenParse_eq_ok _ _ _ h
    obtain ⟨nr, _, h4⟩ := thenParse_eq_ok _ _ _ h2
    simp only [Option.some.injEq, Except.ok.injEq] at h4
    rw [← h4]
    intro c hc
    cases hc
  | OrdinalExpr l r op =>
    refine ⟨?_, parseChild_runs p (.OrdinalExpr l r op) t' h⟩
    rw [Parse_OrdinalExpr] at h
    obtain ⟨nl, _, h2⟩ := thenParse_eq_ok _ _ _ h
    obtain ⟨nr, _, h4⟩ := thenParse_eq_ok _ _ _ h2
    simp only [Option.some.injEq, Except.ok.injEq] at h4
    rw [← h4]
    intro c hc
    cases hc

end parse

namespace controller

open parse

/-- C14: when `parseTree` succeeds, the tree is not a single placeholder leaf, and every
placeholder leaf in it holds a non-empty list of tokens none of which is a keyword of the
boolean grammar or of the comparison grammar. -/
theorem C14_leaves_hold_operands (L : GoLib) (rule : String) (t : AST)
    (h : parseTree L rule = .ret (.ok t)) :
    (∀ c, t ≠ .Unparsed c) ∧
      ∀ r ∈ t.runs, r ≠ [] ∧ ∀ tok ∈ r,
        tok ∉ ["AND", "OR", "NOT", "(", ")"] ∧
        tok ∉ ["==", "!=", ">", ">=", "<", "<=", "(", ")"] := by
  simp only [parseTree, bools.bools_NewParser_default, comp.comp_NewParser_default] at h
  cases hb : bools.defaultParser.ParseStr L rule with
  | none => simp [hb] at h
  | some rb =>
    rcases rb with e | T
    · simp [hb] at h
    · simp only [hb] at h
      cases hc : AST.Parse (comp.defaultParser.Parse L) T with
      | none => simp [hc] at h
      | some rc =>
        rcases rc with e | t1
        · simp [hc] at h
        · simp only [hc, Outcome.ret.injEq, Except.ok.injEq] at h
          subst h
          obtain ⟨hroot, hruns⟩ := AST_Parse_runs _ T t1 hc
          refine ⟨hroot, ?_⟩
          intro r' hr'
          obtain ⟨r, hr, a, ha, hmem⟩ := hruns r' hr'
          have hbo := bools.Parse_operands L bools.defaultParser _ T hb r hr
          have hco := comp.comp_Parse_operands L comp.defaultParser r a ha r' hmem
          refine ⟨hco.1, ?_⟩
          intro tok htok
          obtain ⟨hk, hin⟩ := hco.2 tok htok
          have hkb := hbo.2 tok hin
          constructor
          · intro hm
            simp only [List.mem_cons, List.mem_singleton, List.not_mem_nil, or_false] at hm
            have : bools.defaultParser.isKeyword L tok = true := by
              rcases hm with h | h | h | h | h <;> subst h <;> rfl
            rw [hkb] at this
            exact Bool.noConfusion this
          · intro hm
            simp only [List.mem_cons, List.mem_singleton, List.not_mem_nil, or_false] at hm
            have : comp.defaultParser.isKeyword L tok = true := by
              rcases hm with h | h | h | h | h | h | h | h <;> subst h <;> rfl
            rw [hk] at this
            exact Bool.noConfusion this

/-- C14 instantiated on the leaf `age` of the tree of
`age > 30 AND department == 'ENGINEERING'`. -/
theorem C14_leaves_hold_operands_witness :
    ["age"] ≠ [] ∧ "age" ∉ ["AND", "OR", "NOT", "(", ")"] ∧
      "age" ∉ ["==", "!=", ">", ">=", "<", "<=", "(", ")"] :=
  ⟨((C14_leaves_hold_operands integerLib "age > 30 AND department == 'ENGINEERING'" _
      (parseTree_age_and_department integerLib)).2 ["age"] (by decide)).1,
    ((C14_leaves_hold_operands integerLib "age > 30 AND department == 'ENGINEERING'" _
      (parseTree_age_and_department integerLib)).2 ["age"] (by decide)).2 "age" (by decide)⟩

end controller

theorem utf8Size_ascii (c : Char) (h : c.toNat < 128) : c.utf8Size = 1 := by
  have h1 : c.val.toNat < 128 := h
  have h2 : c.val ≤ 127 := by
    show c.val.toNat ≤ 127
    omega
  simp [Char.utf8Size, h2]

theorem utf8ByteSize_go_ascii (cs : List Char) (h : ∀ c ∈ cs, c.toNat < 128) :
    String.utf8ByteSize.go cs = cs.length := by
  induction cs with
  | nil => rfl
  | cons c cs ih =>
    rw [String.utf8ByteSize.go, ih (fun x hx => h x (List.mem_cons_of_mem c hx)),
      utf8Size_ascii c (h c (List.mem_cons_self c cs)), List.length_cons]

/-- The byte length of a string of ASCII characters is its number of characters. -/
theorem utf8ByteSize_ascii (s : String) (h : ∀ c ∈ s.data, c.toNat < 128) :
    s.utf8ByteSize = s.data.length := by
  obtain ⟨cs⟩ := s
  exact utf8ByteSize_go_ascii cs h

namespace parse

/-- On the trie built by adding the keywords `ks` to the empty trie, `Match` returns the
empty string or one of `ks` that the stream starts with. -/
theorem Match_foldl_Add_cases (ks : List String) (stream : List Char) :
    KeywordTrie.Match stream (ks.foldl KeywordTrie.Add (.mk [] "")) = "" ∨
      (KeywordTrie.Match stream (ks.foldl KeywordTrie.Add (.mk [] "")) ∈ ks ∧
        (KeywordTrie.Match stream (ks.foldl KeywordTrie.Add (.mk [] ""))).data <+: stream) := by
  rw [Match_foldl_Add_empty]
  rcases deepestMarker_cases stream
    (fun q => if String.mk q ∈ ks then String.mk q else "") with h | ⟨q, hq, h1, h2⟩
  · exact Or.inl h
  · right
    by_cases hmem : String.mk q ∈ ks
    · simp only [hmem, if_true] at h1
      rw [h1]
      exact ⟨hmem, hq⟩
    · simp [hmem] at h2

theorem tokenChars_append (a b : List String) :
    tokenChars (a ++ b) = tokenChars a ++ tokenChars b := by
  simp [tokenChars]

theorem tokenChars_flush (substr : List Char) (result : List String) :
    tokenChars (flush substr result) = tokenChars result ++ substr := by
  unfold flush
  split
  · rename_i h
    simp [h]
  · simp [tokenChars]

theorem flush_ne_empty (substr : List Char) (result : List String)
    (h : ∀ tok ∈ result, tok ≠ "") : ∀ tok ∈ flush substr result, tok ≠ "" := by
  unfold flush
  split
  · exact h
  · rename_i hne
    intro tok htok
    simp only [List.mem_append, List.mem_singleton] at htok
    rcases htok with htok | htok
    · exact h tok htok
    · rw [htok]
      intro he
      exact hne (congrArg String.data he)

/-- The scan loop jumps over the runes it has to skip. -/
theorem tokenizeLoop_skip (openP closeP : Char) (t : KeywordTrie) (stream : List Char) :
    ∀ (skip : Nat) (substr : List Char) (result : List String),
      tokenizeLoop openP closeP t stream skip substr result =
        tokenizeLoop openP closeP t (stream.drop skip) 0 substr result := by
  induction stream with
  | nil => intro skip substr result; simp [tokenizeLoop]
  | cons x rest ih =>
    intro skip substr result
    cases skip with
    | zero => rfl
    | succ s => rw [tokenizeLoop, ih s, List.drop_succ_cons]

/-- The scan loop, for parentheses that are not white space and a trie built from ASCII
keywords without white space: the tokens are not empty, and their characters are those of
the tokens already pushed, the pending literal, and the rest of the text without its white
space. -/
theorem tokenizeLoop_spec (openP closeP : Char) (ks : List String)
    (hopen : IsSpace openP = false) (hclose : IsSpace closeP = false)
    (hks : ∀ k ∈ ks, ∀ c ∈ k.data, c.toNat < 128 ∧ IsSpace c = false) (n : Nat) :
    ∀ (stream substr : List Char) (result : List String), stream.length ≤ n →
      tokenChars (tokenizeLoop openP closeP (ks.foldl KeywordTrie.Add (.mk [] "")) stream 0
          substr result) =
        tokenChars result ++ substr ++ stream.filter (fun c => !IsSpace c) ∧
      ((∀ tok ∈ result, tok ≠ "") →
        ∀ tok ∈ tokenizeLoop openP closeP (ks.foldl KeywordTrie.Add (.mk [] "")) stream 0
          substr result, tok ≠ "") := by
  induction n with
  | zero =>
    intro stream substr result hlen
    have : stream = [] := List.length_eq_zero.mp (Nat.le_zero.mp hlen)
    subst this
    simp only [tokenizeLoop, tokenChars_flush, List.filter_nil, List.append_nil]
    exact ⟨trivial, flush_ne_empty substr result⟩
  | succ n ih =>
    intro stream substr result hlen
    cases stream with
    | nil =>
      simp only [tokenizeLoop, tokenChars_flush, List.filter_nil, List.append_nil]
      exact ⟨trivial, flush_ne_empty substr result⟩
    | cons x rest =>
      have hrest : rest.length ≤ n := by simpa using hlen
      rw [tokenizeLoop]
      by_cases hp : x = openP ∨ x = closeP
      · have hx : IsSpace x = false := by
          rcases hp with hp | hp <;> rw [hp] <;> assumption
        rw [if_pos hp]
        obtain ⟨i1, i2⟩ := ih rest [] (flush substr result ++ [String.mk [x]]) hrest
        refine ⟨?_, fun hres => i2 ?_⟩
        · rw [i1, tokenChars_append, tokenChars_flush]
          simp [tokenChars, hx]
        · intro tok htok
          simp only [List.mem_append, List.mem_singleton] at htok
          rcases htok with htok | htok
          · exact flush_ne_empty substr result hres tok htok
          · rw [htok]
            intro he
            exact absurd (congrArg String.data he) (by simp)
      · rw [if_neg hp]
        by_cases hs : IsSpace x = true
        · rw [if_pos hs]
          obtain ⟨i1, i2⟩ := ih rest [] (flush substr result) hrest
          refine ⟨?_, fun hres => i2 (flush_ne_empty substr result hres)⟩
          rw [i1, tokenChars_flush]
          simp [hs]
        · rw [if_neg hs]
          have hx : IsSpace x = false := by simpa using hs
          simp only []
          by_cases hm : (KeywordTrie.Match (x :: rest)
              (ks.foldl KeywordTrie.Add (.mk [] ""))).utf8ByteSize > 0
          · rw [if_pos hm]
            rcases Match_foldl_Add_cases ks (x :: rest) with h0 | ⟨hmem, hpre⟩
            · rw [h0] at hm
              exact absurd hm (by decide)
            · generalize KeywordTrie.Match (x :: rest)
                (ks.foldl KeywordTrie.Add (.mk [] "")) = m at hm hmem hpre
              have hascii := utf8ByteSize_ascii m (fun c hc => (hks m hmem c hc).1)
              rw [tokenizeLoop_skip, hascii]
              obtain ⟨sfx, hsfx⟩ := hpre
              have hlenm : 0 < m.data.length := by omega
              have hdrop : rest.drop (m.data.length - 1) = sfx := by
                have h1 : (x :: rest).drop m.data.length = sfx := by
                  rw [← hsfx, List.drop_left]
                have h2 : m.data.length = (m.data.length - 1) + 1 := by omega
                rw [h2, List.drop_succ_cons] at h1
                exact h1
              rw [hdrop]
              have hsl : sfx.length ≤ n := by
                have h1 : (x :: rest).length = m.data.length + sfx.length := by
                  rw [← hsfx, List.length_append]
                simp only [List.length_cons] at h1
                omega
              obtain ⟨i1, i2⟩ := ih sfx [] (flush substr result ++ [m]) hsl
              have hfil : m.data.filter (fun c => !IsSpace c) = m.data := by
                rw [List.filter_eq_self]
                intro c hc
                simp [(hks m hmem c hc).2]
              refine ⟨?_, fun hres => i2 ?_⟩
              · rw [i1, tokenChars_append, tokenChars_flush, ← hsfx, List.filter_append, hfil]
                simp [tokenChars]
              · intro tok htok
                simp only [List.mem_append, List.mem_singleton] at htok
                rcases htok with htok | htok
                · exact flush_ne_empty substr result hres tok htok
                · rw [htok]
                  intro he
                  rw [he] at hlenm
                  exact absurd hlenm (by decide)
          · rw [if_neg hm]
            obtain ⟨i1, i2⟩ := ih rest (substr ++ [x]) result hrest
            refine ⟨?_, i2⟩
            rw [i1]
            simp [hx]

/-- C17 (counterexample): with the keyword `a b` in the trie, the text `a b` is one token,
whose characters are not those of the text without its white space. -/
theorem C17_keyword_with_white_space :
    Tokenize "a b" '(' ')' (["a b"].foldl KeywordTrie.Add (.mk [] "")) = ["a b"] ∧
      tokenChars (Tokenize "a b" '(' ')' (["a b"].foldl KeywordTrie.Add (.mk [] ""))) ≠
        "a b".data.filter (fun c => !IsSpace c) := by
  decide

/-- A keyword that is longer in bytes than in runes makes the scan jump too far: with the
keyword `∧` in the trie, the text `a∧b` loses its last character. -/
theorem Tokenize_multibyte_keyword :
    Tokenize "a∧b" '(' ')' (["∧"].foldl KeywordTrie.Add (.mk [] "")) = ["a", "∧"] := by
  decide

/-- C17 (amended): for every text, parenthesis characters that are not white space, and a
trie built by `Add` calls from keywords made of ASCII characters that are not white space,
no token that `Tokenize` returns is empty, and the characters of the tokens, in order, are
the characters of the text without its white space; a text of white space only gives no
token. -/
theorem C17_tokenize_keeps_text (str : String) (openP closeP : Char) (ks : List String)
    (hopen : IsSpace openP = false) (hclose : IsSpace closeP = false)
    (hks : ∀ k ∈ ks, ∀ c ∈ k.data, c.toNat < 128 ∧ IsSpace c = false) :
    (∀ tok ∈ Tokenize str openP closeP (ks.foldl KeywordTrie.Add (.mk [] "")), tok ≠ "") ∧
      tokenChars (Tokenize str openP closeP (ks.foldl KeywordTrie.Add (.mk [] ""))) =
        str.data.filter (fun c => !IsSpace c) ∧
      ((∀ c ∈ str.data, IsSpace c = true) →
        Tokenize str openP closeP (ks.foldl KeywordTrie.Add (.mk [] "")) = []) := by
  obtain ⟨h1, h2⟩ := tokenizeLoop_spec openP closeP ks hopen hclose hks str.data.length
    str.data [] [] (Nat.le_refl _)
  have hne : ∀ tok ∈ Tokenize str openP closeP (ks.foldl KeywordTrie.Add (.mk [] "")),
      tok ≠ "" := h2 (fun tok htok => absurd htok (List.not_mem_nil tok))
  have hch : tokenChars (Tokenize str openP closeP (ks.foldl KeywordTrie.Add (.mk [] ""))) =
      str.data.filter (fun c => !IsSpace c) := by
    rw [Tokenize, h1]
    simp [tokenChars]
  refine ⟨hne, hch, ?_⟩
  intro hws
  have hnil : str.data.filter (fun c => !IsSpace c) = [] := by
    rw [List.filter_eq_nil_iff]
    intro c hc
    simp [hws c hc]
  rw [hnil] at hch
  cases htoks : Tokenize str openP closeP (ks.foldl KeywordTrie.Add (.mk [] "")) with
  | nil => rfl
  | cons tok rest =>
    rw [htoks] at hch hne
    have htok : tok ≠ "" := hne tok (List.mem_cons_self tok rest)
    have : tok.data = [] := by
      simp only [tokenChars, List.map_cons, List.flatten_cons, List.append_eq_nil] at hch
      exact hch.1
    exact absurd (String.ext this) htok

/-- C17 (amended) instantiated on a rule text and the keywords of the boolean grammar. -/
theorem C17_tokenize_keeps_text_witness :
    (∀ tok ∈ Tokenize "age > 30 AND (x)" '(' ')'
        (["AND", "OR", "NOT", "(", ")"].foldl KeywordTrie.Add (.mk [] "")), tok ≠ "") ∧
      tokenChars (Tokenize "age > 30 AND (x)" '(' ')'
        (["AND", "OR", "NOT", "(", ")"].foldl KeywordTrie.Add (.mk [] ""))) =
        "age > 30 AND (x)".data.filter (fun c => !IsSpace c) ∧
      ((∀ c ∈ "age > 30 AND (x)".data, IsSpace c = true) →
        Tokenize "age > 30 AND (x)" '(' ')'
          (["AND", "OR", "NOT", "(", ")"].foldl KeywordTrie.Add (.mk [] "")) = []) :=
  C17_tokenize_keeps_text "age > 30 AND (x)" '(' ')' ["AND", "OR", "NOT", "(", ")"]
    (by decide) (by decide) (by decide)

end parse

namespace bools

open parse

/-- C21: `Eval` on a `BinExpr` with operator AND or OR and a non-nil interpreter evaluates
the right child first and never short-circuits: a failure of the right child is returned
whatever the left child does; otherwise a failure of the left child is returned; otherwise
the result is the conjunction (AND) or the disjunction (OR) of the two child values, with a
nil error. -/
theorem C21_eval_right_first (interpreter : Interpreter Bool) (lhs rhs : AST) (op : Op)
    (hop : op = OpAnd ∨ op = OpOr) :
    (∀ err, (Eval rhs (some interpreter)).2 = some err →
      Eval (.BinExpr lhs rhs op) (some interpreter) = (false, some err)) ∧
    ((Eval rhs (some interpreter)).2 = none → ∀ err,
      (Eval lhs (some interpreter)).2 = some err →
        Eval (.BinExpr lhs rhs op) (some interpreter) = (false, some err)) ∧
    ((Eval rhs (some interpreter)).2 = none → (Eval lhs (some interpreter)).2 = none →
      Eval (.BinExpr lhs rhs op) (some interpreter) =
        (if op = OpAnd then
            ((Eval rhs (some interpreter)).1 && (Eval lhs (some interpreter)).1)
          else ((Eval rhs (some interpreter)).1 || (Eval lhs (some interpreter)).1), none)) := by
  have hguard : ¬ (op ≠ OpAnd ∧ op ≠ OpOr) := by
    rcases hop with h | h <;> simp [h]
  have hor : ¬ op = OpAnd → op = OpOr := fun h => hop.resolve_left h
  refine ⟨?_, ?_, ?_⟩
  · intro err hr
    rw [Eval, if_neg hguard]
    rcases hrv : Eval rhs (some interpreter) with ⟨rv, re⟩
    rw [hrv] at hr
    simp only at hr
    subst hr
    rfl
  · intro hr err hl
    rw [Eval, if_neg hguard]
    rcases hrv : Eval rhs (some interpreter) with ⟨rv, re⟩
    rcases hlv : Eval lhs (some interpreter) with ⟨lv, le⟩
    rw [hrv] at hr
    rw [hlv] at hl
    simp only at hr hl
    subst hr
    subst hl
    rfl
  · intro hr hl
    rw [Eval, if_neg hguard]
    rcases hrv : Eval rhs (some interpreter) with ⟨rv, re⟩
    rcases hlv : Eval lhs (some interpreter) with ⟨lv, le⟩
    rw [hrv] at hr
    rw [hlv] at hl
    simp only at hr hl
    subst hr
    subst hl
    by_cases h : op = OpAnd
    · simp [h]
    · have h2 := hor h
      subst h2
      rfl

/-- C21 on `a AND b` where `a` is false and `b` is unknown: the failure of the right child is
returned although the left child alone decides the conjunction. -/
theorem C21_eval_right_first_witness :
    (OpAnd = OpAnd ∨ OpAnd = OpOr) ∧
    Eval (.Unparsed ["a"]) (some (tableInterpreter [("a", false)])) = (false, none) ∧
    Eval (.BinExpr (.Unparsed ["a"]) (.Unparsed ["b"]) OpAnd)
        (some (tableInterpreter [("a", false)])) =
      (false, some (wrapf .ErrEval ": unknown variable 'b'")) :=
  ⟨Or.inl rfl, by decide,
    (C21_eval_right_first (tableInterpreter [("a", false)]) (.Unparsed ["a"])
      (.Unparsed ["b"]) OpAnd (Or.inl rfl)).1 _ (by decide)⟩

end bools

namespace parse

/-- The deepest marker is at least as deep as any non-empty marker along the stream. -/
theorem deepestMarker_longest (stream : List Char) :
    ∀ (marker : List Char → String) (q : List Char), q <+: stream → marker q ≠ "" →
      ∃ q1, q1 <+: stream ∧ q.length ≤ q1.length ∧ deepestMarker marker stream = marker q1 ∧
        marker q1 ≠ "" := by
  induction stream with
  | nil =>
    intro marker q hq hm
    have : q = [] := List.prefix_nil.mp hq
    subst this
    exact ⟨[], List.prefix_refl _, Nat.le_refl _, rfl, hm⟩
  | cons c stream ih =>
    intro marker q hq hm
    rw [deepestMarker]
    cases q with
    | nil =>
      by_cases h : deepestMarker (fun q => marker (c :: q)) stream = ""
      · rw [if_pos h]
        exact ⟨[], List.nil_prefix, Nat.le_refl _, rfl, hm⟩
      · rw [if_neg h]
        rcases deepestMarker_cases stream (fun q => marker (c :: q)) with h1 | ⟨q1, hq1, h1, h2⟩
        · exact absurd h1 h
        · exact ⟨c :: q1, (List.prefix_cons_inj c).mpr hq1, Nat.zero_le _, h1, h2⟩
    | cons d q0 =>
      have hd : d = c ∧ q0 <+: stream := by
        have := List.cons_prefix_cons.mp hq
        exact this
      obtain ⟨hdc, hq0⟩ := hd
      subst hdc
      obtain ⟨q1, hq1, hlen, h1, h2⟩ := ih (fun q => marker (d :: q)) q0 hq0 hm
      have hne : deepestMarker (fun q => marker (d :: q)) stream ≠ "" := by
        rw [h1]; exact h2
      rw [if_neg hne]
      exact ⟨d :: q1, (List.prefix_cons_inj d).mpr hq1, by simpa using hlen, h1, h2⟩

/-- On the trie built by adding the keywords `ks` to the empty trie, `Match` is at least as
long as any keyword of `ks` that the stream starts with. -/
theorem Match_foldl_Add_longest (ks : List String) (stream : List Char) (k : String)
    (hk : k ∈ ks) (hpre : k.data <+: stream) :
    k.data.length ≤
      (KeywordTrie.Match stream (ks.foldl KeywordTrie.Add (.mk [] ""))).data.length := by
  by_cases hke : k = ""
  · subst hke
    exact Nat.zero_le _
  · rw [Match_foldl_Add_empty]
    have hmk : String.mk k.data = k := rfl
    have hm : (fun q => if String.mk q ∈ ks then String.mk q else "") k.data ≠ "" := by
      show (if String.mk k.data ∈ ks then String.mk k.data else "") ≠ ""
      rw [hmk, if_pos hk]
      exact hke
    obtain ⟨q1, _, hlen, h1, h2⟩ := deepestMarker_longest stream
      (fun q => if String.mk q ∈ ks then String.mk q else "") k.data hpre hm
    rw [h1]
    by_cases hq : String.mk q1 ∈ ks
    · simp only [hq, if_true]
      exact hlen
    · simp [hq] at h2

/-- C24: `Match` is a longest-prefix match.  On the trie built by adding the keywords `ks`,
whenever a keyword of `ks` is a prefix of the stream, `Match` returns a keyword of `ks` that
is a prefix of the stream and at least as long as every such keyword; it returns the empty
string exactly when no non-empty keyword of `ks` is a prefix of the stream; and two lists
with the same members give the same result. -/
theorem C24_longest_prefix_match (ks : List String) (stream : List Char) :
    (∀ k ∈ ks, k.data <+: stream →
      KeywordTrie.Match stream (ks.foldl KeywordTrie.Add (.mk [] "")) ∈ ks ∧
      (KeywordTrie.Match stream (ks.foldl KeywordTrie.Add (.mk [] ""))).data <+: stream ∧
      ∀ k1 ∈ ks, k1.data <+: stream → k1.length ≤
        (KeywordTrie.Match stream (ks.foldl KeywordTrie.Add (.mk [] ""))).length) ∧
    (KeywordTrie.Match stream (ks.foldl KeywordTrie.Add (.mk [] "")) = "" ↔
      ∀ k ∈ ks, k ≠ "" → ¬ k.data <+: stream) ∧
    (∀ ks1 : List String, (∀ k, k ∈ ks ↔ k ∈ ks1) →
      KeywordTrie.Match stream (ks1.foldl KeywordTrie.Add (.mk [] "")) =
        KeywordTrie.Match stream (ks.foldl KeywordTrie.Add (.mk [] ""))) := by
  refine ⟨?_, ?_, ?_⟩
  · intro k hk hpre
    have hlong := Match_foldl_Add_longest ks stream
    rcases Match_foldl_Add_cases ks stream with h | ⟨h1, h2⟩
    · have hlen := hlong k hk hpre
      rw [h] at hlen
      have hk0 : k = "" := by
        have : k.data = [] := List.length_eq_zero.mp (Nat.le_zero.mp hlen)
        exact String.ext this
      rw [h]
      refine ⟨hk0 ▸ hk, List.nil_prefix, ?_⟩
      intro k1 hk1 hpre1
      have := hlong k1 hk1 hpre1
      rw [h] at this
      exact this
    · exact ⟨h1, h2, fun k1 hk1 hpre1 => hlong k1 hk1 hpre1⟩
  · constructor
    · intro h k hk hne hpre
      have hlen := Match_foldl_Add_longest ks stream k hk hpre
      rw [h] at hlen
      have : k.data = [] := List.length_eq_zero.mp (Nat.le_zero.mp hlen)
      exact hne (String.ext this)
    · intro h
      rcases Match_foldl_Add_cases ks stream with h0 | ⟨h1, h2⟩
      · exact h0
      · by_contra hne
        exact h _ h1 hne h2
  · intro ks1 hmem
    rw [Match_foldl_Add_empty, Match_foldl_Add_empty]
    congr 1
    funext q
    simp only [hmem]

/-- C24 on the keywords `>`, `>=` added in either order: on a stream that starts with `>=`
the result is `>=`, the longer of the two keywords that are prefixes. -/
theorem C24_longest_prefix_match_witness :
    KeywordTrie.Match ">= 3".data ([">", ">="].foldl KeywordTrie.Add (.mk [] "")) = ">=" ∧
    KeywordTrie.Match ">= 3".data ([">=", ">"].foldl KeywordTrie.Add (.mk [] "")) =
      KeywordTrie.Match ">= 3".data ([">", ">="].foldl KeywordTrie.Add (.mk [] "")) ∧
    ">".length ≤
      (KeywordTrie.Match ">= 3".data ([">", ">="].foldl KeywordTrie.Add (.mk [] ""))).length :=
  ⟨by decide,
    (C24_longest_prefix_match [">", ">="] ">= 3".data).2.2 [">=", ">"]
      (fun k => by simp [or_comm]),
    ((C24_longest_prefix_match [">", ">="] ">= 3".data).1 ">" (by decide) (by decide)).2.2
      ">" (by decide) (by decide)⟩

end parse

namespace bools

open parse

/-- C22: under the parser built with `WithCaseSensitive(false)`, two rule texts that differ
only in letter case need not parse alike.  The matcher holds the lower-cased keywords and
`Tokenize` compares the text with them as written, so `order` is cut at `or` and `ORDER`
is not: `ORDER > 5 and x == 1` parses to an AND node over two leaves of three tokens, and
`order > 5 and x == 1` is rejected.  The two texts of the example of the claim do parse to
AND nodes over leaves of three tokens each. -/
theorem C22_case_folding_not_applied_by_tokenizer :
    ∃ p : Parser, NewParser integerLib [WithCaseSensitive false] = .ok p ∧
      p.tokenize "ORDER > 5 and x == 1" = ["ORDER", ">", "5", "and", "x", "==", "1"] ∧
      p.tokenize "order > 5 and x == 1" = ["or", "der", ">", "5", "and", "x", "==", "1"] ∧
      p.ParseStr integerLib "ORDER > 5 and x == 1" =
        some (.ok (.BinExpr (.Unparsed ["ORDER", ">", "5"]) (.Unparsed ["x", "==", "1"])
          OpAnd)) ∧
      p.ParseStr integerLib "order > 5 and x == 1" =
        some (.error (wrapf .ErrParse ": unexpected end of expression")) ∧
      p.ParseStr integerLib "AGE > 30 and DEPT == 'x'" =
        some (.ok (.BinExpr (.Unparsed ["AGE", ">", "30"]) (.Unparsed ["DEPT", "==", "'x'"])
          OpAnd)) ∧
      p.ParseStr integerLib "age > 30 AND dept == 'x'" =
        some (.ok (.BinExpr (.Unparsed ["age", ">", "30"]) (.Unparsed ["dept", "==", "'x'"])
          OpAnd)) :=
  ⟨_, rfl, by decide, by decide, by decide, by decide, by decide, by decide⟩

end bools

namespace parse

theorem flush_append (pre : List String) (substr : List Char) (result : List String) :
    flush substr (pre ++ result) = pre ++ flush substr result := by
  unfold flush
  split
  · rfl
  · rw [List.append_assoc]

/-- The tokens already pushed stay in front of those the scan loop adds. -/
theorem tokenizeLoop_result_append (openP closeP : Char) (t : KeywordTrie)
    (pre : List String) (stream : List Char) :
    ∀ (skip : Nat) (substr : List Char) (result : List String),
      tokenizeLoop openP closeP t stream skip substr (pre ++ result) =
        pre ++ tokenizeLoop openP closeP t stream skip substr result := by
  induction stream with
  | nil => intro skip substr result; simp [tokenizeLoop, flush_append]
  | cons x rest ih =>
    intro skip substr result
    cases skip with
    | succ s => rw [tokenizeLoop, tokenizeLoop, ih]
    | zero =>
      rw [tokenizeLoop, tokenizeLoop]
      by_cases hp : x = openP ∨ x = closeP
      · rw [if_pos hp, if_pos hp, flush_append, List.append_assoc, ih]
      · rw [if_neg hp, if_neg hp]
        by_cases hs : IsSpace x = true
        · rw [if_pos hs, if_pos hs, flush_append, ih]
        · rw [if_neg hs, if_neg hs]
          simp only
          split
          · rw [flush_append, List.append_assoc, ih]
          · rw [ih]

/-- On the trie built by adding the keywords `ks` to the empty trie, `Match` returns the
empty string exactly when no non-empty keyword of `ks` is a prefix of the stream. -/
theorem Match_foldl_Add_eq_empty_iff (ks : List String) (stream : List Char) :
    KeywordTrie.Match stream (ks.foldl KeywordTrie.Add (.mk [] "")) = "" ↔
      ∀ k ∈ ks, k ≠ "" → ¬ k.data <+: stream := by
  constructor
  · intro h k hk hne hpre
    have hlen := Match_foldl_Add_longest ks stream k hk hpre
    rw [h] at hlen
    have : k.data = [] := List.length_eq_zero.mp (Nat.le_zero.mp hlen)
    exact hne (String.ext this)
  · intro h
    rcases Match_foldl_Add_cases ks stream with h0 | ⟨h1, h2⟩
    · exact h0
    · by_contra hne
      exact h _ h1 hne h2

/-- Runes after the stream that no keyword reaches do not change what `Match` returns. -/
theorem Match_foldl_Add_extend (ks : List String) (s1 s2 : List Char) (hpre : s1 <+: s2)
    (hks : ∀ k ∈ ks, k ≠ "" → k.data <+: s2 → k.data <+: s1) :
    KeywordTrie.Match s2 (ks.foldl KeywordTrie.Add (.mk [] "")) =
      KeywordTrie.Match s1 (ks.foldl KeywordTrie.Add (.mk [] "")) := by
  rcases Match_foldl_Add_cases ks s1 with h1 | ⟨h1m, h1p⟩
  · rw [h1, Match_foldl_Add_eq_empty_iff]
    intro k hk hne hp
    exact (Match_foldl_Add_eq_empty_iff ks s1).mp h1 k hk hne (hks k hk hne hp)
  · rcases Match_foldl_Add_cases ks s2 with h2 | ⟨h2m, h2p⟩
    · by_cases hne : KeywordTrie.Match s1 (ks.foldl KeywordTrie.Add (.mk [] "")) = ""
      · rw [h2, hne]
      · exact absurd (h1p.trans hpre)
          ((Match_foldl_Add_eq_empty_iff ks s2).mp h2 _ h1m hne)
    · by_cases hne : KeywordTrie.Match s2 (ks.foldl KeywordTrie.Add (.mk [] "")) = ""
      · have h1e : KeywordTrie.Match s1 (ks.foldl KeywordTrie.Add (.mk [] "")) = "" := by
          rw [Match_foldl_Add_eq_empty_iff]
          intro k hk hkne hp
          exact (Match_foldl_Add_eq_empty_iff ks s2).mp hne k hk hkne (hp.trans hpre)
        rw [hne, h1e]
      · have hle1 := Match_foldl_Add_longest ks s2 _ h1m (h1p.trans hpre)
        have hle2 := Match_foldl_Add_longest ks s1 _ h2m (hks _ h2m hne h2p)
        have hlen := Nat.le_antisymm hle2 hle1
        apply String.ext
        exact List.prefix_of_prefix_length_le h2p (h1p.trans hpre) (Nat.le_of_eq hlen)
          |>.eq_of_length hlen

/-- A list without the rune `c` that is a prefix of `s ++ c :: rest` is a prefix of `s`. -/
theorem prefix_before_rune (c : Char) (rest : List Char) :
    ∀ k s : List Char, c ∉ k → k <+: s ++ c :: rest → k <+: s := by
  intro k
  induction k with
  | nil => intro s _ _; exact List.nil_prefix
  | cons a k ih =>
    intro s hc hp
    cases s with
    | nil =>
      rw [List.nil_append, List.cons_prefix_cons] at hp
      exact absurd hp.1.symm (fun h => hc (by rw [h]; exact List.mem_cons_self _ _))
    | cons b s =>
      rw [List.cons_append, List.cons_prefix_cons] at hp
      rw [List.cons_prefix_cons]
      exact ⟨hp.1, ih s (fun h => hc (List.mem_cons_of_mem _ h)) hp.2⟩

end parse

namespace bools

open parse

theorem default_matcher_eq :
    defaultParser.matcher = ["AND", "OR", "NOT", "(", ")"].foldl KeywordTrie.Add (.mk [] "") :=
  rfl

theorem default_tokenize_eq (str : String) :
    defaultParser.tokenize str = tokenizeLoop '(' ')' defaultParser.matcher str.data 0 [] [] :=
  rfl

/-- What the matcher of the default parser returns: nothing, or one of the five keywords,
which the stream then starts with. -/
theorem default_Match_cases (stream : List Char) :
    KeywordTrie.Match stream defaultParser.matcher = "" ∨
      (KeywordTrie.Match stream defaultParser.matcher ∈ ["AND", "OR", "NOT", "(", ")"] ∧
        (KeywordTrie.Match stream defaultParser.matcher).data <+: stream) := by
  rw [default_matcher_eq]
  exact Match_foldl_Add_cases _ stream

/-- The byte length of a match of the default matcher is its number of runes. -/
theorem default_Match_size (stream : List Char) :
    (KeywordTrie.Match stream defaultParser.matcher).utf8ByteSize =
      (KeywordTrie.Match stream defaultParser.matcher).data.length := by
  rcases default_Match_cases stream with h | ⟨h, _⟩
  · rw [h]; rfl
  · simp only [List.mem_cons, List.mem_singleton, List.mem_nil_iff, or_false] at h
    rcases h with h | h | h | h | h <;> rw [h] <;> rfl

/-- The default matcher on a stream that starts with AND, OR or NOT. -/
theorem default_Match_keyword (k : String) (hk : k ∈ ["AND", "OR", "NOT"])
    (rest : List Char) : KeywordTrie.Match (k.data ++ rest) defaultParser.matcher = k := by
  simp only [List.mem_cons, List.mem_singleton, List.mem_nil_iff, or_false] at hk
  rcases hk with h | h | h <;> subst h <;> cases rest <;> rfl

/-- The default matcher does not look past a closing parenthesis that follows the stream. -/
theorem default_Match_extend (x : Char) (s rest : List Char) (hx : x ≠ ')') :
    KeywordTrie.Match (x :: s ++ ')' :: rest) defaultParser.matcher =
      KeywordTrie.Match (x :: s) defaultParser.matcher := by
  rw [default_matcher_eq]
  apply Match_foldl_Add_extend _ (x :: s) (x :: s ++ ')' :: rest) (List.prefix_append _ _)
  intro k hk _ hp
  simp only [List.mem_cons, List.mem_singleton, List.mem_nil_iff, or_false] at hk
  rcases hk with h | h | h | h | h
  · subst h; exact prefix_before_rune ')' rest _ (x :: s) (by decide) hp
  · subst h; exact prefix_before_rune ')' rest _ (x :: s) (by decide) hp
  · subst h; exact prefix_before_rune ')' rest _ (x :: s) (by decide) hp
  · subst h; exact prefix_before_rune ')' rest _ (x :: s) (by decide) hp
  · subst h
    have : (")" : String).data = [')'] := rfl
    rw [this, List.cons_append, List.cons_prefix_cons] at hp
    exact absurd hp.1.symm hx

end bools

namespace bools

open parse

/-- The scan loop of the default parser on a text followed by a closing parenthesis: the
tokens are those of the text alone, then the parenthesis, then those of the rest. -/
theorem default_tokenizeLoop_close (rest : List Char) (n : Nat) :
    ∀ (s : List Char) (substr : List Char) (result : List String), s.length ≤ n →
      tokenizeLoop '(' ')' defaultParser.matcher (s ++ ')' :: rest) 0 substr result =
        tokenizeLoop '(' ')' defaultParser.matcher rest 0 []
          (tokenizeLoop '(' ')' defaultParser.matcher s 0 substr result ++ [")"]) := by
  induction n with
  | zero =>
    intro s substr result hlen
    have : s = [] := List.length_eq_zero.mp (Nat.le_zero.mp hlen)
    subst this
    simp [tokenizeLoop]
  | succ n ih =>
    intro s substr result hlen
    cases s with
    | nil =>
      simp [tokenizeLoop]
    | cons x s =>
      have hs : s.length ≤ n := by simpa using hlen
      rw [List.cons_append, tokenizeLoop, tokenizeLoop]
      by_cases hp : x = '(' ∨ x = ')'
      · rw [if_pos hp, if_pos hp, ih s _ _ hs]
      · rw [if_neg hp, if_neg hp]
        by_cases hsp : IsSpace x = true
        · rw [if_pos hsp, if_pos hsp, ih s _ _ hs]
        · rw [if_neg hsp, if_neg hsp]
          have hx : x ≠ ')' := fun h => hp (Or.inr h)
          have hm := default_Match_extend x s rest hx
          rw [List.cons_append] at hm
          simp only [hm]
          by_cases hsize :
              (KeywordTrie.Match (x :: s) defaultParser.matcher).utf8ByteSize > 0
          · rw [if_pos hsize, if_pos hsize, tokenizeLoop_skip,
              tokenizeLoop_skip _ _ _ s]
            have hle : (KeywordTrie.Match (x :: s) defaultParser.matcher).utf8ByteSize - 1 ≤
                s.length := by
              rw [default_Match_size]
              rcases default_Match_cases (x :: s) with h | ⟨_, h⟩
              · rw [h]; exact Nat.zero_le _
              · have := h.length_le
                simp only [List.length_cons] at this
                omega
            rw [List.drop_append_of_le_length hle]
            apply ih
            rw [List.length_drop]
            omega
          · rw [if_neg hsize, if_neg hsize, ih s _ _ hs]

/-- The scan loop of the default parser at AND, OR or NOT: the literal collected so far is
pushed, then the keyword, and the scan goes on behind the keyword. -/
theorem default_tokenizeLoop_keyword (k : String) (hk : k ∈ ["AND", "OR", "NOT"])
    (rest substr : List Char) (result : List String) :
    tokenizeLoop '(' ')' defaultParser.matcher (k.data ++ rest) 0 substr result =
      tokenizeLoop '(' ')' defaultParser.matcher rest 0 [] (flush substr result ++ [k]) := by
  have hm := default_Match_keyword k hk rest
  simp only [List.mem_cons, List.mem_singleton, List.mem_nil_iff, or_false] at hk
  rcases hk with h | h | h <;> subst h
  · have hd : ("AND" : String).data = ['A', 'N', 'D'] := rfl
    rw [hd] at hm ⊢
    rw [List.cons_append, tokenizeLoop, if_neg (by decide), if_neg (by decide)]
    simp only [List.cons_append, List.nil_append] at hm ⊢
    rw [hm, if_pos (by decide)]
    rfl
  · have hd : ("OR" : String).data = ['O', 'R'] := rfl
    rw [hd] at hm ⊢
    rw [List.cons_append, tokenizeLoop, if_neg (by decide), if_neg (by decide)]
    simp only [List.cons_append, List.nil_append] at hm ⊢
    rw [hm, if_pos (by decide)]
    rfl
  · have hd : ("NOT" : String).data = ['N', 'O', 'T'] := rfl
    rw [hd] at hm ⊢
    rw [List.cons_append, tokenizeLoop, if_neg (by decide), if_neg (by decide)]
    simp only [List.cons_append, List.nil_append] at hm ⊢
    rw [hm, if_pos (by decide)]
    rfl

/-- The tokens of a combined rule text: the parentheses and the strategy, around the tokens
of the two rule texts. -/
theorem default_tokenize_combined (r1 r2 s : String) (hs : s = "AND" ∨ s = "OR") :
    defaultParser.tokenize ("(" ++ r1 ++ ") " ++ s ++ " (" ++ r2 ++ ")") =
      "(" :: defaultParser.tokenize r1 ++
        ")" :: s :: "(" :: defaultParser.tokenize r2 ++ [")"] := by
  have hk : s ∈ ["AND", "OR", "NOT"] := by
    rcases hs with h | h <;> simp [h]
  have hdata : ("(" ++ r1 ++ ") " ++ s ++ " (" ++ r2 ++ ")").data =
      '(' :: (r1.data ++ ')' :: ' ' :: (s.data ++ ' ' :: '(' :: (r2.data ++ ')' :: []))) := by
    simp [String.data_append]
  rw [default_tokenize_eq, hdata, tokenizeLoop, if_pos (Or.inl rfl),
    default_tokenizeLoop_close _ _ r1.data _ _ (Nat.le_refl _),
    tokenizeLoop, if_neg (by decide), if_pos (by decide),
    default_tokenizeLoop_keyword s hk,
    tokenizeLoop, if_neg (by decide), if_pos (by decide),
    tokenizeLoop, if_pos (Or.inl rfl),
    default_tokenizeLoop_close _ _ r2.data _ _ (Nat.le_refl _)]
  have hopen : ∀ stream : List Char,
      tokenizeLoop '(' ')' defaultParser.matcher stream 0 [] ["("] =
        "(" :: tokenizeLoop '(' ')' defaultParser.matcher stream 0 [] [] :=
    fun stream => tokenizeLoop_result_append '(' ')' _ ["("] stream 0 [] []
  have hmk : String.mk ['('] = "(" := rfl
  simp only [tokenizeLoop, flush, if_true, List.nil_append]
  rw [tokenizeLoop_result_append, hmk, hopen, hopen, default_tokenize_eq,
    default_tokenize_eq]
  simp [List.append_assoc]

end bools

namespace bools

open parse

/-- The code of a lower-case letter or of a digit. -/
theorem lower_digit_toNat (c : Char) (h : c.isLower = true ∨ c.isDigit = true) :
    (97 ≤ c.toNat ∧ c.toNat ≤ 122) ∨ (48 ≤ c.toNat ∧ c.toNat ≤ 57) := by
  rcases h with h | h
  · simp only [Char.isLower, Bool.and_eq_true, decide_eq_true_eq, ge_iff_le] at h
    exact Or.inl ⟨h.1, h.2⟩
  · simp only [Char.isDigit, Bool.and_eq_true, decide_eq_true_eq, ge_iff_le] at h
    exact Or.inr ⟨h.1, h.2⟩

/-- A lower-case letter or a digit is no white space. -/
theorem lower_digit_not_space (c : Char) (h : c.isLower = true ∨ c.isDigit = true) :
    IsSpace c = false := by
  have hn := lower_digit_toNat c h
  simp only [IsSpace]
  generalize c.toNat = n at hn
  simp
  omega

/-- No keyword of the default parser starts with a lower-case letter or a digit. -/
theorem default_Match_plain (c : Char) (rest : List Char)
    (h : c.isLower = true ∨ c.isDigit = true) :
    KeywordTrie.Match (c :: rest) defaultParser.matcher = "" := by
  have hn := lower_digit_toNat c h
  rcases default_Match_cases (c :: rest) with h0 | ⟨hm, hp⟩
  · exact h0
  · exfalso
    simp only [List.mem_cons, List.mem_singleton, List.mem_nil_iff, or_false] at hm
    have hhead : ∀ (a : Char) (tl : List Char),
        (KeywordTrie.Match (c :: rest) defaultParser.matcher).data = a :: tl → a = c := by
      intro a tl he
      rw [he, List.cons_prefix_cons] at hp
      exact hp.1
    rcases hm with hm | hm | hm | hm | hm
    · have := hhead 'A' ['N', 'D'] (by rw [hm])
      subst this
      revert hn; decide
    · have := hhead 'O' ['R'] (by rw [hm])
      subst this
      revert hn; decide
    · have := hhead 'N' ['O', 'T'] (by rw [hm])
      subst this
      revert hn; decide
    · have := hhead '(' [] (by rw [hm])
      subst this
      revert hn; decide
    · have := hhead ')' [] (by rw [hm])
      subst this
      revert hn; decide

/-- The scan loop of the default parser collects lower-case letters and digits into the
pending literal. -/
theorem default_tokenizeLoop_plain (w : List Char)
    (hw : ∀ c ∈ w, c.isLower = true ∨ c.isDigit = true) :
    ∀ (rest substr : List Char) (result : List String),
      tokenizeLoop '(' ')' defaultParser.matcher (w ++ rest) 0 substr result =
        tokenizeLoop '(' ')' defaultParser.matcher rest 0 (substr ++ w) result := by
  induction w with
  | nil => intro rest substr result; simp
  | cons c w ih =>
    intro rest substr result
    have hc := hw c (List.mem_cons_self _ _)
    have hn := lower_digit_toNat c hc
    have hp : ¬ (c = '(' ∨ c = ')') := by
      intro h
      rcases h with h | h <;> subst h <;> revert hn <;> decide
    have hsp : ¬ (IsSpace c = true) := by
      rw [lower_digit_not_space c hc]
      exact Bool.false_ne_true
    rw [List.cons_append, tokenizeLoop, if_neg hp, if_neg hsp]
    simp only [default_Match_plain c (w ++ rest) hc]
    rw [if_neg (by decide), ih (fun d hd => hw d (List.mem_cons_of_mem _ hd))]
    simp

/-- C25: the tokenizer of the default boolean parser recognises a keyword inside a word.
For a keyword `k` among AND, OR, NOT and strings `u`, `v` of lower-case letters and digits,
the tokens of `u ++ k ++ v` are `u`, `k`, `v` in order, without the empty ones; the text
`ORDER > 5 AND x == 1` is cut into OR, DER, `>`, 5, AND, x, `==`, 1 and `ParseStr` rejects it
with the parse error "unexpected end of expression". -/
theorem C25_keyword_inside_word (k u v : String) (hk : k ∈ ["AND", "OR", "NOT"])
    (hu : ∀ c ∈ u.data, c.isLower = true ∨ c.isDigit = true)
    (hv : ∀ c ∈ v.data, c.isLower = true ∨ c.isDigit = true) :
    defaultParser.tokenize (u ++ k ++ v) = [u, k, v].filter (fun tok => tok ≠ "") ∧
    defaultParser.tokenize "ORDER > 5 AND x == 1" =
      ["OR", "DER", ">", "5", "AND", "x", "==", "1"] ∧
    ∀ L : GoLib, defaultParser.ParseStr L "ORDER > 5 AND x == 1" =
      some (.error (wrapf .ErrParse ": unexpected end of expression")) := by
  refine ⟨?_, by decide, fun L => rfl⟩
  have hdata : (u ++ k ++ v).data = u.data ++ (k.data ++ (v.data ++ [])) := by
    simp [String.data_append]
  have hkne : k ≠ "" := by
    simp only [List.mem_cons, List.mem_singleton, List.mem_nil_iff, or_false] at hk
    rcases hk with h | h | h <;> subst h <;> decide
  rw [default_tokenize_eq, hdata, default_tokenizeLoop_plain u.data hu,
    default_tokenizeLoop_keyword k hk, default_tokenizeLoop_plain v.data hv]
  obtain ⟨ud⟩ := u
  obtain ⟨vd⟩ := v
  have hmk : ∀ cs : List Char, (String.mk cs = "") ↔ cs = [] := by
    intro cs
    constructor
    · intro h; exact congrArg String.data h
    · intro h; rw [h]
  cases ud <;> cases vd <;>
    simp [tokenizeLoop, flush, List.filter, hkne, hmk]

/-- C25 on `f`, OR, `m1`: the text `fORm1` gives the tokens `f`, OR, `m1`. -/
theorem C25_keyword_inside_word_witness :
    defaultParser.tokenize ("f" ++ "OR" ++ "m1") = ["f", "OR", "m1"] :=
  (C25_keyword_inside_word "OR" "f" "m1" (by decide) (by decide) (by decide)).1
end bools

namespace bools

open parse

theorem default_match_none_close (L : GoLib) (token : Token) (tokens tail : List String)
    (hne : token ≠ .CloseParen) (h : defaultParser.match_ L token tokens = none) :
    defaultParser.match_ L token (tokens ++ ")" :: tail) = none := by
  cases tokens with
  | nil =>
    rw [List.nil_append, default_match_cons]
    cases token <;> first | exact absurd rfl hne | rfl
  | cons curr tl =>
    rw [default_match_cons] at h
    rw [List.cons_append, default_match_cons]
    by_cases hc : curr = defaultParser.cfg token
    · simp [hc] at h
    · simp [hc]

theorem default_restRun_close (L : GoLib) (tokens tail : List String) :
    defaultParser.restRun L (tokens ++ ")" :: tail) =
      ((defaultParser.restRun L tokens).1,
        (defaultParser.restRun L tokens).2 ++ ")" :: tail) := by
  have hk : defaultParser.isKeyword L ")" = true := rfl
  induction tokens with
  | nil => simp [Parser.restRun, hk]
  | cons tok rest ih =>
    rw [List.cons_append]
    by_cases ht : defaultParser.isKeyword L tok = true
    · simp [Parser.restRun, ht]
    · simp [Parser.restRun, ht, ih]

theorem default_parseRest_close (L : GoLib) (tokens rest tail : List String) (ast : AST)
    (h : defaultParser.parseRest L tokens = some (.ok (ast, rest))) :
    defaultParser.parseRest L (tokens ++ ")" :: tail) =
      some (.ok (ast, rest ++ ")" :: tail)) := by
  unfold Parser.parseRest at h ⊢
  rw [default_restRun_close]
  by_cases hr : (defaultParser.restRun L tokens).1 = []
  · simp [hr] at h
  · simp only [hr, if_false, Option.some.injEq, Except.ok.injEq, Prod.mk.injEq] at h ⊢
    exact ⟨h.1, by rw [h.2]⟩

/-- A production of the default parser that returns a tree returns the same tree when a
close parenthesis and further tokens are put after the tokens, and leaves them unread. -/
theorem default_productions_close (L : GoLib) (tail : List String) (n : Nat) :
    (∀ tokens ast rest, Parser.parseParens L defaultParser n tokens = some (.ok (ast, rest)) →
      Parser.parseParens L defaultParser n (tokens ++ ")" :: tail) =
        some (.ok (ast, rest ++ ")" :: tail))) ∧
    (∀ tokens ast rest, Parser.parseNot L defaultParser n tokens = some (.ok (ast, rest)) →
      Parser.parseNot L defaultParser n (tokens ++ ")" :: tail) =
        some (.ok (ast, rest ++ ")" :: tail))) ∧
    (∀ tokens ast rest, Parser.parseOr L defaultParser n tokens = some (.ok (ast, rest)) →
      Parser.parseOr L defaultParser n (tokens ++ ")" :: tail) =
        some (.ok (ast, rest ++ ")" :: tail))) ∧
    (∀ tokens ast rest, Parser.parseAnd L defaultParser n tokens = some (.ok (ast, rest)) →
      Parser.parseAnd L defaultParser n (tokens ++ ")" :: tail) =
        some (.ok (ast, rest ++ ")" :: tail))) ∧
    (∀ tokens ast rest, Parser.parseExpr L defaultParser n tokens = some (.ok (ast, rest)) →
      Parser.parseExpr L defaultParser n (tokens ++ ")" :: tail) =
        some (.ok (ast, rest ++ ")" :: tail))) := by
  induction n with
  | zero =>
    refine ⟨?_, ?_, ?_, ?_, ?_⟩ <;> intro tokens ast rest h
    · simp [Parser.parseParens] at h
    · simp [Parser.parseNot] at h
    · simp [Parser.parseOr] at h
    · simp [Parser.parseAnd] at h
    · simp [Parser.parseExpr] at h
  | succ n ih =>
    obtain ⟨ihP, ihN, ihO, ihA, ihE⟩ := ih
    refine ⟨?_, ?_, ?_, ?_, ?_⟩ <;> intro tokens ast rest h
    · rw [Parser.parseParens] at h ⊢
      cases hm : defaultParser.match_ L .OpenParen tokens with
      | none =>
        simp only [hm] at h
        simp only [default_match_none_close L _ tokens tail (by decide) hm]
        exact default_parseRest_close L tokens rest tail ast h
      | some rest0 =>
        simp only [hm] at h
        simp only [default_match_append L _ tokens rest0 (")" :: tail) hm]
        obtain ⟨a1, r1, h1, h2⟩ := ParseResult.andThen_eq_ok _ _ _ _ h
        rw [ihE rest0 a1 r1 h1]
        simp only [ParseResult.andThen]
        cases hc : defaultParser.match_ L .CloseParen r1 with
        | none => simp [hc] at h2
        | some r2 =>
          simp only [hc, Option.some.injEq, Except.ok.injEq, Prod.mk.injEq] at h2
          rw [default_match_append L _ r1 r2 (")" :: tail) hc, h2.1, h2.2]
    · rw [Parser.parseNot] at h ⊢
      cases hm : defaultParser.match_ L .Not tokens with
      | none =>
        simp only [hm] at h
        simp only [default_match_none_close L _ tokens tail (by decide) hm]
        exact ihP tokens ast rest h
      | some rest0 =>
        simp only [hm] at h
        simp only [default_match_append L _ tokens rest0 (")" :: tail) hm]
        obtain ⟨a1, r1, h1, h2⟩ := ParseResult.andThen_eq_ok _ _ _ _ h
        rw [ihP rest0 a1 r1 h1]
        simp only [ParseResult.andThen, Option.some.injEq, Except.ok.injEq,
          Prod.mk.injEq] at h2 ⊢
        exact ⟨h2.1, by rw [h2.2]⟩
    · rw [Parser.parseOr] at h ⊢
      obtain ⟨lhs, r1, h1, h2⟩ := ParseResult.andThen_eq_ok _ _ _ _ h
      rw [ihN tokens lhs r1 h1]
      simp only [ParseResult.andThen]
      cases hm : defaultParser.match_ L .Or r1 with
      | none =>
        simp only [hm, Option.some.injEq, Except.ok.injEq, Prod.mk.injEq] at h2
        rw [default_match_none_close L _ r1 tail (by decide) hm, h2.1, h2.2]
      | some r2 =>
        simp only [hm] at h2
        simp only [default_match_append L _ r1 r2 (")" :: tail) hm]
        obtain ⟨rhs, r3, h3, h4⟩ := ParseResult.andThen_eq_ok _ _ _ _ h2
        have h5 := ihO r2 rhs r3 h3
        simp only [Option.some.injEq, Except.ok.injEq, Prod.mk.injEq] at h4
        simp only [h5, ParseResult.andThen, h4.1, h4.2]
    · rw [Parser.parseAnd] at h ⊢
      obtain ⟨lhs, r1, h1, h2⟩ := ParseResult.andThen_eq_ok _ _ _ _ h
      rw [ihO tokens lhs r1 h1]
      simp only [ParseResult.andThen]
      cases hm : defaultParser.match_ L .And r1 with
      | none =>
        simp only [hm, Option.some.injEq, Except.ok.injEq, Prod.mk.injEq] at h2
        rw [default_match_none_close L _ r1 tail (by decide) hm, h2.1, h2.2]
      | some r2 =>
        simp only [hm] at h2
        simp only [default_match_append L _ r1 r2 (")" :: tail) hm]
        obtain ⟨rhs, r3, h3, h4⟩ := ParseResult.andThen_eq_ok _ _ _ _ h2
        have h5 := ihA r2 rhs r3 h3
        simp only [Option.some.injEq, Except.ok.injEq, Prod.mk.injEq] at h4
        simp only [h5, ParseResult.andThen, h4.1, h4.2]
    · rw [Parser.parseExpr] at h ⊢
      exact ihA tokens ast rest h

/-- The productions of the default parser on a parenthesised expression: the tree of the
expression inside, with the cursor behind the close parenthesis. -/
theorem default_parseNot_parens (L : GoLib) (n : Nat) (toks tail : List String) (ast : AST)
    (h : Parser.parseExpr L defaultParser n toks = some (.ok (ast, []))) :
    Parser.parseNot L defaultParser (n + 2) ("(" :: (toks ++ ")" :: tail)) =
      some (.ok (ast, tail)) := by
  have hc := (default_productions_close L tail n).2.2.2.2 toks ast [] h
  have h1 : ¬ ("(" = defaultParser.cfg .Not) := by decide
  have h2 : "(" = defaultParser.cfg .OpenParen := rfl
  have h3 : ")" = defaultParser.cfg .CloseParen := rfl
  rw [Parser.parseNot, default_match_cons, if_neg h1]
  simp only
  rw [Parser.parseParens, default_match_cons, if_pos h2]
  simp only
  rw [hc]
  simp only [ParseResult.andThen, List.nil_append]
  rw [default_match_cons, if_pos h3]

/-- The tree of the tokens of a combined rule text: a node with the strategy as operator
over the trees of the two parenthesised token sequences. -/
theorem default_Parse_combined (L : GoLib) (toks1 toks2 : List String) (t1 t2 : AST)
    (s : String) (hs : s = "AND" ∨ s = "OR")
    (h1 : defaultParser.Parse L toks1 = some (.ok t1))
    (h2 : defaultParser.Parse L toks2 = some (.ok t2)) :
    defaultParser.Parse L ("(" :: toks1 ++ ")" :: s :: "(" :: toks2 ++ [")"]) =
      some (.ok (.BinExpr t1 t2 (if s = "AND" then OpAnd else OpOr))) := by
  have he1 : Parser.parseExpr L defaultParser (5 * toks1.length + 5) toks1 =
      some (.ok (t1, [])) := by
    unfold Parser.Parse at h1
    split at h1 <;> simp_all
  have he2 : Parser.parseExpr L defaultParser (5 * toks2.length + 5) toks2 =
      some (.ok (t2, [])) := by
    unfold Parser.Parse at h2
    split at h2 <;> simp_all
  have hm1 := parseExpr_mono L defaultParser _ (5 * toks2.length + 5) toks1 _ he1
  have hm2 := parseExpr_mono L defaultParser _ (5 * toks1.length + 5) toks2 _ he2
  rw [Nat.add_comm (5 * toks2.length + 5)] at hm2
  obtain ⟨m, hm⟩ : ∃ m, m = 5 * toks1.length + 5 + (5 * toks2.length + 5) := ⟨_, rfl⟩
  rw [← hm] at hm1 hm2
  have hN1 : ∀ k tail, Parser.parseNot L defaultParser (m + k + 2)
      ("(" :: (toks1 ++ ")" :: tail)) = some (.ok (t1, tail)) :=
    fun k tail => default_parseNot_parens L (m + k) toks1 tail t1
      (parseExpr_mono L defaultParser m k toks1 _ hm1)
  have hN2 : ∀ k, Parser.parseNot L defaultParser (m + k + 2)
      ("(" :: (toks2 ++ ")" :: [])) = some (.ok (t2, [])) :=
    fun k => default_parseNot_parens L (m + k) toks2 [] t2
      (parseExpr_mono L defaultParser m k toks2 _ hm2)
  have hO2 : ∀ k, Parser.parseOr L defaultParser (m + k + 3)
      ("(" :: (toks2 ++ ")" :: [])) = some (.ok (t2, [])) := by
    intro k
    rw [Parser.parseOr, hN2 k]
    simp only [ParseResult.andThen, default_match_nil]
  have hexpr : Parser.parseExpr L defaultParser (m + 10)
      ("(" :: (toks1 ++ ")" :: s :: "(" :: (toks2 ++ ")" :: []))) =
      some (.ok (.BinExpr t1 t2 (if s = "AND" then OpAnd else OpOr), [])) := by
    rcases hs with hs | hs <;> subst hs
    · have hO1 : Parser.parseOr L defaultParser (m + 5 + 3)
          ("(" :: (toks1 ++ ")" :: "AND" :: "(" :: (toks2 ++ ")" :: []))) =
          some (.ok (t1, "AND" :: "(" :: (toks2 ++ ")" :: []))) := by
        rw [Parser.parseOr, hN1 5]
        simp only [ParseResult.andThen, default_match_cons]
        rw [if_neg (by decide)]
      have hA2 : Parser.parseAnd L defaultParser (m + 4 + 4)
          ("(" :: (toks2 ++ ")" :: [])) = some (.ok (t2, [])) := by
        rw [Parser.parseAnd, hO2 4]
        simp only [ParseResult.andThen, default_match_nil]
      show Parser.parseExpr L defaultParser (m + 5 + 3 + 1 + 1) _ = _
      rw [Parser.parseExpr, Parser.parseAnd, hO1]
      simp only [ParseResult.andThen, default_match_cons]
      rw [if_pos (by decide)]
      simp only
      rw [show m + 5 + 3 = m + 4 + 4 from rfl, hA2]
      simp [ParseResult.andThen]
    · have hO1 : Parser.parseOr L defaultParser (m + 5 + 3)
          ("(" :: (toks1 ++ ")" :: "OR" :: "(" :: (toks2 ++ ")" :: []))) =
          some (.ok (.BinExpr t1 t2 OpOr, [])) := by
        rw [Parser.parseOr, hN1 5]
        simp only [ParseResult.andThen, default_match_cons]
        rw [if_pos (by decide)]
        simp only
        rw [show m + 5 + 2 = m + 4 + 3 from rfl, hO2 4]
      show Parser.parseExpr L defaultParser (m + 5 + 3 + 1 + 1) _ = _
      rw [Parser.parseExpr, Parser.parseAnd, hO1]
      simp [ParseResult.andThen, default_match_nil]
  have hfuel : 5 * ("(" :: toks1 ++ ")" :: s :: "(" :: toks2 ++ [")"]).length + 5 =
      m + 10 + 10 := by
    simp only [List.length_cons, List.length_append, List.length_nil, hm]
    omega
  unfold Parser.Parse
  rw [hfuel, parseExpr_mono L defaultParser (m + 10) 10 _ _ (by simpa using hexpr)]

end bools

namespace bools

open parse

theorem default_restRun_run (L : GoLib) (toks : List String)
    (hk : ∀ x ∈ toks, defaultParser.isKeyword L x = false) :
    defaultParser.restRun L toks = (toks, []) := by
  induction toks with
  | nil => rfl
  | cons a tl ih =>
    have ha := hk a (List.mem_cons_self _ _)
    have htl := ih (fun x hx => hk x (List.mem_cons_of_mem _ hx))
    simp [Parser.restRun, ha, htl]

/-- `Parse` of the default parser on a non-empty run of tokens without keywords: one leaf
that holds the run. -/
theorem default_Parse_run (L : GoLib) (a : String) (tl : List String)
    (hk : ∀ x ∈ a :: tl, defaultParser.isKeyword L x = false) :
    defaultParser.Parse L (a :: tl) = some (.ok (.Unparsed (a :: tl))) := by
  have ha := hk a (List.mem_cons_self _ _)
  have h1 := default_ne_surface L a .Not ha
  have h2 := default_ne_surface L a .OpenParen ha
  have hrun := default_restRun_run L (a :: tl) hk
  apply Parse_of_parseAnd
  generalize 5 * (a :: tl).length = n
  simp [Parser.parseAnd, Parser.parseOr, Parser.parseNot, Parser.parseParens,
    Parser.parseRest, default_match_cons, default_match_nil, h1, h2, hrun,
    ParseResult.andThen]

end bools

namespace controller

open parse

/-- The two passes of `parseTree`: the boolean parser on the tokens of the text, then the
comparison parser on the leaves of its tree. -/
theorem parseTree_ok_iff (L : GoLib) (ruleString : String) (t : AST) :
    parseTree L ruleString = .ret (.ok t) ↔
      ∃ b, bools.defaultParser.Parse L (bools.defaultParser.tokenize ruleString) =
          some (.ok b) ∧
        AST.Parse (comp.defaultParser.Parse L) b = some (.ok t) := by
  simp only [parseTree, bools.bools_NewParser_default, comp.comp_NewParser_default,
    bools.Parser.ParseStr]
  rcases hb : bools.defaultParser.Parse L (bools.defaultParser.tokenize ruleString) with
    _ | e | b
  · simp
  · simp
  · rcases hc : AST.Parse (comp.defaultParser.Parse L) b with _ | e | c
    · simp [hc]
    · simp [hc]
    · simp [hc]

/-- A tree that `Parse` accepts is no leaf, so that as a child it is parsed in place. -/
theorem parseChild_of_Parse_ok (p : List String → Option (Except GoError AST)) (b t : AST)
    (h : AST.Parse p b = some (.ok t)) : b.parseChild p = some (.ok t) := by
  cases b with
  | Unparsed c => simp [AST.Parse] at h
  | BinExpr l r op => exact h
  | UnaryExpr op x => exact h
  | EqualExpr l r op => exact h
  | OrdinalExpr l r op => exact h

/-- C26: combining two rule texts is the AND / OR of the operands.  When `parseTree` accepts
`r1` and `r2` with the trees `t1` and `t2`, the strategy `s` is AND or OR, and `evaluateRule`
yields the nodes `e1` and `e2` on `t1` and `t2` under the bindings `m`, then `parseTree`
accepts `combineRule(r1, r2, s)`, its tree is the node with operator `s` over `t1` and `t2`
themselves, and `evaluateRule` yields on it the node whose `MatchValue` is
`e1.MatchValue && e2.MatchValue` for AND and `e1.MatchValue || e2.MatchValue` for OR. -/
theorem C26_combination_semantics (L : GoLib) (r1 r2 s : String) (t1 t2 : AST)
    (m : String → Option String) (e1 e2 : EvaluateNode)
    (h1 : parseTree L r1 = .ret (.ok t1)) (h2 : parseTree L r2 = .ret (.ok t2))
    (hs : s = "AND" ∨ s = "OR")
    (he1 : evaluateRule L t1 m = .ret (some e1))
    (he2 : evaluateRule L t2 m = .ret (some e2)) :
    parseTree L (combineRule r1 r2 s) =
      .ret (.ok (.BinExpr t1 t2 (if s = "AND" then bools.OpAnd else bools.OpOr))) ∧
    evaluateRule L (.BinExpr t1 t2 (if s = "AND" then bools.OpAnd else bools.OpOr)) m =
      .ret (some { Key := "",
                   MatchValue := if s = "AND" then e1.MatchValue && e2.MatchValue
                     else e1.MatchValue || e2.MatchValue }) := by
  obtain ⟨b1, hb1, hc1⟩ := (parseTree_ok_iff L r1 t1).mp h1
  obtain ⟨b2, hb2, hc2⟩ := (parseTree_ok_iff L r2 t2).mp h2
  constructor
  · rw [parseTree_ok_iff]
    refine ⟨.BinExpr b1 b2 (if s = "AND" then bools.OpAnd else bools.OpOr), ?_, ?_⟩
    · rw [combineRule, bools.default_tokenize_combined r1 r2 s hs]
      exact bools.default_Parse_combined L _ _ b1 b2 s hs hb1 hb2
    · rw [Parse_BinExpr, parseChild_of_Parse_ok _ b1 t1 hc1,
        parseChild_of_Parse_ok _ b2 t2 hc2]
      rfl
  · have hf := evaluateRule_BinExpr_fold L t1 t2 m e1 e2 he1 he2
    by_cases h : s = "AND"
    · simp only [h, if_true]
      exact hf.1
    · simp only [h, if_false]
      exact hf.2

/-- C26 on `age > 30 AND department == 'ENGINEERING'` and `a == 1 OR b == 2` combined with
OR, under bindings that make the first rule false and the second true. -/
theorem C26_combination_semantics_witness :
    parseTree integerLib "age > 30 AND department == 'ENGINEERING'" =
      .ret (.ok (.BinExpr
        (.OrdinalExpr (.Unparsed ["age"]) (.Unparsed ["30"]) comp.OpGreater)
        (.EqualExpr (.Unparsed ["department"]) (.Unparsed ["'ENGINEERING'"]) comp.OpEqual)
        bools.OpAnd)) ∧
    parseTree integerLib "a == 1 OR b == 2" =
      .ret (.ok (.BinExpr
        (.EqualExpr (.Unparsed ["a"]) (.Unparsed ["1"]) comp.OpEqual)
        (.EqualExpr (.Unparsed ["b"]) (.Unparsed ["2"]) comp.OpEqual)
        bools.OpOr)) ∧
    parseTree integerLib
        (combineRule "age > 30 AND department == 'ENGINEERING'" "a == 1 OR b == 2" "OR") =
      .ret (.ok (.BinExpr
        (.BinExpr
          (.OrdinalExpr (.Unparsed ["age"]) (.Unparsed ["30"]) comp.OpGreater)
          (.EqualExpr (.Unparsed ["department"]) (.Unparsed ["'ENGINEERING'"]) comp.OpEqual)
          bools.OpAnd)
        (.BinExpr
          (.EqualExpr (.Unparsed ["a"]) (.Unparsed ["1"]) comp.OpEqual)
          (.EqualExpr (.Unparsed ["b"]) (.Unparsed ["2"]) comp.OpEqual)
          bools.OpOr)
        bools.OpOr)) ∧
    evaluateRule integerLib
        (.BinExpr
          (.BinExpr
            (.OrdinalExpr (.Unparsed ["age"]) (.Unparsed ["30"]) comp.OpGreater)
            (.EqualExpr (.Unparsed ["department"]) (.Unparsed ["'ENGINEERING'"])
              comp.OpEqual)
            bools.OpAnd)
          (.BinExpr
            (.EqualExpr (.Unparsed ["a"]) (.Unparsed ["1"]) comp.OpEqual)
            (.EqualExpr (.Unparsed ["b"]) (.Unparsed ["2"]) comp.OpEqual)
            bools.OpOr)
          bools.OpOr)
        (bindings [("age", "29"), ("department", "ENGINEERING"), ("a", "1")]) =
      .ret (some { Key := "", MatchValue := true }) :=
  ⟨rfl, rfl,
    (C26_combination_semantics integerLib "age > 30 AND department == 'ENGINEERING'"
      "a == 1 OR b == 2" "OR" _ _
      (bindings [("age", "29"), ("department", "ENGINEERING"), ("a", "1")])
      { Key := "", MatchValue := false } { Key := "", MatchValue := true }
      rfl rfl (Or.inr rfl) rfl rfl).1,
    (C26_combination_semantics integerLib "age > 30 AND department == 'ENGINEERING'"
      "a == 1 OR b == 2" "OR" _ _
      (bindings [("age", "29"), ("department", "ENGINEERING"), ("a", "1")])
      { Key := "", MatchValue := false } { Key := "", MatchValue := true }
      rfl rfl (Or.inr rfl) rfl rfl).2⟩

end controller

namespace controller

open parse

/-- The two passes of `parseTree` on a combined text whose two rule texts are cut into a
name, a comparison operator and a literal each. -/
theorem parseTree_combined_comparisons (L : GoLib) (r1 r2 s n1 l1 n2 l2 : String)
    (o1 o2 : comp.Token)
    (ho1 : o1 ≠ .OpenParen ∧ o1 ≠ .CloseParen) (ho2 : o2 ≠ .OpenParen ∧ o2 ≠ .CloseParen)
    (h1 : bools.defaultParser.tokenize r1 = [n1, comp.defaultParser.cfg o1, l1])
    (h2 : bools.defaultParser.tokenize r2 = [n2, comp.defaultParser.cfg o2, l2])
    (hn1 : bools.defaultParser.isKeyword L n1 = false ∧
      comp.defaultParser.isKeyword L n1 = false)
    (hl1 : bools.defaultParser.isKeyword L l1 = false ∧
      comp.defaultParser.isKeyword L l1 = false)
    (hn2 : bools.defaultParser.isKeyword L n2 = false ∧
      comp.defaultParser.isKeyword L n2 = false)
    (hl2 : bools.defaultParser.isKeyword L l2 = false ∧
      comp.defaultParser.isKeyword L l2 = false)
    (hs : s = "AND" ∨ s = "OR") :
    parseTree L (combineRule r1 r2 s) =
      .ret (.ok (.BinExpr
        (if o1 = .Equal ∨ o1 = .NotEqual
          then .EqualExpr (.Unparsed [n1]) (.Unparsed [l1]) (comp.tokenToOp o1)
          else .OrdinalExpr (.Unparsed [n1]) (.Unparsed [l1]) (comp.tokenToOp o1))
        (if o2 = .Equal ∨ o2 = .NotEqual
          then .EqualExpr (.Unparsed [n2]) (.Unparsed [l2]) (comp.tokenToOp o2)
          else .OrdinalExpr (.Unparsed [n2]) (.Unparsed [l2]) (comp.tokenToOp o2))
        (if s = "AND" then bools.OpAnd else bools.OpOr))) := by
  have hop : ∀ o : comp.Token, o ≠ .OpenParen ∧ o ≠ .CloseParen →
      bools.defaultParser.isKeyword L (comp.defaultParser.cfg o) = false := by
    intro o ho
    cases o
    · rfl
    · rfl
    · rfl
    · rfl
    · rfl
    · rfl
    · exact absurd rfl ho.1
    · exact absurd rfl ho.2
  have hb : ∀ (n l : String) (o : comp.Token), o ≠ .OpenParen ∧ o ≠ .CloseParen →
      bools.defaultParser.isKeyword L n = false → bools.defaultParser.isKeyword L l = false →
      bools.defaultParser.Parse L [n, comp.defaultParser.cfg o, l] =
        some (.ok (.Unparsed [n, comp.defaultParser.cfg o, l])) := by
    intro n l o ho hn hl
    apply bools.default_Parse_run
    intro x hx
    simp only [List.mem_cons, List.mem_singleton, List.mem_nil_iff, or_false] at hx
    rcases hx with hx | hx | hx
    · rw [hx]; exact hn
    · rw [hx]; exact hop o ho
    · rw [hx]; exact hl
  have hc : ∀ (n l : String) (o : comp.Token), o ≠ .OpenParen ∧ o ≠ .CloseParen →
      comp.defaultParser.isKeyword L n = false → comp.defaultParser.isKeyword L l = false →
      comp.defaultParser.Parse L [n, comp.defaultParser.cfg o, l] =
        some (.ok (if o = .Equal ∨ o = .NotEqual
          then .EqualExpr (.Unparsed [n]) (.Unparsed [l]) (comp.tokenToOp o)
          else .OrdinalExpr (.Unparsed [n]) (.Unparsed [l]) (comp.tokenToOp o))) := by
    intro n l o ho hn hl
    have := comp.comp_default_Parse_binary L [n] [l] o (by simp)
      (fun x hx => by rw [List.mem_singleton.mp hx]; exact hn) (by simp)
      (fun x hx => by rw [List.mem_singleton.mp hx]; exact hl) ho
    simpa using this
  rw [parseTree_ok_iff]
  refine ⟨.BinExpr (.Unparsed [n1, comp.defaultParser.cfg o1, l1])
    (.Unparsed [n2, comp.defaultParser.cfg o2, l2])
    (if s = "AND" then bools.OpAnd else bools.OpOr), ?_, ?_⟩
  · rw [combineRule, bools.default_tokenize_combined r1 r2 s hs, h1, h2]
    exact bools.default_Parse_combined L _ _ _ _ s hs (hb n1 l1 o1 ho1 hn1.1 hl1.1)
      (hb n2 l2 o2 ho2 hn2.1 hl2.1)
  · rw [Parse_BinExpr, AST.parseChild, AST.parseChild, hc n1 l1 o1 ho1 hn1.2 hl1.2,
      hc n2 l2 o2 ho2 hn2.2 hl2.2]
    rfl

/-- C23 (counterexample): `ORDER > 5` and `x == 1` are comparisons of the form
`name op literal` (the comparison parser accepts the three words of each), yet `parseTree`
rejects the combined text `(ORDER > 5) AND (x == 1)`: the tokenizer cuts the name `ORDER`
at the keyword OR. -/
theorem C23_name_with_keyword_rejected :
    comp.defaultParser.Parse integerLib ["ORDER", ">", "5"] =
      some (.ok (.OrdinalExpr (.Unparsed ["ORDER"]) (.Unparsed ["5"]) comp.OpGreater)) ∧
    comp.defaultParser.Parse integerLib ["x", "==", "1"] =
      some (.ok (.EqualExpr (.Unparsed ["x"]) (.Unparsed ["1"]) comp.OpEqual)) ∧
    combineRule "ORDER > 5" "x == 1" "AND" = "(ORDER > 5) AND (x == 1)" ∧
    bools.defaultParser.tokenize (combineRule "ORDER > 5" "x == 1" "AND") =
      ["(", "OR", "DER", ">", "5", ")", "AND", "(", "x", "==", "1", ")"] ∧
    parseTree integerLib (combineRule "ORDER > 5" "x == 1" "AND") =
      .ret (.error (wrapf .ErrParse ": unexpected end of expression")) :=
  ⟨by decide, by decide, by decide, by decide, by decide⟩

/-- C23 (amended): `combineRule(r1, r2, s)` is the text `(r1) s (r2)` for all strings; and
when the tokenizer of the boolean parser cuts each of `r1` and `r2` into exactly a name, one
of the six comparison operators and a literal, the name and the literal being keywords of
neither grammar, and `s` is AND or OR, `parseTree` accepts the combined text, with the node
of `s` over the two comparisons as its tree. -/
theorem C23_combine_rule (L : GoLib) (r1 r2 s n1 l1 n2 l2 : String)
    (o1 o2 : comp.Token)
    (ho1 : o1 ≠ .OpenParen ∧ o1 ≠ .CloseParen) (ho2 : o2 ≠ .OpenParen ∧ o2 ≠ .CloseParen)
    (h1 : bools.defaultParser.tokenize r1 = [n1, comp.defaultParser.cfg o1, l1])
    (h2 : bools.defaultParser.tokenize r2 = [n2, comp.defaultParser.cfg o2, l2])
    (hn1 : bools.defaultParser.isKeyword L n1 = false ∧
      comp.defaultParser.isKeyword L n1 = false)
    (hl1 : bools.defaultParser.isKeyword L l1 = false ∧
      comp.defaultParser.isKeyword L l1 = false)
    (hn2 : bools.defaultParser.isKeyword L n2 = false ∧
      comp.defaultParser.isKeyword L n2 = false)
    (hl2 : bools.defaultParser.isKeyword L l2 = false ∧
      comp.defaultParser.isKeyword L l2 = false)
    (hs : s = "AND" ∨ s = "OR") :
    (∀ a b c : String, combineRule a b c = "(" ++ a ++ ") " ++ c ++ " (" ++ b ++ ")") ∧
    parseTree L (combineRule r1 r2 s) =
      .ret (.ok (.BinExpr
        (if o1 = .Equal ∨ o1 = .NotEqual
          then .EqualExpr (.Unparsed [n1]) (.Unparsed [l1]) (comp.tokenToOp o1)
          else .OrdinalExpr (.Unparsed [n1]) (.Unparsed [l1]) (comp.tokenToOp o1))
        (if o2 = .Equal ∨ o2 = .NotEqual
          then .EqualExpr (.Unparsed [n2]) (.Unparsed [l2]) (comp.tokenToOp o2)
          else .OrdinalExpr (.Unparsed [n2]) (.Unparsed [l2]) (comp.tokenToOp o2))
        (if s = "AND" then bools.OpAnd else bools.OpOr))) :=
  ⟨fun _ _ _ => rfl,
    parseTree_combined_comparisons L r1 r2 s n1 l1 n2 l2 o1 o2 ho1 ho2 h1 h2 hn1 hl1 hn2 hl2
      hs⟩

/-- C23 (amended) on `age > 30` and `department == 'ENGINEERING'` combined with AND. -/
theorem C23_combine_rule_witness :
    bools.defaultParser.tokenize "age > 30" = ["age", ">", "30"] ∧
    bools.defaultParser.tokenize "department == 'ENGINEERING'" =
      ["department", "==", "'ENGINEERING'"] ∧
    combineRule "age > 30" "department == 'ENGINEERING'" "AND" =
      "(age > 30) AND (department == 'ENGINEERING')" ∧
    parseTree integerLib (combineRule "age > 30" "department == 'ENGINEERING'" "AND") =
      .ret (.ok (.BinExpr
        (.OrdinalExpr (.Unparsed ["age"]) (.Unparsed ["30"]) comp.OpGreater)
        (.EqualExpr (.Unparsed ["department"]) (.Unparsed ["'ENGINEERING'"]) comp.OpEqual)
        bools.OpAnd)) :=
  ⟨by decide, by decide, by decide,
    (C23_combine_rule integerLib "age > 30" "department == 'ENGINEERING'" "AND"
      "age" "30" "department" "'ENGINEERING'" .Greater .Equal (by decide) (by decide)
      (by decide) (by decide) (by decide) (by decide) (by decide) (by decide)
      (Or.inl rfl)).2⟩

end controller
